import Mathlib

set_option maxHeartbeats 1000000

/-!
Verification of the Regioned RVSDG library: a shallow embedding of the
graph store (`src/data_flow/graph.rs`), the reverse-topological visitor
(`src/visit/reverse_topological.rs`), the sweep pass
(`src/transform/sweep.rs`), the revision primitives
(`src/transform/revise.rs`), and the invariant-input relaxation pass
(`src/transform/relax_dependencies.rs` over the `Nodes` store of
`src/data_flow/nodes.rs`).
-/

namespace Regioned

/-- A port index (`Port` in `src/data_flow/link.rs`; a `u16` in the source,
modelled as `Nat` since no verified claim exercises the 16-bit bound). -/
abbrev Port := Nat

/-- A node identifier: the arena slot index (`Id`). -/
abbrev Id := Nat

/-- `Link` from `src/data_flow/link.rs`: an `(Id, Port)` pair. -/
structure Link where
  node : Id
  port : Port
deriving Repr, DecidableEq

instance : Inhabited Link := ⟨⟨0, 0⟩⟩

/-- `Link::new`. -/
def Link.new (node : Id) (port : Port) : Link := ⟨node, port⟩

/-- `impl From<Id> for Link`: default port 0. -/
def Link.ofId (node : Id) : Link := ⟨node, 0⟩

/-- A region: a `(start, end)` pair of marker node ids (`Region::new`,
`Region::start`, `Region::end`). -/
structure Region where
  start : Id
  end_ : Id
deriving Repr, DecidableEq

instance : Inhabited Region := ⟨⟨0, 0⟩⟩

/-- Marker node kind of the graph snapshot (`Marker::Start` / `Marker::End`
are unit variants; an `End` node's inputs live in `Graph.predecessors`). -/
inductive Marker where
  | start
  | end_
deriving Repr, DecidableEq

/-- Compound node kind (`Compound::{Gamma, Theta, Lambda, Phi}`). -/
inductive Compound where
  | gamma
  | theta
  | lambda
  | phi
deriving Repr, DecidableEq

/-- `Node<S>` of the graph snapshot: a user payload, a region marker, or a
compound.  Parameter links are stored in `Graph.predecessors`. -/
inductive Node (S : Type) where
  | simple (s : S)
  | marker (m : Marker)
  | compound (c : Compound)
deriving Repr, DecidableEq

/-- `Node::as_compound` (by value: `Compound` is `Copy`). -/
def Node.as_compound {S : Type} : Node S → Option Compound
  | .compound c => some c
  | _ => none

/-- Modelled from the spec: the slot-based arena behind `Graph.nodes`
(the `arena` crate is an external dependency, not under `src/`; spec §4.1
describes a slot arena whose insertion reuses vacant slots and whose keys
index parallel vectors).  Insertion fills the lowest vacant slot, else
appends a fresh one. -/
structure Arena (α : Type) where
  slots : List (Option α)
deriving Repr, DecidableEq

namespace Arena

def empty {α : Type} : Arena α := ⟨[]⟩

/-- Slot read; `none` both for vacant and out-of-range slots. -/
def get {α : Type} (a : Arena α) (i : Nat) : Option α := a.slots.getD i none

/-- Index of the lowest vacant slot, or the length if all are full. -/
def vacant {α : Type} : List (Option α) → Nat
  | [] => 0
  | none :: _ => 0
  | some _ :: rest => vacant rest + 1

/-- `Arena::insert`: returns the new key and the updated arena. -/
def insert {α : Type} (a : Arena α) (x : α) : Nat × Arena α :=
  let i := vacant a.slots
  if i < a.slots.length then (i, ⟨a.slots.set i (some x)⟩)
  else (i, ⟨a.slots ++ [some x]⟩)

/-- `Arena::try_remove`: removes and returns the value if the key is live. -/
def try_remove {α : Type} (a : Arena α) (i : Nat) : Option α × Arena α :=
  match a.slots.getD i none with
  | none => (none, a)
  | some x => (some x, ⟨a.slots.set i none⟩)

/-- `Arena::remove` (value discarded). -/
def remove {α : Type} (a : Arena α) (i : Nat) : Arena α := (a.try_remove i).2

/-- `Arena::retain`: keep exactly the live slots whose index satisfies `p`. -/
def retain {α : Type} (a : Arena α) (p : Nat → Bool) : Arena α :=
  ⟨a.slots.mapIdx fun i o => if p i then o else none⟩

end Arena

/-- One past the largest live slot index (value of
`keys().next_back().map_or(0, |id| id.index() + 1)`). -/
def activeAux {α : Type} : List (Option α) → Nat
  | [] => 0
  | o :: rest =>
    let r := activeAux rest
    if r = 0 then (if o.isSome then 1 else 0) else r + 1

/-- Association-list lookup for the `regions` hash map. -/
def alistGet {β : Type} : List (Id × β) → Id → Option β
  | [], _ => none
  | (k, v) :: rest, i => if k = i then some v else alistGet rest i

/-- `HashMap::remove` (entry dropped). -/
def alistRemove {β : Type} (l : List (Id × β)) (k : Id) : List (Id × β) :=
  l.filter fun kv => decide (kv.1 ≠ k)

/-- `HashMap::insert` (old entry replaced). -/
def alistInsert {β : Type} (l : List (Id × β)) (k : Id) (v : β) : List (Id × β) :=
  (k, v) :: alistRemove l k

/-- `Graph<S>` from `src/data_flow/graph.rs`: node arena, region map, and
per-node predecessor (parameter) lists. -/
structure Graph (S : Type) where
  nodes : Arena (Node S)
  regions : List (Id × List Region)
  predecessors : List (List Link)
deriving Repr, DecidableEq

namespace Graph

/-- `Graph::new`. -/
def new {S : Type} : Graph S := ⟨Arena.empty, [], []⟩

/-- `Graph::active`: one past the largest live index. -/
def active {S : Type} (g : Graph S) : Nat := activeAux g.nodes.slots

/-- `Graph::clear`: drops nodes and regions, keeps the predecessor vectors. -/
def clear {S : Type} (g : Graph S) : Graph S :=
  { g with nodes := Arena.empty, regions := [] }

/-- `Graph::add_node`: arena insert, then reset the key's predecessor list in
place (slot reuse) or push a fresh empty list. -/
def add_node {S : Type} (g : Graph S) (n : Node S) : Id × Graph S :=
  let p := g.nodes.insert n
  let preds :=
    if p.1 < g.predecessors.length then g.predecessors.set p.1 []
    else g.predecessors ++ [[]]
  (p.1, { g with nodes := p.2, predecessors := preds })

/-- `Graph::remove_node`: `nodes.try_remove(id)`. -/
def remove_node {S : Type} (g : Graph S) (id : Id) : Option (Node S) × Graph S :=
  let p := g.nodes.try_remove id
  (p.1, { g with nodes := p.2 })

/-- `Graph::add_region`: allocates the `Start` then the `End` marker. -/
def add_region {S : Type} (g : Graph S) : Region × Graph S :=
  let ps := g.add_node (.marker .start)
  let pe := ps.2.add_node (.marker .end_)
  (⟨ps.1, pe.1⟩, pe.2)

/-- `Graph::remove_region`: removes the two marker nodes. -/
def remove_region {S : Type} (g : Graph S) (r : Region) : Graph S :=
  { g with nodes := (g.nodes.remove r.start).remove r.end_ }

/-- `Graph::add_compound`: compound node plus one owned region. -/
def add_compound {S : Type} (g : Graph S) (c : Compound) : (Id × Region) × Graph S :=
  let pn := g.add_node (.compound c)
  let pr := pn.2.add_region
  ((pn.1, pr.1), { pr.2 with regions := alistInsert pr.2.regions pn.1 [pr.1] })

/-- `Graph::add_gamma`: gamma node with a caller-supplied region list. -/
def add_gamma {S : Type} (g : Graph S) (rl : List Region) : Id × Graph S :=
  let pn := g.add_node (.compound .gamma)
  (pn.1, { pn.2 with regions := alistInsert pn.2.regions pn.1 rl })

/-- `Graph::remove_compound`: pops the region-map entry (early return `none`
if absent), removes each owned region's markers, then removes the node. -/
def remove_compound {S : Type} (g : Graph S) (id : Id) : Option Compound × Graph S :=
  match alistGet g.regions id with
  | none => (none, g)
  | some rl =>
    let g1 : Graph S := { g with regions := alistRemove g.regions id }
    let g2 := rl.foldl Graph.remove_region g1
    let p := g2.remove_node id
    (p.1.bind Node.as_compound, p.2)

end Graph

/-! ## The reverse-topological visitor (`src/visit/reverse_topological.rs`)

The visitor is the `Entry` stack machine of `run_with`.  Out-of-bounds or
dead-key indexing in the Rust source is a panic; the machine records it in
the `panicked` flag and the surrounding run stops. -/

/-- The visitor's stack entries (`enum Entry`). -/
inductive Entry where
  | preds (id : Id) (count : Nat)
  | regs (id : Id) (count : Nat)
  | node (id : Id)
deriving Repr, DecidableEq

/-- Machine state: the `seen` vector, the entry stack (head is the top), the
emitted ids in order, and the panic flag. -/
structure MState where
  seen : List Bool
  stack : List Entry
  out : List Id
  panicked : Bool
deriving Repr, DecidableEq

/-- Read of the `seen` vector as a total function. -/
def seenAt (seen : List Bool) (i : Nat) : Bool := seen.getD i false

/-- `ReverseTopological::add_node_by_id`: skip if seen, else mark and push a
`Predecessors` entry; `seen[id]` or `predecessors[id]` out of bounds is the
Rust panic. -/
def add_node_by_id (preds : List (List Link)) (s : MState) (id : Id) : MState :=
  if s.panicked then s
  else
    match s.seen[id]? with
    | none => { s with panicked := true }
    | some true => s
    | some false =>
      match preds[id]? with
      | none => { s with panicked := true }
      | some pl =>
        { s with
          seen := s.seen.set id true
          stack := .preds id pl.length :: s.stack }

/-- `ReverseTopological::add_region`: queue the `end` then the `start`
marker (so the `start` entry is on top of the stack). -/
def add_region_entries (preds : List (List Link)) (s : MState) (r : Region) : MState :=
  add_node_by_id preds (add_node_by_id preds s r.end_) r.start

/-- `region_count_checked`: `0` for non-compounds, the owned region count for
compounds; `none` models the panic on a dead key or a missing map entry. -/
def region_count_checked {S : Type} (g : Graph S) (id : Id) : Option Nat :=
  match g.nodes.get id with
  | none => none
  | some n =>
    match n.as_compound with
    | none => some 0
    | some _ =>
      match alistGet g.regions id with
      | none => none
      | some rl => some rl.length

/-- `ReverseTopological::handle_predecessor`. -/
def handle_predecessor {S : Type} (g : Graph S) (count : Nat) (id : Id) (s : MState) :
    MState :=
  match count with
  | c + 1 =>
    let s1 : MState := { s with stack := .preds id c :: s.stack }
    match g.predecessors[id]? with
    | none => { s1 with panicked := true }
    | some pl =>
      if c < pl.length then
        add_node_by_id g.predecessors s1 (pl.getD (pl.length - c - 1) default).node
      else { s1 with panicked := true }
  | 0 =>
    match region_count_checked g id with
    | none => { s with panicked := true }
    | some rc => { s with stack := .regs id rc :: s.stack }

/-- `ReverseTopological::handle_region`. -/
def handle_region {S : Type} (g : Graph S) (count : Nat) (id : Id) (s : MState) :
    MState :=
  match count with
  | c + 1 =>
    let s1 : MState := { s with stack := .regs id c :: s.stack }
    match alistGet g.regions id with
    | none => { s1 with panicked := true }
    | some rl =>
      if c < rl.length then
        add_region_entries g.predecessors s1 (rl.getD (rl.length - c - 1) default)
      else { s1 with panicked := true }
  | 0 => { s with stack := .node id :: s.stack }

/-- One loop iteration of `run_with` on a popped entry (the `Node` case
applies the visitor's `function`, i.e. appends to the emission list). -/
def exec1 {S : Type} (g : Graph S) (e : Entry) (s : MState) : MState :=
  match e with
  | .preds id count => handle_predecessor g count id s
  | .regs id count => handle_region g count id s
  | .node id => { s with out := s.out ++ [id] }

/-- The `while let Some(entry) = self.stack.pop()` loop, with explicit fuel
(a sufficient fuel bound is computed below and proved adequate). -/
def loopFuel {S : Type} (g : Graph S) : Nat → MState → MState
  | 0, s => s
  | f + 1, s =>
    if s.panicked then s
    else
      match s.stack with
      | [] => s
      | e :: rest => loopFuel g f (exec1 g e { s with stack := rest })

/-- `ReverseTopological::set_up_roots`: clear and resize `seen`, queue every
root, then reverse the stack so the first root is processed first. -/
def set_up_roots {S : Type} (g : Graph S) (roots : List Id) : MState :=
  let s0 : MState := ⟨List.replicate g.active false, [], [], false⟩
  let s1 := roots.foldl (add_node_by_id g.predecessors) s0
  { s1 with stack := s1.stack.reverse }

/-! ### Termination measure for the machine -/

/-- Region count used in the weight of a pending `preds` entry (the total
variant of `region_count_checked`). -/
def rcb {S : Type} (g : Graph S) (id : Id) : Nat := (region_count_checked g id).getD 0

/-- Weight of a stack entry: each transition strictly decreases the summed
weight, except the guarded pushes that also mark a node seen. -/
def entryWeight {S : Type} (g : Graph S) : Entry → Nat
  | .preds id c => 3 + c + rcb g id
  | .regs _ c => 2 + c
  | .node _ => 1

def stackWeight {S : Type} (g : Graph S) (st : List Entry) : Nat :=
  (st.map (entryWeight g)).sum

def maxPredLen {S : Type} (g : Graph S) : Nat :=
  (g.predecessors.map List.length).foldr max 0

def maxRegLen {S : Type} (g : Graph S) : Nat :=
  (g.regions.map fun kv => kv.2.length).foldr max 0

/-- Strict upper bound on the weight of any entry the machine can push. -/
def bigW {S : Type} (g : Graph S) : Nat := 4 + maxPredLen g + maxRegLen g

def unseenCount (seen : List Bool) : Nat := seen.count false

/-- The loop measure: unseen nodes weighted by `bigW`, plus stack weight. -/
def mMeasure {S : Type} (g : Graph S) (s : MState) : Nat :=
  bigW g * unseenCount s.seen + stackWeight g s.stack

/-- Drain the stack from a state: the fuel bound is one more than the
measure of the state, which is proved adequate below. -/
def runEnd {S : Type} (g : Graph S) (s : MState) : MState :=
  loopFuel g (mMeasure g s + 1) s

/-- `ReverseTopological::run` / `run_with`: set up the roots and drain the
stack. -/
def ReverseTopological.run {S : Type} (g : Graph S) (roots : List Id) : MState :=
  runEnd g (set_up_roots g roots)

/-- The run of a single stack entry from a given `seen` vector (the
denotation of one frame; proofs decompose the machine into these). -/
def piece {S : Type} (g : Graph S) (seen : List Bool) (e : Entry) : MState :=
  runEnd g ⟨seen, [e], [], false⟩

/-- `transform/sweep.rs::run`: traverse, then retain exactly the seen nodes
and the region entries whose key was seen.  Predecessor lists are untouched. -/
def sweep {S : Type} (g : Graph S) (roots : List Id) : Graph S :=
  let st := ReverseTopological.run g roots
  { nodes := g.nodes.retain fun id => seenAt st.seen id
    regions := g.regions.filter fun kv => seenAt st.seen kv.1
    predecessors := g.predecessors }

/-! ## Revision primitives (`src/transform/revise.rs`) -/

/-- The successor cache (`visit/successors.rs::Successors`), taken as data:
`cache[n]` lists the nodes that consume `n`. -/
structure Successors where
  cache : List (List Id)
deriving Repr, DecidableEq

/-- The per-link update of `redo_ports`: a parameter `(from, p)` becomes
`redo p` when that is present. -/
def redo_link (from_ : Id) (redo : Port → Option Link) (l : Link) : Link :=
  if l.node = from_ then (redo l.port).getD l else l

/-- Number of replacements `redo_ports` performs inside one list. -/
def redo_count_links (from_ : Id) (redo : Port → Option Link) (pl : List Link) : Nat :=
  (pl.filter fun l => l.node == from_ && (redo l.port).isSome).length

/-- `revise.rs::redo_ports`: for every cached successor of `from_`, rewrite
the parameters that point at `from_`; returns the table and the applied
count.  (Indexing is total here; the theorems below restrict to in-bounds
caches where the Rust code does not panic.) -/
def redo_ports (preds : List (List Link)) (sx : Successors) (from_ : Id)
    (redo : Port → Option Link) : List (List Link) × Nat :=
  (sx.cache.getD from_ []).foldl
    (fun acc s =>
      (acc.1.set s ((acc.1.getD s []).map (redo_link from_ redo)),
       acc.2 + redo_count_links from_ redo (acc.1.getD s [])))
    (preds, 0)

/-- `revise.rs::redo_ports_in_place`: `redo_ports` with `|p| Some((to, p))`. -/
def redo_ports_in_place (preds : List (List Link)) (sx : Successors) (from_ to_ : Id) :
    List (List Link) × Nat :=
  redo_ports preds sx from_ fun p => some (Link.new to_ p)

/-! ## Reachability and data-model invariants (gen-A graphs) -/

/-- The predecessor list of a node, total. -/
def predsD {S : Type} (g : Graph S) (id : Id) : List Link := g.predecessors.getD id []

/-- Liveness of a key in the store. -/
def liveAt {S : Type} (g : Graph S) (id : Id) : Bool := (g.nodes.get id).isSome

def isCompoundAt {S : Type} (g : Graph S) (id : Id) : Bool :=
  match g.nodes.get id with
  | some (.compound _) => true
  | _ => false

def markerStartAt {S : Type} (g : Graph S) (id : Id) : Bool :=
  match g.nodes.get id with
  | some (.marker .start) => true
  | _ => false

def markerEndAt {S : Type} (g : Graph S) (id : Id) : Bool :=
  match g.nodes.get id with
  | some (.marker .end_) => true
  | _ => false

/-- Owned regions of a node, total. -/
def regionsOfD {S : Type} (g : Graph S) (id : Id) : List Region :=
  (alistGet g.regions id).getD []

/-- The dependency targets of a node: its parameter producers, and (for a
compound) the markers of its owned regions.  This is exactly the set of
nodes `handle_predecessor`/`handle_region` queue for `id`. -/
def edgeTargets {S : Type} (g : Graph S) (id : Id) : List Id :=
  (predsD g id).map Link.node ++
    (if isCompoundAt g id then
      (regionsOfD g id).foldr (fun r acc => r.start :: r.end_ :: acc) []
    else [])

/-- One dependency edge: `a` depends on `b` (parameter producer or owned
region marker). -/
def edgeG {S : Type} (g : Graph S) (a b : Id) : Prop := b ∈ edgeTargets g a

instance {S : Type} (g : Graph S) (a b : Id) : Decidable (edgeG g a b) := by
  unfold edgeG; infer_instance

/-- Reachability along dependency edges ("reachable via predecessor links
and region containment"). -/
def Reach {S : Type} (g : Graph S) : Id → Id → Prop :=
  Relation.ReflTransGen (edgeG g)

/-- Acyclicity of the dependency relation (data-model invariant 1). -/
def Acyclic {S : Type} (g : Graph S) : Prop :=
  ∀ a b : Id, edgeG g a b → ¬ Reach g b a

/-- Structural well-formedness used by the traversal theorems: the
predecessor table covers the active range, links name live nodes, and live
compounds have an entry with live markers (data-model invariants 4/5 and the
region map's integrity). -/
structure WFS {S : Type} (g : Graph S) : Prop where
  pred_cover : g.active ≤ g.predecessors.length
  link_live : ∀ id : Id, liveAt g id = true → ∀ l ∈ predsD g id, liveAt g l.node = true
  comp_entry : ∀ id : Id, liveAt g id = true → isCompoundAt g id = true →
    (alistGet g.regions id).isSome = true
  marker_live : ∀ id : Id, liveAt g id = true → isCompoundAt g id = true →
    ∀ r ∈ regionsOfD g id, liveAt g r.start = true ∧ liveAt g r.end_ = true

/-- Executable check for `WFS` (for concrete witnesses). -/
def wfsCheck {S : Type} (g : Graph S) : Bool :=
  decide (g.active ≤ g.predecessors.length) &&
  (List.range g.nodes.slots.length).all fun id =>
    !(liveAt g id) ||
      ((predsD g id).all fun l => liveAt g l.node) &&
      (!(isCompoundAt g id) ||
        (alistGet g.regions id).isSome &&
        ((regionsOfD g id).all fun r => liveAt g r.start && liveAt g r.end_))

/-- Marker discipline used by the ordering theorems: region markers have the
marker kinds, `Start` markers have no predecessors, no parameter link names
an `End` marker (its output arity is 0), and an `End` marker determines its
region and owner (data-model invariants 2 and 6). -/
structure WFO {S : Type} (g : Graph S) : Prop where
  start_kind : ∀ id : Id, liveAt g id = true → isCompoundAt g id = true →
    ∀ r ∈ regionsOfD g id, markerStartAt g r.start = true
  end_kind : ∀ id : Id, liveAt g id = true → isCompoundAt g id = true →
    ∀ r ∈ regionsOfD g id, markerEndAt g r.end_ = true
  start_no_preds : ∀ id : Id, liveAt g id = true → isCompoundAt g id = true →
    ∀ r ∈ regionsOfD g id, predsD g r.start = []
  no_end_links : ∀ id : Id, liveAt g id = true →
    ∀ l ∈ predsD g id, markerEndAt g l.node = false
  end_unique : ∀ id id' : Id, liveAt g id = true → isCompoundAt g id = true →
    liveAt g id' = true → isCompoundAt g id' = true →
    ∀ r ∈ regionsOfD g id, ∀ r' ∈ regionsOfD g id', r.end_ = r'.end_ →
    id = id' ∧ r = r'

/-- Executable check for `WFO`. -/
def wfoCheck {S : Type} (g : Graph S) : Bool :=
  ((List.range g.nodes.slots.length).all fun id =>
    !(liveAt g id) ||
      ((predsD g id).all fun l => !(markerEndAt g l.node)) &&
      (!(isCompoundAt g id) ||
        ((regionsOfD g id).all fun r =>
          markerStartAt g r.start && markerEndAt g r.end_ &&
          decide (predsD g r.start = [])))) &&
  ((List.range g.nodes.slots.length).all fun id =>
    !(liveAt g id && isCompoundAt g id) ||
      (List.range g.nodes.slots.length).all fun id' =>
        !(liveAt g id' && isCompoundAt g id') ||
          (regionsOfD g id).all fun r =>
            (regionsOfD g id').all fun r' =>
              !(r.end_ == r'.end_) || (decide (id = id') && decide (r = r')))

/-- Root sets accepted by the ordering theorem: live keys, no root strictly
reachable from a different root. -/
def RootsOk {S : Type} (g : Graph S) (roots : List Id) : Prop :=
  (∀ r ∈ roots, liveAt g r = true) ∧
  (∀ r ∈ roots, ∀ r' ∈ roots, r ≠ r' → ¬ Reach g r r')

/-- The node a stack entry works on. -/
def eOwner : Entry → Id
  | .preds id _ => id
  | .regs id _ => id
  | .node id => id

/-- Per-entry invariant of the machine stack: the counter is the number of
still-unprocessed predecessors (resp. regions), everything already walked is
marked, and a `node` entry is only pushed after the whole dependency cone of
its owner is marked. -/
def EntryInv {S : Type} (g : Graph S) (seen : List Bool) : Entry → Prop
  | .preds id c =>
      liveAt g id = true ∧ seenAt seen id = true ∧
      c ≤ (predsD g id).length ∧
      ∀ l ∈ (predsD g id).take ((predsD g id).length - c), seenAt seen l.node = true
  | .regs id c =>
      liveAt g id = true ∧ seenAt seen id = true ∧
      c ≤ (regionsOfD g id).length ∧
      (∀ l ∈ predsD g id, seenAt seen l.node = true) ∧
      (0 < c → isCompoundAt g id = true) ∧
      (isCompoundAt g id = true →
        ∀ r ∈ (regionsOfD g id).take ((regionsOfD g id).length - c),
          seenAt seen r.start = true ∧ seenAt seen r.end_ = true)
  | .node id =>
      liveAt g id = true ∧ seenAt seen id = true ∧
      ∀ b ∈ edgeTargets g id, seenAt seen b = true

/-- Machine invariant: `seen` sized to the active range, marked nodes live,
every stack entry sound, and every marked node either fully expanded or
still owned by a stack entry. -/
def MInv {S : Type} (g : Graph S) (s : MState) : Prop :=
  s.seen.length = g.active ∧
  (∀ e ∈ s.stack, EntryInv g s.seen e) ∧
  (∀ id, seenAt s.seen id = true →
    liveAt g id = true ∧
    ((∀ b ∈ edgeTargets g id, seenAt s.seen b = true) ∨ ∃ e ∈ s.stack, eOwner e = id))

/-- `b` is emitted strictly before `a` in the visitor's output. -/
def emitsBefore (out : List Id) (b a : Id) : Prop :=
  ∃ i, i < out.length ∧ ∃ j, j < i ∧ out[j]? = some b ∧ out[i]? = some a

instance (out : List Id) (b a : Id) : Decidable (emitsBefore out b a) := by
  unfold emitsBefore
  infer_instance

/-- Emission-order soundness: every emitted node's dependency targets are
emitted strictly earlier. -/
def OutOrd {S : Type} (g : Graph S) (out : List Id) : Prop :=
  ∀ (i : Nat) (a : Id), out[i]? = some a →
    ∀ b ∈ edgeTargets g a, ∃ j, j < i ∧ out[j]? = some b

/-- Out-level promises of a stack entry: already-walked dependencies are
emitted, not merely marked. -/
def EntryInvO {S : Type} (g : Graph S) (out : List Id) : Entry → Prop
  | .preds id c => ∀ l ∈ (predsD g id).take ((predsD g id).length - c), l.node ∈ out
  | .regs id c =>
      (∀ l ∈ predsD g id, l.node ∈ out) ∧
      (isCompoundAt g id = true →
        ∀ r ∈ (regionsOfD g id).take ((regionsOfD g id).length - c),
          r.start ∈ out ∧ r.end_ ∈ out)
  | .node id => ∀ b ∈ edgeTargets g id, b ∈ out

/-- Obligation attached to the chain of an `End` marker: its owning compound
is already marked and the matching `Start` is already emitted. -/
def EndOb {S : Type} (g : Graph S) (seen : List Bool) (out : List Id) (id : Id) : Prop :=
  markerEndAt g id = true →
    ∀ c r, isCompoundAt g c = true → r ∈ regionsOfD g c → r.end_ = id →
      seenAt seen c = true ∧ r.start ∈ out

/-- An `End` marker is emitted only after its owning compound was marked. -/
def EndOwner {S : Type} (g : Graph S) (seen : List Bool) (out : List Id) : Prop :=
  ∀ c, isCompoundAt g c = true → ∀ r ∈ regionsOfD g c, r.end_ ∈ out →
    seenAt seen c = true

/-- Start-before-End bookkeeping: for a marked owner, an emitted `End` has
its `Start` emitted strictly earlier. -/
def EndSE {S : Type} (g : Graph S) (seen : List Bool) (out : List Id) : Prop :=
  ∀ c, isCompoundAt g c = true → ∀ r ∈ regionsOfD g c, r.end_ ∈ out →
    seenAt seen c = true → r.start ∈ out ∧ emitsBefore out r.start r.end_

/-- Bounded acyclicity certificate: a rank strictly decreasing along every
dependency edge inside the covered index range (outside it there are no
edges). -/
def rankedAcyclicCheck {S : Type} (g : Graph S) (rank : List Nat) : Bool :=
  (List.range (max g.predecessors.length g.nodes.slots.length)).all fun a =>
    (edgeTargets g a).all fun b => decide (rank.getD b 0 < rank.getD a 0)

/-- Graphs produced by a sequence of public `Graph` operations (used for the
store invariant claim). -/
inductive GoodGraph {S : Type} : Graph S → Prop where
  | new : GoodGraph Graph.new
  | add_node {g : Graph S} (n : Node S) : GoodGraph g → GoodGraph (g.add_node n).2
  | remove_node {g : Graph S} (i : Id) : GoodGraph g → GoodGraph (g.remove_node i).2
  | add_region {g : Graph S} : GoodGraph g → GoodGraph g.add_region.2
  | remove_region {g : Graph S} (r : Region) : GoodGraph g → GoodGraph (g.remove_region r)
  | add_compound {g : Graph S} (c : Compound) : GoodGraph g → GoodGraph (g.add_compound c).2
  | add_gamma {g : Graph S} (rl : List Region) : GoodGraph g → GoodGraph (g.add_gamma rl).2
  | remove_compound {g : Graph S} (i : Id) : GoodGraph g → GoodGraph (g.remove_compound i).2
  | clear {g : Graph S} : GoodGraph g → GoodGraph g.clear
  | push_pred {g : Graph S} (i : Id) (l : Link) : GoodGraph g →
      GoodGraph { g with predecessors := g.predecessors.set i (g.predecessors.getD i [] ++ [l]) }

/-! ## The `Nodes` snapshot (`src/data_flow/nodes.rs`, `node.rs`) and the
invariant-input relaxation pass (`src/transform/relax_dependencies.rs`) -/

namespace GenB

/-- `Link` of the `Nodes` snapshot: public `node`/`port` fields. -/
structure Link where
  node : Nat
  port : Nat
deriving Repr, DecidableEq

instance : Inhabited Link := ⟨⟨0, 0⟩⟩

/-- `Region` of the `Nodes` snapshot: public `start`/`end` fields. -/
structure Region where
  start : Nat
  end_ : Nat
deriving Repr, DecidableEq

instance : Inhabited Region := ⟨⟨0, 0⟩⟩

/-- `Marker` of `src/data_flow/node.rs`: `End` carries its parameters. -/
inductive Marker where
  | start
  | end_ (parameters : List Link)
deriving Repr, DecidableEq

/-- `Compound` of `src/data_flow/node.rs`. -/
inductive Compound where
  | gamma (parameters : List Link) (regions : List Region)
  | theta (parameters : List Link) (region : Region)
  | lambda (parameters : List Link) (region : Region)
  | phi (parameters : List Link) (region : Region)
deriving Repr, DecidableEq

/-- `Node` of `src/data_flow/node.rs`; the simple payload is instantiated at
its parameter list (the canonical `Parameters` capability). -/
inductive Node where
  | simple (parameters : List Link)
  | marker (m : Marker)
  | compound (c : Compound)
deriving Repr, DecidableEq

/-- `Compound::as_parameters`. -/
def Compound.as_parameters : Compound → List Link
  | .gamma ps _ => ps
  | .theta ps _ => ps
  | .lambda ps _ => ps
  | .phi ps _ => ps

/-- The composed `Parameters` view of a node (`node.rs`): the payload's
parameters for `Simple`, the `End` parameters for markers (empty for
`Start`), the compound's parameter vector for compounds. -/
def Node.parameters : Node → List Link
  | .simple ps => ps
  | .marker .start => []
  | .marker (.end_ ps) => ps
  | .compound c => c.as_parameters

/-- The composed `ParametersMut` view, as a map over the parameter links. -/
def Node.mapParameters (f : Link → Link) : Node → Node
  | .simple ps => .simple (ps.map f)
  | .marker .start => .marker .start
  | .marker (.end_ ps) => .marker (.end_ (ps.map f))
  | .compound (.gamma ps rs) => .compound (.gamma (ps.map f) rs)
  | .compound (.theta ps r) => .compound (.theta (ps.map f) r)
  | .compound (.lambda ps r) => .compound (.lambda (ps.map f) r)
  | .compound (.phi ps r) => .compound (.phi (ps.map f) r)

/-- The `Nodes<S>` arena, as its slot list. -/
abbrev Nodes := List (Option Node)

/-- `nodes[id]`, total with a dummy value on the cases where the Rust index
would panic (the theorems assume the accessed ids are live). -/
def nodeAt (nodes : Nodes) (i : Nat) : Node :=
  match nodes.getD i none with
  | some n => n
  | none => .simple []

/-- `relax_dependencies.rs::load_passthrough` (`parameters[port]` is total
here; the theorems restrict to in-bounds ports, data-model invariant 4). -/
def load_passthrough (parameters : List Link) (start : Nat) (e : Link) : Option Link :=
  if start = e.node then some (parameters.getD e.port default) else none

/-- `RelaxDependencies::add_map_results`: one maps slot per `End` parameter
of the region. -/
def add_map_results (nodes : Nodes) (parameters : List Link) (region : Region) :
    List (Option Link) :=
  (nodeAt nodes region.end_).parameters.map (load_passthrough parameters region.start)

/-- `RelaxDependencies::run_gamma`: build the maps from the first region
(the Rust code panics when a gamma has no region; the theorems assume one),
then for each later region invalidate every slot whose passthrough differs
(`zip` pairs positions up to the shorter list). -/
def run_gamma (nodes : Nodes) (parameters : List Link) (regions : List Region) :
    List (Option Link) :=
  (regions.drop 1).foldl
    (fun maps region =>
      let results := (nodeAt nodes region.end_).parameters
      maps.mapIdx fun i old =>
        match results[i]? with
        | some res => if load_passthrough parameters region.start res ≠ old then none else old
        | none => old)
    (add_map_results nodes parameters (regions.headD default))

/-- `RelaxDependencies::run_theta`: build the maps, then invalidate every
slot whose `End` parameter is not the identity link `(start, i)` (the
`Link::iter` stream zipped positionally; faithful for arities below 2^16). -/
def run_theta (nodes : Nodes) (parameters : List Link) (region : Region) :
    List (Option Link) :=
  let maps := add_map_results nodes parameters region
  let results := (nodeAt nodes region.end_).parameters
  maps.mapIdx fun i old =>
    match results[i]? with
    | some res => if res ≠ Link.mk region.start i then none else old
    | none => old

/-- Per-link rewrite of the modelled `redo_ports`. -/
def redo_link (from_ : Nat) (redo : Nat → Option Link) (l : Link) : Link :=
  if l.node = from_ then (redo l.port).getD l else l

/-- Replacement count inside one parameter list. -/
def redo_count (from_ : Nat) (redo : Nat → Option Link) (ps : List Link) : Nat :=
  (ps.filter fun l => l.node == from_ && (redo l.port).isSome).length

/-- Modelled from the spec: §4.4 `redo_ports(store, successors, from, f)`
for the `Nodes` store — the `transform/revise.rs` of this snapshot is not
under `src/`; the shape follows the in-repo gen-A `transform/revise.rs`.
For every cached successor `s` of `from`, every parameter of `s` that is a
link `(from, p)` with `f p = some l` is replaced by `l`; returns the number
of replacements.  Dead successors are skipped here (the Rust index would
panic; the theorems assume live caches). -/
def redo_ports (nodes : Nodes) (cache : List (List Nat)) (from_ : Nat)
    (redo : Nat → Option Link) : Nodes × Nat :=
  (cache.getD from_ []).foldl
    (fun acc s =>
      match acc.1.getD s none with
      | none => acc
      | some n =>
        (acc.1.set s (some (n.mapParameters (redo_link from_ redo))),
         acc.2 + redo_count from_ redo n.parameters))
    (nodes, 0)

/-- `RelaxDependencies::run`: dispatch on the compound kind, then apply
`redo_ports` with `|port| maps[port]` (total here via `getD`; the theorems
restrict to in-bounds ports).  Other node kinds return `none` without
effect. -/
def RelaxDependencies.run (nodes : Nodes) (id : Nat) (cache : List (List Nat)) :
    Nodes × Option Nat :=
  match nodes.getD id none with
  | some (.compound (.gamma parameters regions)) =>
    let maps := run_gamma nodes parameters regions
    let p := redo_ports nodes cache id fun port => maps.getD port none
    (p.1, some p.2)
  | some (.compound (.theta parameters region)) =>
    let maps := run_theta nodes parameters region
    let p := redo_ports nodes cache id fun port => maps.getD port none
    (p.1, some p.2)
  | some _ => (nodes, none)
  | none => (nodes, none)

/-- The `End` parameter list of a region (spec: "End's parameters"). -/
def endParams (nodes : Nodes) (r : Region) : List Link :=
  (nodeAt nodes r.end_).parameters

/-- The spec's `passthrough(P, s, link)` applied to `End` parameter `i` of a
region: `P[link.port]` if `link.node == s` else `None`. -/
def passthroughAt (nodes : Nodes) (params : List Link) (r : Region) (i : Nat) :
    Option Link :=
  load_passthrough params r.start ((endParams nodes r).getD i default)

end GenB

/-! ## Concrete graphs used by witnesses and counterexamples -/

/-- Two simple nodes with the second removed: its key `1` is stale. -/
def gStale : Graph Unit :=
  let p1 := (Graph.new (S := Unit)).add_node (.simple ())
  let p2 := p1.2.add_node (.simple ())
  (p2.2.remove_node p2.1).2

/-- The ordering counterexample: a Theta (id 5) with parameters
`[a, b, x]` = ids `[4, 3, 0]`, one region `(start 1, end 2)`, the region's
`End` consuming `x` (id 0) directly, and `a` (id 4) depending on `b`
(id 3). -/
def gCx : Graph Unit :=
  { nodes := ⟨[some (.simple ()), some (.marker .start), some (.marker .end_),
               some (.simple ()), some (.simple ()), some (.compound .theta)]⟩
    regions := [(5, [⟨1, 2⟩])]
    predecessors := [[], [], [⟨0, 0⟩], [], [⟨3, 0⟩], [⟨4, 0⟩, ⟨3, 0⟩, ⟨0, 0⟩]] }

/-- A three-node chain: node 1 depends on 0, node 2 depends on 1. -/
def gChain : Graph Unit :=
  { nodes := ⟨[some (.simple ()), some (.simple ()), some (.simple ())]⟩
    regions := []
    predecessors := [[], [⟨0, 0⟩], [⟨1, 0⟩]] }

/-- A lambda compound built by the public API (id 0, region `(1, 2)`). -/
def gLam : Graph Unit := ((Graph.new (S := Unit)).add_compound .lambda).2

/-- `gLam` with the compound's node removed by `remove_node`: the key is
dead in the store but its region-map entry survives. -/
def gLamDead : Graph Unit := (gLam.remove_node 0).2

/-- Reuse scenario for the store invariant: two inserts, first key removed
(slot 0 becomes vacant and will be reused). -/
def gReuse : Graph Unit :=
  ((((Graph.new (S := Unit)).add_node (.simple ())).2.add_node (.simple ())).2.remove_node 0).2

/-- Gamma passthrough scenario (spec S2) in the `Nodes` snapshot:
parameter sources 0,1,2; region 1 = `(3, 4)` with `End` inputs
`[(3,0), (3,1)]`; region 2 = `(5, 6)` with `End` inputs `[(5,0), (7,0)]`
where 7 computes from `(5,1)`; the gamma is id 8 with parameters
`[(0,0), (1,0), (2,0)]`; id 9 consumes gamma outputs 0 and 1. -/
def nGamma : GenB.Nodes :=
  [some (.simple []), some (.simple []), some (.simple []),
   some (.marker .start), some (.marker (.end_ [⟨3, 0⟩, ⟨3, 1⟩])),
   some (.marker .start), some (.marker (.end_ [⟨5, 0⟩, ⟨7, 0⟩])),
   some (.simple [⟨5, 1⟩]),
   some (.compound (.gamma [⟨0, 0⟩, ⟨1, 0⟩, ⟨2, 0⟩] [⟨3, 4⟩, ⟨5, 6⟩])),
   some (.simple [⟨8, 0⟩, ⟨8, 1⟩])]

/-- Successor cache for `nGamma` rooted at the consumer: node 9 is the only
cached successor of the gamma (id 8). -/
def cGamma : List (List Nat) := [[], [], [], [], [], [], [], [], [9], []]

/-- Theta invariant scenario (spec S3): sources 0,1,2; region `(3, 4)` with
`End` inputs `[(3,0), (5,0), (6,0)]`; 5 computes from `(3,1)`, 6 computes
the predicate from `(3,0)`; the theta is id 7 with parameters
`[(0,0), (1,0), (2,0)]`; id 8 consumes theta outputs 0 and 1. -/
def nTheta : GenB.Nodes :=
  [some (.simple []), some (.simple []), some (.simple []),
   some (.marker .start), some (.marker (.end_ [⟨3, 0⟩, ⟨5, 0⟩, ⟨6, 0⟩])),
   some (.simple [⟨3, 1⟩]), some (.simple [⟨3, 0⟩]),
   some (.compound (.theta [⟨0, 0⟩, ⟨1, 0⟩, ⟨2, 0⟩] ⟨3, 4⟩)),
   some (.simple [⟨7, 0⟩, ⟨7, 1⟩])]

/-- Successor cache for `nTheta`: node 8 is the only cached successor of
the theta (id 7). -/
def cTheta : List (List Nat) := [[], [], [], [], [], [], [], [8], []]

/-! # Theorems

## List and arena helper lemmas -/

theorem getD_eq_getElem? {α : Type} (l : List α) (i : Nat) (d : α) :
    l.getD i d = (l[i]?).getD d := List.getD_eq_getElem?_getD l i d

theorem getD_of_getElem? {α : Type} {l : List α} {i : Nat} {x : α} (d : α)
    (h : l[i]? = some x) : l.getD i d = x := by
  rw [getD_eq_getElem?, h]; rfl

theorem getD_of_ge {α : Type} {l : List α} {i : Nat} (d : α) (h : l.length ≤ i) :
    l.getD i d = d := by
  rw [getD_eq_getElem?, List.getElem?_eq_none h]; rfl

theorem getD_set_self {α : Type} {l : List α} {i : Nat} (v d : α) (h : i < l.length) :
    (l.set i v).getD i d = v := by
  rw [getD_eq_getElem?, List.getElem?_set_self h]; rfl

theorem getD_set_ne {α : Type} {l : List α} {i j : Nat} (v d : α) (h : i ≠ j) :
    (l.set i v).getD j d = l.getD j d := by
  rw [getD_eq_getElem?, List.getElem?_set_ne h, getD_eq_getElem?]

theorem set_of_getElem? {α : Type} {l : List α} {i : Nat} {a : α}
    (h : l[i]? = some a) : l.set i a = l := by
  apply List.ext_getElem?
  intro j
  rcases eq_or_ne i j with rfl | hne
  · have : i < l.length := by
      by_contra hc
      rw [List.getElem?_eq_none (by omega)] at h
      exact Option.noConfusion h
    rw [List.getElem?_set_self this, h]
  · rw [List.getElem?_set_ne hne]

theorem set_getD_self {α : Type} {l : List α} {i : Nat} (d : α) (h : i < l.length) :
    l.set i (l.getD i d) = l := by
  obtain ⟨x, hx⟩ : ∃ x, l[i]? = some x := by
    cases hx : l[i]? with
    | none => exact absurd (List.getElem?_eq_none_iff.mp hx) (by omega)
    | some x => exact ⟨x, rfl⟩
  rw [getD_of_getElem? d hx]
  exact set_of_getElem? hx

theorem getElem?_append_length {α : Type} (l : List α) (a : α) :
    (l ++ [a])[l.length]? = some a := by
  rw [List.getElem?_append_right (le_refl _)]
  simp

theorem set_append_length {α : Type} :
    ∀ (l : List α) (a v : α), (l ++ [a]).set l.length v = l ++ [v]
  | [], _, _ => rfl
  | x :: rest, a, v => by
    simp [List.cons_append, set_append_length rest a v]

theorem vacant_le_length {α : Type} :
    ∀ l : List (Option α), Arena.vacant l ≤ l.length
  | [] => le_refl _
  | none :: _ => by simp [Arena.vacant]
  | some _ :: rest => by
    simpa [Arena.vacant] using vacant_le_length rest

theorem vacant_spec {α : Type} :
    ∀ l : List (Option α), Arena.vacant l < l.length → l[Arena.vacant l]? = some none
  | none :: _, _ => by simp [Arena.vacant]
  | some _ :: rest, h => by
    simpa [Arena.vacant] using vacant_spec rest (by simpa [Arena.vacant] using h)

theorem activeAux_le_length {α : Type} :
    ∀ l : List (Option α), activeAux l ≤ l.length
  | [] => le_refl _
  | o :: rest => by
    have ih := activeAux_le_length rest
    by_cases h : activeAux rest = 0 <;> by_cases h2 : o.isSome <;>
      simp [activeAux, h, h2] <;> omega

theorem lt_activeAux_of_isSome {α : Type} :
    ∀ (l : List (Option α)) (i : Nat), (l.getD i none).isSome = true → i < activeAux l
  | [], i, h => by simp [List.getD] at h
  | o :: rest, 0, h => by
    have ho : o.isSome = true := by simpa using h
    by_cases hr : activeAux rest = 0 <;> simp [activeAux, hr, ho]
  | o :: rest, i + 1, h => by
    have ih := lt_activeAux_of_isSome rest i (by simpa using h)
    have hne : activeAux rest ≠ 0 := by omega
    simp [activeAux, hne]
    omega

theorem activeAux_last {α : Type} :
    ∀ l : List (Option α), activeAux l = 0 ∨ (l.getD (activeAux l - 1) none).isSome = true
  | [] => Or.inl rfl
  | o :: rest => by
    rcases activeAux_last rest with h | h
    · by_cases ho : o.isSome
      · right; simp [activeAux, h, ho]
      · left; simp [activeAux, h, ho]
    · have hne : activeAux rest ≠ 0 := by
        intro h0
        rw [h0] at h
        have := lt_activeAux_of_isSome rest 0 (by simpa using h)
        omega
      right
      obtain ⟨k, hk⟩ : ∃ k, activeAux rest = k + 1 :=
        ⟨activeAux rest - 1, (Nat.succ_pred_eq_of_pos (Nat.pos_of_ne_zero hne)).symm⟩
      simp [activeAux, hne, hk]
      simpa [hk] using h

theorem activeAux_append_none {α : Type} :
    ∀ l : List (Option α), activeAux (l ++ [none]) = activeAux l
  | [] => by simp [activeAux]
  | o :: rest => by
    have := activeAux_append_none rest
    simp [activeAux, List.cons_append, this]

theorem lt_length_of_getD_some {α : Type} {l : List (Option α)} {i : Nat} {x : α}
    (h : l.getD i none = some x) : i < l.length := by
  by_contra hc
  rw [getD_of_ge none (by omega)] at h
  exact Option.noConfusion h

theorem try_remove_some {α : Type} {a : Arena α} {i : Nat} {x : α}
    (h : a.slots.getD i none = some x) :
    a.try_remove i = (some x, ⟨a.slots.set i none⟩) := by
  unfold Arena.try_remove
  rw [h]

theorem try_remove_none {α : Type} {a : Arena α} {i : Nat}
    (h : a.slots.getD i none = none) : a.try_remove i = (none, a) := by
  unfold Arena.try_remove
  rw [h]

theorem insert_reuse {α : Type} {a : Arena α} (x : α)
    (h : Arena.vacant a.slots < a.slots.length) :
    a.insert x = (Arena.vacant a.slots, ⟨a.slots.set (Arena.vacant a.slots) (some x)⟩) := by
  unfold Arena.insert
  simp [h]

theorem insert_fresh {α : Type} {a : Arena α} (x : α)
    (h : ¬ Arena.vacant a.slots < a.slots.length) :
    a.insert x = (a.slots.length, ⟨a.slots ++ [some x]⟩) := by
  have hv : Arena.vacant a.slots = a.slots.length :=
    le_antisymm (vacant_le_length _) (by omega)
  unfold Arena.insert
  simp [h, hv]

theorem get_remove {α : Type} (a : Arena α) (j i : Nat) :
    (a.remove j).get i = if i = j then none else a.get i := by
  unfold Arena.remove Arena.get
  cases h : a.slots.getD j none with
  | none =>
    rw [try_remove_none h]
    split
    · next heq => rw [heq]; exact h
    · rfl
  | some x =>
    rw [try_remove_some h]
    dsimp only
    split
    · next heq => rw [heq]; exact getD_set_self none none (lt_length_of_getD_some h)
    · next hne => exact getD_set_ne none none (fun hh => hne hh.symm)

/-! ## Claim C9: `active` behaviour -/

/-- C9: inserting a node and removing the returned key restores `active()`
to its prior value; `active()` is one past the largest live index, and `0`
on the empty graph. -/
theorem claim_C9 {S : Type} :
    (∀ (g : Graph S) (n : Node S),
      (((g.add_node n).2.remove_node (g.add_node n).1).2).active = g.active) ∧
    (∀ g : Graph S, (∀ i : Id, liveAt g i = true → i < g.active) ∧
      (g.active = 0 ∨ liveAt g (g.active - 1) = true)) ∧
    (Graph.new (S := S)).active = 0 := by
  refine ⟨?_, ?_, rfl⟩
  · intro g n
    by_cases h : Arena.vacant g.nodes.slots < g.nodes.slots.length
    · have hsome : (g.nodes.slots.set (Arena.vacant g.nodes.slots) (some n)).getD
          (Arena.vacant g.nodes.slots) none = some n :=
        getD_set_self _ _ (by simpa using h)
      simp only [Graph.add_node, Graph.remove_node, insert_reuse n h, Graph.active,
        try_remove_some hsome]
      rw [List.set_set, set_of_getElem? (vacant_spec _ h)]
    · have hsome : (g.nodes.slots ++ [some n]).getD g.nodes.slots.length none = some n :=
        getD_of_getElem? none (getElem?_append_length _ _)
      simp only [Graph.add_node, Graph.remove_node, insert_fresh n h, Graph.active,
        try_remove_some hsome]
      rw [set_append_length, activeAux_append_none]
  · intro g
    exact ⟨fun i hi => lt_activeAux_of_isSome _ _ hi, activeAux_last _⟩

/-! ## Claim C10: the store invariant -/

theorem insert_fst {α : Type} (a : Arena α) (x : α) :
    (a.insert x).1 = Arena.vacant a.slots := by
  unfold Arena.insert
  dsimp only
  split <;> rfl

theorem add_node_fst {S : Type} (g : Graph S) (n : Node S) :
    (g.add_node n).1 = Arena.vacant g.nodes.slots := by
  unfold Graph.add_node
  exact insert_fst g.nodes n

theorem add_node_inv {S : Type} {g : Graph S} (n : Node S)
    (hg : g.nodes.slots.length ≤ g.predecessors.length) :
    (g.add_node n).2.nodes.slots.length ≤ (g.add_node n).2.predecessors.length := by
  by_cases h : Arena.vacant g.nodes.slots < g.nodes.slots.length
  · simp only [Graph.add_node, insert_reuse n h]
    split <;> simp <;> omega
  · have hv : Arena.vacant g.nodes.slots = g.nodes.slots.length :=
      le_antisymm (vacant_le_length _) (by omega)
    simp only [Graph.add_node, insert_fresh n h, hv]
    split
    · next hlt => simp; omega
    · next hlt => simp; omega

theorem try_remove_slots_length {α : Type} (a : Arena α) (i : Nat) :
    (a.try_remove i).2.slots.length = a.slots.length := by
  cases h : a.slots.getD i none with
  | none => rw [try_remove_none h]
  | some x => rw [try_remove_some h]; simp

theorem remove_slots_length {α : Type} (a : Arena α) (i : Nat) :
    (a.remove i).slots.length = a.slots.length := try_remove_slots_length a i

theorem foldl_remove_region_preds {S : Type} :
    ∀ (rl : List Region) (g : Graph S),
      (rl.foldl Graph.remove_region g).predecessors = g.predecessors
  | [], _ => rfl
  | r :: rest, g => by
    rw [List.foldl_cons, foldl_remove_region_preds rest]
    rfl

theorem foldl_remove_region_regions {S : Type} :
    ∀ (rl : List Region) (g : Graph S),
      (rl.foldl Graph.remove_region g).regions = g.regions
  | [], _ => rfl
  | r :: rest, g => by
    rw [List.foldl_cons, foldl_remove_region_regions rest]
    rfl

theorem foldl_remove_region_slots_length {S : Type} :
    ∀ (rl : List Region) (g : Graph S),
      (rl.foldl Graph.remove_region g).nodes.slots.length = g.nodes.slots.length
  | [], _ => rfl
  | r :: rest, g => by
    rw [List.foldl_cons, foldl_remove_region_slots_length rest]
    simp [Graph.remove_region, remove_slots_length]

theorem goodgraph_inv {S : Type} : ∀ {g : Graph S}, GoodGraph g →
    g.nodes.slots.length ≤ g.predecessors.length := by
  intro g h
  induction h with
  | new => exact le_refl _
  | add_node n _ ih => exact add_node_inv n ih
  | remove_node i _ ih =>
    simpa [Graph.remove_node, try_remove_slots_length] using ih
  | add_region _ ih => exact add_node_inv _ (add_node_inv _ ih)
  | remove_region r _ ih =>
    simpa [Graph.remove_region, remove_slots_length] using ih
  | add_compound c _ ih =>
    simpa [Graph.add_compound] using add_node_inv _ (add_node_inv _ (add_node_inv _ ih))
  | add_gamma rl _ ih =>
    simpa [Graph.add_gamma] using add_node_inv _ ih
  | remove_compound i _ ih =>
    unfold Graph.remove_compound
    split
    · exact ih
    · dsimp only
      simp only [Graph.remove_node, try_remove_slots_length,
        foldl_remove_region_slots_length, foldl_remove_region_preds]
      exact ih
  | clear _ ih => simp [Graph.clear, Arena.empty]
  | push_pred i l _ ih => simpa using ih

/-- C10: after any sequence of public operations the predecessor table
covers the active range, and `add_node` always returns a key whose
predecessor list is empty — also on slot reuse (the stale list is reset). -/
theorem claim_C10 {S : Type} (g : Graph S) (hg : GoodGraph g) :
    g.active ≤ g.predecessors.length ∧
    ∀ n : Node S, (g.add_node n).2.predecessors.getD (g.add_node n).1 [] = [] := by
  have hinv := goodgraph_inv hg
  refine ⟨le_trans (activeAux_le_length _) hinv, ?_⟩
  intro n
  rw [add_node_fst]
  have hvle : Arena.vacant g.nodes.slots ≤ g.predecessors.length :=
    le_trans (vacant_le_length _) hinv
  unfold Graph.add_node
  dsimp only
  rw [insert_fst]
  split
  · next hlt => exact getD_set_self _ _ (by simpa using hlt)
  · next hlt =>
    have hv : Arena.vacant g.nodes.slots = g.predecessors.length := by omega
    rw [hv]
    exact getD_of_getElem? _ (getElem?_append_length _ _)

/-- C10 witness: the invariant and the reset-on-reuse at a concrete graph
whose slot 0 was vacated by a removal. -/
theorem claim_C10_witness :
    gReuse.active ≤ gReuse.predecessors.length ∧
    ∀ n : Node Unit, (gReuse.add_node n).2.predecessors.getD (gReuse.add_node n).1 [] = [] :=
  claim_C10 gReuse
    (GoodGraph.remove_node 0 (GoodGraph.add_node _ (GoodGraph.add_node _ GoodGraph.new)))

/-! ## Claim C8: `redo_ports_in_place(from, from)` is a no-op -/

theorem redo_link_self (f : Id) (l : Link) :
    redo_link f (fun p => some (Link.new f p)) l = l := by
  unfold redo_link Link.new
  by_cases h : l.node = f
  · cases l with
    | mk nd pt => simp at h; simp [h]
  · simp [h]

theorem map_redo_link_self (f : Id) (pl : List Link) :
    pl.map (redo_link f (fun p => some (Link.new f p))) = pl := by
  induction pl with
  | nil => rfl
  | cons l rest ih => simp [redo_link_self, ih]

theorem redo_ports_self_aux (f : Id) :
    ∀ (ss : List Id) (P : List (List Link)) (k : Nat), (∀ s ∈ ss, s < P.length) →
      (ss.foldl (fun acc s =>
        (acc.1.set s ((acc.1.getD s []).map (redo_link f fun p => some (Link.new f p))),
         acc.2 + redo_count_links f (fun p => some (Link.new f p)) (acc.1.getD s [])))
        (P, k)).1 = P
  | [], P, k, _ => rfl
  | s :: rest, P, k, h => by
    rw [List.foldl_cons]
    dsimp only
    rw [map_redo_link_self, set_getD_self [] (h s (by simp))]
    exact redo_ports_self_aux f rest P _ fun s' hs' => h s' (by simp [hs'])

/-- C8: with identical source and target, `redo_ports_in_place` rewrites
each matched link `(from, p)` to the equal link `(from, p)`, so the
predecessor table is unchanged (stated for the in-bounds caches on which
the Rust code does not panic). -/
theorem claim_C8 (preds : List (List Link)) (sx : Successors) (f : Id)
    (_hc : f < sx.cache.length) (hs : ∀ s ∈ sx.cache.getD f [], s < preds.length) :
    (redo_ports_in_place preds sx f f).1 = preds := by
  unfold redo_ports_in_place redo_ports
  exact redo_ports_self_aux f _ preds 0 hs

/-- C8 witness: a concrete diamond-shaped table. -/
theorem claim_C8_witness :
    (redo_ports_in_place [[⟨0, 0⟩], [⟨0, 1⟩, ⟨2, 0⟩]] ⟨[[1, 0]]⟩ 0 0).1 =
      [[⟨0, 0⟩], [⟨0, 1⟩, ⟨2, 0⟩]] :=
  claim_C8 [[⟨0, 0⟩], [⟨0, 1⟩, ⟨2, 0⟩]] ⟨[[1, 0]]⟩ 0 (by decide) (by decide)

/-! ## Claim C5: `remove_compound` -/

theorem alistGet_remove {β : Type} :
    ∀ (l : List (Id × β)) (k : Id), alistGet (alistRemove l k) k = none
  | [], _ => rfl
  | (k', v) :: rest, k => by
    by_cases h : k' = k
    · simpa [alistRemove, List.filter_cons, h] using alistGet_remove rest k
    · simpa [alistRemove, List.filter_cons, h, alistGet] using alistGet_remove rest k

theorem foldl_remove_region_none_mono {S : Type} :
    ∀ (rl : List Region) (g : Graph S) (i : Nat), g.nodes.get i = none →
      (rl.foldl Graph.remove_region g).nodes.get i = none
  | [], _, _, h => h
  | r :: rest, g, i, h => by
    rw [List.foldl_cons]
    refine foldl_remove_region_none_mono rest _ i ?_
    show ((g.nodes.remove r.start).remove r.end_).get i = none
    rw [get_remove, get_remove]
    split
    · rfl
    · split
      · rfl
      · exact h

theorem foldl_remove_region_get_ne {S : Type} :
    ∀ (rl : List Region) (g : Graph S) (i : Nat),
      (∀ r ∈ rl, i ≠ r.start ∧ i ≠ r.end_) →
      (rl.foldl Graph.remove_region g).nodes.get i = g.nodes.get i
  | [], _, _, _ => rfl
  | r :: rest, g, i, h => by
    rw [List.foldl_cons]
    rw [foldl_remove_region_get_ne rest _ i fun r' hr' => h r' (by simp [hr'])]
    show ((g.nodes.remove r.start).remove r.end_).get i = g.nodes.get i
    have h1 := h r (by simp)
    rw [get_remove, get_remove, if_neg h1.2, if_neg h1.1]

theorem foldl_remove_region_marker_none {S : Type} :
    ∀ (rl : List Region) (g : Graph S) (r0 : Region), r0 ∈ rl →
      (rl.foldl Graph.remove_region g).nodes.get r0.start = none ∧
      (rl.foldl Graph.remove_region g).nodes.get r0.end_ = none
  | [], _, _, h => absurd h (by simp)
  | r :: rest, g, r0, h => by
    rw [List.foldl_cons]
    rcases List.mem_cons.mp h with rfl | hmem
    · refine ⟨?_, ?_⟩
      · refine foldl_remove_region_none_mono rest _ _ ?_
        show ((g.nodes.remove r0.start).remove r0.end_).get r0.start = none
        rw [get_remove, get_remove]
        by_cases h1 : r0.start = r0.end_ <;> simp [h1]
      · refine foldl_remove_region_none_mono rest _ _ ?_
        show ((g.nodes.remove r0.start).remove r0.end_).get r0.end_ = none
        rw [get_remove, get_remove]
        simp
    · exact foldl_remove_region_marker_none rest _ r0 hmem

/-- C5 amended: a key with no region-map entry yields `(none, unchanged)`
(so `remove_compound` is idempotent), and on a live compound with an entry
the compound is returned while its key and all its owned regions' markers
are dead afterwards.  (The claim's "already dead" premise must read
"has no region-map entry": a key removed by `remove_node` alone keeps its
entry and a second `remove_compound` then still mutates the graph.) -/
theorem claim_C5 {S : Type} :
    (∀ (g : Graph S) (id : Id), alistGet g.regions id = none →
      g.remove_compound id = (none, g)) ∧
    (∀ (g : Graph S) (id : Id),
      (g.remove_compound id).2.remove_compound id = (none, (g.remove_compound id).2)) ∧
    (∀ (g : Graph S) (id : Id) (c : Compound) (rl : List Region),
      g.nodes.get id = some (.compound c) → alistGet g.regions id = some rl →
      (∀ r ∈ rl, r.start ≠ id ∧ r.end_ ≠ id) →
      (g.remove_compound id).1 = some c ∧
      liveAt (g.remove_compound id).2 id = false ∧
      ∀ r ∈ rl, liveAt (g.remove_compound id).2 r.start = false ∧
        liveAt (g.remove_compound id).2 r.end_ = false) := by
  have hbase : ∀ (g : Graph S) (id : Id), alistGet g.regions id = none →
      g.remove_compound id = (none, g) := by
    intro g id h
    unfold Graph.remove_compound
    rw [h]
  refine ⟨hbase, ?_, ?_⟩
  · intro g id
    cases h : alistGet g.regions id with
    | none =>
      rw [hbase g id h]
      exact hbase g id h
    | some rl =>
      refine hbase _ id ?_
      unfold Graph.remove_compound
      rw [h]
      dsimp only
      simp only [Graph.remove_node]
      rw [foldl_remove_region_regions]
      exact alistGet_remove _ _
  · intro g id c rl hget hreg hne
    unfold Graph.remove_compound
    rw [hreg]
    dsimp only
    have hmid : (rl.foldl Graph.remove_region
        { g with regions := alistRemove g.regions id }).nodes.get id =
        some (.compound c) := by
      rw [foldl_remove_region_get_ne rl _ id
        (fun r hr => ⟨fun he => ((hne r hr).1 he.symm), fun he => ((hne r hr).2 he.symm)⟩)]
      exact hget
    simp only [Graph.remove_node, try_remove_some hmid]
    refine ⟨rfl, ?_, ?_⟩
    · show ((Arena.mk _).get id).isSome = false
      unfold Arena.get
      dsimp only
      rw [getD_set_self _ _ (lt_length_of_getD_some hmid)]
      rfl
    · intro r hr
      have hmark := foldl_remove_region_marker_none rl
        { g with regions := alistRemove g.regions id } r hr
      constructor
      · show ((Arena.mk _).get r.start).isSome = false
        unfold Arena.get
        dsimp only
        rw [getD_set_ne _ _ (fun he => (hne r hr).1 he.symm)]
        rw [show (rl.foldl Graph.remove_region _).nodes.slots.getD r.start none = none
          from hmark.1]
        rfl
      · show ((Arena.mk _).get r.end_).isSome = false
        unfold Arena.get
        dsimp only
        rw [getD_set_ne _ _ (fun he => (hne r hr).2 he.symm)]
        rw [show (rl.foldl Graph.remove_region _).nodes.slots.getD r.end_ none = none
          from hmark.2]
        rfl

/-- C5 counterexample to the claim as stated: in `gLamDead` the key 0 is
dead in the node store, yet `remove_compound 0` mutates the graph (it still
removes the surviving region-map entry and the markers). -/
theorem claim_C5_counterexample :
    liveAt gLamDead 0 = false ∧ (gLamDead.remove_compound 0).1 = none ∧
    (gLamDead.remove_compound 0).2 ≠ gLamDead := by decide

/-- C5 witness: the amended claim's live-compound case at a concrete lambda. -/
theorem claim_C5_witness :
    (gLam.remove_compound 0).1 = some .lambda ∧
    liveAt (gLam.remove_compound 0).2 0 = false ∧
    ∀ r ∈ [(⟨1, 2⟩ : Region)], liveAt (gLam.remove_compound 0).2 r.start = false ∧
      liveAt (gLam.remove_compound 0).2 r.end_ = false :=
  claim_C5.2.2 gLam 0 .lambda [⟨1, 2⟩] (by decide) (by decide) (by decide)

/-! ## Claim C6: a dead root panics instead of being skipped -/

/-- C6: the spec says a root not in the store is skipped silently, but the
traversal indexes `seen[id]` (out of bounds for a stale key past the active
range) and `graph.nodes[id]` (a dead key) — on `gStale` with the removed
key `1` as root, the run panics instead of skipping it. -/
theorem claim_C6 :
    liveAt gStale 1 = false ∧ (ReverseTopological.run gStale [1]).panicked = true ∧
    (ReverseTopological.run gStale [1]).out = [] := by decide

/-! ## Claims C2 and C3: invariant-input relaxation -/

theorem getElem?_eq_some_getD {α : Type} {l : List α} {i : Nat} (d : α) (h : i < l.length) :
    l[i]? = some (l.getD i d) := by
  rw [getD_eq_getElem?]
  cases hx : l[i]? with
  | none => exact absurd (List.getElem?_eq_none_iff.mp hx) (by omega)
  | some x => rfl

theorem getD_map {α β : Type} (f : α → β) {l : List α} {i : Nat} (d : α) (d' : β)
    (h : i < l.length) : (l.map f).getD i d' = f (l.getD i d) := by
  rw [getD_eq_getElem?, List.getElem?_map, getElem?_eq_some_getD d h]
  rfl

namespace GenB

/-- Closed form of the gamma invalidation fold: a slot keeps its initial
value exactly when every later region's passthrough agrees with it. -/
theorem gamma_fold_getD (nodes : Nodes) (params : List Link) :
    ∀ (ss : List Region) (maps : List (Option Link)),
      (∀ r ∈ ss, maps.length ≤ (nodeAt nodes r.end_).parameters.length) →
      ∀ i, i < maps.length →
      (ss.foldl (fun maps region =>
          let results := (nodeAt nodes region.end_).parameters
          maps.mapIdx fun i old =>
            match results[i]? with
            | some res => if load_passthrough params region.start res ≠ old then none else old
            | none => old) maps).getD i none =
        if ∀ r ∈ ss,
            load_passthrough params r.start ((nodeAt nodes r.end_).parameters.getD i default) =
              maps.getD i none
        then maps.getD i none else none
  | [], maps, _, i, _ => by simp
  | s :: rest, maps, h, i, hi => by
    rw [List.foldl_cons]
    have hlen' : (maps.mapIdx fun i old =>
        match ((nodeAt nodes s.end_).parameters)[i]? with
        | some res => if load_passthrough params s.start res ≠ old then none else old
        | none => old).length = maps.length := by
      simp
    have hres : ((nodeAt nodes s.end_).parameters)[i]? =
        some ((nodeAt nodes s.end_).parameters.getD i default) :=
      getElem?_eq_some_getD _ (lt_of_lt_of_le hi (h s (by simp)))
    have hmi : (maps.mapIdx fun i old =>
        match ((nodeAt nodes s.end_).parameters)[i]? with
        | some res => if load_passthrough params s.start res ≠ old then none else old
        | none => old).getD i none =
        (if load_passthrough params s.start
            ((nodeAt nodes s.end_).parameters.getD i default) ≠ maps.getD i none
         then none else maps.getD i none) := by
      rw [getD_eq_getElem?, List.getElem?_mapIdx, getElem?_eq_some_getD none hi, hres]
      rfl
    rw [gamma_fold_getD nodes params rest _
      (fun r hr => by rw [hlen']; exact h r (by simp [hr])) i (by rw [hlen']; exact hi)]
    by_cases hcase : load_passthrough params s.start
        ((nodeAt nodes s.end_).parameters.getD i default) = maps.getD i none
    · rw [show (maps.mapIdx fun i old =>
          match ((nodeAt nodes s.end_).parameters)[i]? with
          | some res => if load_passthrough params s.start res ≠ old then none else old
          | none => old).getD i none = maps.getD i none from by
        rw [hmi, if_neg (not_not_intro hcase)]]
      refine if_congr ⟨?_, fun hall r hr => hall r (List.mem_cons_of_mem _ hr)⟩ rfl rfl
      intro hall
      exact List.forall_mem_cons.mpr ⟨hcase, hall⟩
    · rw [show (maps.mapIdx fun i old =>
          match ((nodeAt nodes s.end_).parameters)[i]? with
          | some res => if load_passthrough params s.start res ≠ old then none else old
          | none => old).getD i none = none from by rw [hmi, if_pos hcase]]
      have hrhs : ¬ (∀ r ∈ s :: rest,
          load_passthrough params r.start ((nodeAt nodes r.end_).parameters.getD i default) =
            maps.getD i none) := fun hall => hcase (hall s (by simp))
      rw [if_neg hrhs]
      split <;> rfl

/-- The invalidation fold preserves the maps length. -/
theorem gamma_fold_length (nodes : Nodes) (params : List Link) :
    ∀ (ss : List Region) (maps : List (Option Link)),
      (ss.foldl (fun maps region =>
          let results := (nodeAt nodes region.end_).parameters
          maps.mapIdx fun i old =>
            match results[i]? with
            | some res => if load_passthrough params region.start res ≠ old then none else old
            | none => old) maps).length = maps.length
  | [], _ => rfl
  | s :: rest, maps => by
    rw [List.foldl_cons, gamma_fold_length nodes params rest]
    simp

/-- Behaviour of the modelled `redo_ports` on a duplicate-free cache of live
successors: each cached successor's parameters are rewritten once, the rest
of the store is untouched, and the count sums the per-successor matches. -/
theorem redo_ports_spec (cache : List (List Nat)) (from_ : Nat) (redo : Nat → Option Link) :
    ∀ (ss : List Nat) (N : Nodes) (k : Nat), ss.Nodup →
      (∀ s ∈ ss, (N.getD s none).isSome = true) →
      (∀ s : Nat,
        (ss.foldl (fun acc s =>
          match acc.1.getD s none with
          | none => acc
          | some n =>
            (acc.1.set s (some (n.mapParameters (redo_link from_ redo))),
             acc.2 + redo_count from_ redo n.parameters)) (N, k)).1.getD s none =
        if s ∈ ss then (N.getD s none).map (Node.mapParameters (redo_link from_ redo))
        else N.getD s none) ∧
      (ss.foldl (fun acc s =>
          match acc.1.getD s none with
          | none => acc
          | some n =>
            (acc.1.set s (some (n.mapParameters (redo_link from_ redo))),
             acc.2 + redo_count from_ redo n.parameters)) (N, k)).2 =
        k + (ss.map fun s => redo_count from_ redo (nodeAt N s).parameters).sum
  | [], N, k, _, _ => ⟨fun s => by simp, by simp⟩
  | s0 :: rest, N, k, hnd, hlive => by
    obtain ⟨n, hn⟩ : ∃ n, N.getD s0 none = some n := by
      cases hx : N.getD s0 none with
      | none => exact absurd (hx ▸ hlive s0 (by simp)) (by simp)
      | some n => exact ⟨n, rfl⟩
    have hs0 : s0 < N.length := lt_length_of_getD_some hn
    have hnotmem : s0 ∉ rest := (List.nodup_cons.mp hnd).1
    have hset : ∀ s ∈ rest,
        (N.set s0 (some (n.mapParameters (redo_link from_ redo)))).getD s none =
          N.getD s none := by
      intro s hs
      exact getD_set_ne _ _ (fun he => hnotmem (he ▸ hs))
    have ih := redo_ports_spec cache from_ redo rest
      (N.set s0 (some (n.mapParameters (redo_link from_ redo)))) (k + redo_count from_ redo n.parameters)
      (List.nodup_cons.mp hnd).2
      (fun s hs => by rw [hset s hs]; exact hlive s (by simp [hs]))
    rw [List.foldl_cons]
    constructor
    · intro s
      rw [show (match N.getD s0 none with
          | none => (N, k)
          | some n =>
            (N.set s0 (some (n.mapParameters (redo_link from_ redo))),
             k + redo_count from_ redo n.parameters)) =
          (N.set s0 (some (n.mapParameters (redo_link from_ redo))),
           k + redo_count from_ redo n.parameters) from by rw [hn]]
      rw [ih.1 s]
      by_cases hsm : s ∈ rest
      · rw [if_pos hsm, if_pos (by simp [hsm]), hset s hsm]
      · by_cases hse : s = s0
        · subst hse
          rw [if_neg hsm, if_pos (by simp), getD_set_self _ _ hs0, hn]
          rfl
        · rw [if_neg hsm, if_neg (by simp [hse, hsm]),
            getD_set_ne _ _ (fun he => hse he.symm)]
    · rw [show (match N.getD s0 none with
          | none => (N, k)
          | some n =>
            (N.set s0 (some (n.mapParameters (redo_link from_ redo))),
             k + redo_count from_ redo n.parameters)) =
          (N.set s0 (some (n.mapParameters (redo_link from_ redo))),
           k + redo_count from_ redo n.parameters) from by rw [hn]]
      rw [ih.2]
      have hnodeAt : ∀ s ∈ rest,
          nodeAt (N.set s0 (some (n.mapParameters (redo_link from_ redo)))) s = nodeAt N s := by
        intro s hs
        unfold nodeAt
        rw [hset s hs]
      have hmapeq : rest.map (fun s => redo_count from_ redo
            (nodeAt (N.set s0 (some (n.mapParameters (redo_link from_ redo)))) s).parameters) =
          rest.map fun s => redo_count from_ redo (nodeAt N s).parameters :=
        List.map_congr_left fun s hs => by rw [hnodeAt s hs]
      have hs0n : nodeAt N s0 = n := by unfold nodeAt; rw [hn]
      rw [hmapeq, List.map_cons, List.sum_cons, hs0n]
      omega

/-- C2: on a Gamma, `run` builds one maps slot per `End` parameter of the
first region; slot `i` holds the first region's passthrough exactly when
every later region's passthrough of position `i` agrees with it, and `None`
otherwise; it then rewrites the parameters `(id, p)` of every cached
successor through `maps[p]` and returns `Some` of the replacement count. -/
theorem claim_C2 (nodes : Nodes) (cache : List (List Nat)) (id : Nat)
    (params : List Link) (r1 : Region) (rest : List Region)
    (hn : nodes.getD id none = some (.compound (.gamma params (r1 :: rest))))
    (harity : ∀ r ∈ rest, (endParams nodes r).length = (endParams nodes r1).length)
    (hnodup : (cache.getD id []).Nodup)
    (hlive : ∀ s ∈ cache.getD id [], (nodes.getD s none).isSome = true) :
    (run_gamma nodes params (r1 :: rest)).length = (endParams nodes r1).length ∧
    (∀ i, i < (endParams nodes r1).length →
      (run_gamma nodes params (r1 :: rest)).getD i none =
        if ∀ r ∈ rest, passthroughAt nodes params r i = passthroughAt nodes params r1 i
        then passthroughAt nodes params r1 i else none) ∧
    RelaxDependencies.run nodes id cache =
      ((redo_ports nodes cache id fun p =>
          (run_gamma nodes params (r1 :: rest)).getD p none).1,
        some (redo_ports nodes cache id fun p =>
          (run_gamma nodes params (r1 :: rest)).getD p none).2) ∧
    (∀ s : Nat, (RelaxDependencies.run nodes id cache).1.getD s none =
      if s ∈ cache.getD id [] then
        (nodes.getD s none).map (Node.mapParameters (redo_link id fun p =>
          (run_gamma nodes params (r1 :: rest)).getD p none))
      else nodes.getD s none) ∧
    (RelaxDependencies.run nodes id cache).2 =
      some ((cache.getD id []).map fun s => redo_count id (fun p =>
        (run_gamma nodes params (r1 :: rest)).getD p none)
        (nodeAt nodes s).parameters).sum := by
  have hrg : run_gamma nodes params (r1 :: rest) =
      rest.foldl (fun maps region =>
        let results := (nodeAt nodes region.end_).parameters
        maps.mapIdx fun i old =>
          match results[i]? with
          | some res => if load_passthrough params region.start res ≠ old then none else old
          | none => old) (add_map_results nodes params r1) := rfl
  have hm0len : (add_map_results nodes params r1).length = (endParams nodes r1).length := by
    simp [add_map_results, endParams]
  have hrun : RelaxDependencies.run nodes id cache =
      ((redo_ports nodes cache id fun p =>
          (run_gamma nodes params (r1 :: rest)).getD p none).1,
        some (redo_ports nodes cache id fun p =>
          (run_gamma nodes params (r1 :: rest)).getD p none).2) := by
    unfold RelaxDependencies.run
    rw [hn]
  have hspec := redo_ports_spec cache id
    (fun p => (run_gamma nodes params (r1 :: rest)).getD p none)
    (cache.getD id []) nodes 0 hnodup hlive
  refine ⟨?_, ?_, hrun, ?_, ?_⟩
  · rw [hrg, gamma_fold_length, hm0len]
  · intro i hi
    have hm0 : (add_map_results nodes params r1).getD i none =
        passthroughAt nodes params r1 i := by
      unfold add_map_results passthroughAt endParams
      exact getD_map _ default none hi
    rw [hrg, gamma_fold_getD nodes params rest _
      (fun r hr => by rw [hm0len]; exact le_of_eq (harity r hr).symm) i
      (by rw [hm0len]; exact hi), hm0]
    rfl
  · intro s
    rw [hrun]
    exact hspec.1 s
  · rw [hrun]
    dsimp only
    rw [show (redo_ports nodes cache id fun p =>
        (run_gamma nodes params (r1 :: rest)).getD p none).2 =
        0 + ((cache.getD id []).map fun s => redo_count id (fun p =>
          (run_gamma nodes params (r1 :: rest)).getD p none)
          (nodeAt nodes s).parameters).sum from hspec.2]
    rw [Nat.zero_add]

/-- C2 witness: the spec's S2 scenario — output 0 of the gamma is a
passthrough of `P0` in both branches, so the consumer is rewired and the
count is returned. -/
theorem claim_C2_witness :
    RelaxDependencies.run nGamma 8 cGamma =
      ((redo_ports nGamma cGamma 8 fun p =>
          (run_gamma nGamma [⟨0, 0⟩, ⟨1, 0⟩, ⟨2, 0⟩] [⟨3, 4⟩, ⟨5, 6⟩]).getD p none).1,
        some (redo_ports nGamma cGamma 8 fun p =>
          (run_gamma nGamma [⟨0, 0⟩, ⟨1, 0⟩, ⟨2, 0⟩] [⟨3, 4⟩, ⟨5, 6⟩]).getD p none).2) :=
  (claim_C2 nGamma cGamma 8 [⟨0, 0⟩, ⟨1, 0⟩, ⟨2, 0⟩] ⟨3, 4⟩ [⟨5, 6⟩]
    (by decide) (by decide) (by decide) (by decide)).2.2.1

/-- C3: on a Theta, slot `i` of the maps is `Some(P[i])` exactly when the
region's `End` parameter `i` is the identity link `(start, i)`, and `None`
otherwise; the cached successors' parameters `(id, p)` are then rewritten
through `maps[p]`. -/
theorem claim_C3 (nodes : Nodes) (cache : List (List Nat)) (id : Nat)
    (params : List Link) (r : Region)
    (hn : nodes.getD id none = some (.compound (.theta params r)))
    (hnodup : (cache.getD id []).Nodup)
    (hlive : ∀ s ∈ cache.getD id [], (nodes.getD s none).isSome = true) :
    (run_theta nodes params r).length = (endParams nodes r).length ∧
    (∀ i, i < (endParams nodes r).length →
      (run_theta nodes params r).getD i none =
        if (endParams nodes r).getD i default = Link.mk r.start i
        then some (params.getD i default) else none) ∧
    RelaxDependencies.run nodes id cache =
      ((redo_ports nodes cache id fun p => (run_theta nodes params r).getD p none).1,
        some (redo_ports nodes cache id fun p => (run_theta nodes params r).getD p none).2) ∧
    (∀ s : Nat, (RelaxDependencies.run nodes id cache).1.getD s none =
      if s ∈ cache.getD id [] then
        (nodes.getD s none).map (Node.mapParameters (redo_link id fun p =>
          (run_theta nodes params r).getD p none))
      else nodes.getD s none) ∧
    (RelaxDependencies.run nodes id cache).2 =
      some ((cache.getD id []).map fun s => redo_count id (fun p =>
        (run_theta nodes params r).getD p none) (nodeAt nodes s).parameters).sum := by
  have hm0len : (add_map_results nodes params r).length = (endParams nodes r).length := by
    simp [add_map_results, endParams]
  have hrun : RelaxDependencies.run nodes id cache =
      ((redo_ports nodes cache id fun p => (run_theta nodes params r).getD p none).1,
        some (redo_ports nodes cache id fun p => (run_theta nodes params r).getD p none).2) := by
    unfold RelaxDependencies.run
    rw [hn]
  have hspec := redo_ports_spec cache id
    (fun p => (run_theta nodes params r).getD p none) (cache.getD id []) nodes 0 hnodup hlive
  refine ⟨?_, ?_, hrun, ?_, ?_⟩
  · unfold run_theta
    simp [hm0len]
  · intro i hi
    have hi0 : i < (add_map_results nodes params r).length := by rw [hm0len]; exact hi
    have hm0 : (add_map_results nodes params r).getD i none =
        load_passthrough params r.start ((endParams nodes r).getD i default) := by
      unfold add_map_results endParams
      exact getD_map _ default none hi
    unfold run_theta
    rw [getD_eq_getElem?, List.getElem?_mapIdx, getElem?_eq_some_getD none hi0]
    simp only [Option.map_some', Option.getD_some]
    rw [show ((nodeAt nodes r.end_).parameters)[i]? =
        some ((endParams nodes r).getD i default) from getElem?_eq_some_getD default hi]
    dsimp only
    by_cases hres : (endParams nodes r).getD i default = Link.mk r.start i
    · rw [if_neg (not_not_intro hres), if_pos hres, hm0, hres]
      unfold load_passthrough
      simp
    · rw [if_pos hres, if_neg hres]
  · intro s
    rw [hrun]
    exact hspec.1 s
  · rw [hrun]
    dsimp only
    rw [show (redo_ports nodes cache id fun p => (run_theta nodes params r).getD p none).2 =
        0 + ((cache.getD id []).map fun s => redo_count id (fun p =>
          (run_theta nodes params r).getD p none) (nodeAt nodes s).parameters).sum from
      hspec.2]
    rw [Nat.zero_add]

/-- C3 witness: the spec's S3 scenario — output 0 of the theta is loop
invariant, outputs 1 and 2 are computed. -/
theorem claim_C3_witness :
    RelaxDependencies.run nTheta 7 cTheta =
      ((redo_ports nTheta cTheta 7 fun p =>
          (run_theta nTheta [⟨0, 0⟩, ⟨1, 0⟩, ⟨2, 0⟩] ⟨3, 4⟩).getD p none).1,
        some (redo_ports nTheta cTheta 7 fun p =>
          (run_theta nTheta [⟨0, 0⟩, ⟨1, 0⟩, ⟨2, 0⟩] ⟨3, 4⟩).getD p none).2) :=
  (claim_C3 nTheta cTheta 7 [⟨0, 0⟩, ⟨1, 0⟩, ⟨2, 0⟩] ⟨3, 4⟩
    (by decide) (by decide) (by decide)).2.2.1

end GenB

/-! ## Machine metatheory: step facts, termination, decomposition -/

theorem le_foldr_max : ∀ (l : List Nat), ∀ x ∈ l, x ≤ l.foldr max 0
  | [], _, hx => absurd hx (by simp)
  | y :: rest, x, hx => by
    rcases List.mem_cons.mp hx with rfl | hmem
    · simp [List.foldr_cons]
    · exact le_trans (le_foldr_max rest x hmem) (by simp [List.foldr_cons])

theorem alistGet_mem {β : Type} :
    ∀ {l : List (Id × β)} {k : Id} {v : β}, alistGet l k = some v → (k, v) ∈ l := by
  intro l
  induction l with
  | nil => intro k v h; exact Option.noConfusion h
  | cons kv rest ih =>
    intro k v h
    obtain ⟨k', v'⟩ := kv
    unfold alistGet at h
    by_cases hk : k' = k
    · rw [if_pos hk] at h
      subst hk
      cases h
      simp
    · rw [if_neg hk] at h
      exact List.mem_cons_of_mem _ (ih h)

theorem rcb_le {S : Type} (g : Graph S) (id : Id) : rcb g id ≤ maxRegLen g := by
  unfold rcb region_count_checked
  cases hg : g.nodes.get id with
  | none => simp
  | some n =>
    cases hc : n.as_compound with
    | none => simp [hc]
    | some c =>
      simp only [hc]
      cases h : alistGet g.regions id with
      | none => simp
      | some rl =>
        simp only [Option.getD_some]
        exact le_foldr_max _ _ (List.mem_map_of_mem _ (alistGet_mem h))

theorem mem_of_getElem?_some {α : Type} {l : List α} {i : Nat} {x : α}
    (h : l[i]? = some x) : x ∈ l := by
  obtain ⟨hlt, he⟩ := List.getElem?_eq_some_iff.mp h
  exact he ▸ List.getElem_mem hlt

theorem entryWeight_push_lt {S : Type} (g : Graph S) {t : Id} {pl : List Link}
    (hp : g.predecessors[t]? = some pl) :
    entryWeight g (.preds t pl.length) < bigW g := by
  have h1 : pl.length ≤ maxPredLen g :=
    le_foldr_max _ _ (List.mem_map_of_mem _ (mem_of_getElem?_some hp))
  have h2 := rcb_le g t
  show 3 + pl.length + rcb g t < bigW g
  unfold bigW
  omega

theorem stackWeight_append {S : Type} (g : Graph S) (P Q : List Entry) :
    stackWeight g (P ++ Q) = stackWeight g P + stackWeight g Q := by
  simp [stackWeight]

theorem stackWeight_cons {S : Type} (g : Graph S) (e : Entry) (rest : List Entry) :
    stackWeight g (e :: rest) = entryWeight g e + stackWeight g rest := by
  simp [stackWeight]

theorem entryWeight_pos {S : Type} (g : Graph S) : ∀ e : Entry, 0 < entryWeight g e
  | .preds _ _ => by simp [entryWeight]
  | .regs _ _ => by simp [entryWeight]
  | .node _ => by simp [entryWeight]

theorem stack_nil_of_weight_zero {S : Type} (g : Graph S) :
    ∀ {st : List Entry}, stackWeight g st = 0 → st = [] := by
  intro st h
  cases st with
  | nil => rfl
  | cons e rest =>
    rw [stackWeight_cons] at h
    exact absurd h (by have := entryWeight_pos g e; omega)

theorem unseenCount_set {seen : List Bool} {id : Nat} (h : seen[id]? = some false) :
    unseenCount (seen.set id true) + 1 = unseenCount seen := by
  have hlt : id < seen.length := by
    by_contra hc
    rw [List.getElem?_eq_none (by omega)] at h
    exact Option.noConfusion h
  have hmem : false ∈ seen := by
    have := List.getElem?_eq_some_iff.mp h
    obtain ⟨hh, he⟩ := this
    exact he ▸ List.getElem_mem hh
  have hpos : 0 < seen.count false := List.count_pos_iff.mpr hmem
  have hval : seen[id] = false := (List.getElem?_eq_some_iff.mp h).2
  unfold unseenCount
  rw [List.count_set _ _ _ _ hlt, hval]
  simp
  omega

theorem hp_zero_none {S : Type} {g : Graph S} {id : Id} (seen : List Bool)
    (rest : List Entry) (out : List Id) (h : region_count_checked g id = none) :
    handle_predecessor g 0 id ⟨seen, rest, out, false⟩ = ⟨seen, rest, out, true⟩ := by
  unfold handle_predecessor
  rw [h]

theorem hp_zero_some {S : Type} {g : Graph S} {id : Id} {rc : Nat} (seen : List Bool)
    (rest : List Entry) (out : List Id) (h : region_count_checked g id = some rc) :
    handle_predecessor g 0 id ⟨seen, rest, out, false⟩ =
      ⟨seen, .regs id rc :: rest, out, false⟩ := by
  unfold handle_predecessor
  rw [h]

theorem hp_succ_none {S : Type} {g : Graph S} {id : Id} (c : Nat) (seen : List Bool)
    (rest : List Entry) (out : List Id) (h : g.predecessors[id]? = none) :
    handle_predecessor g (c + 1) id ⟨seen, rest, out, false⟩ =
      ⟨seen, .preds id c :: rest, out, true⟩ := by
  unfold handle_predecessor
  rw [h]

theorem hp_succ_oob {S : Type} {g : Graph S} {id : Id} {pl : List Link} (c : Nat)
    (seen : List Bool) (rest : List Entry) (out : List Id)
    (h : g.predecessors[id]? = some pl) (hc : ¬ c < pl.length) :
    handle_predecessor g (c + 1) id ⟨seen, rest, out, false⟩ =
      ⟨seen, .preds id c :: rest, out, true⟩ := by
  unfold handle_predecessor
  rw [h]
  exact if_neg hc

theorem hp_succ_hit {S : Type} {g : Graph S} {id : Id} {pl : List Link} (c : Nat)
    (seen : List Bool) (rest : List Entry) (out : List Id)
    (h : g.predecessors[id]? = some pl) (hc : c < pl.length) :
    handle_predecessor g (c + 1) id ⟨seen, rest, out, false⟩ =
      add_node_by_id g.predecessors ⟨seen, .preds id c :: rest, out, false⟩
        (pl.getD (pl.length - c - 1) default).node := by
  unfold handle_predecessor
  rw [h]
  exact if_pos hc

theorem hr_zero {S : Type} (g : Graph S) (id : Id) (seen : List Bool)
    (rest : List Entry) (out : List Id) :
    handle_region g 0 id ⟨seen, rest, out, false⟩ =
      ⟨seen, .node id :: rest, out, false⟩ := rfl

theorem hr_succ_none {S : Type} {g : Graph S} {id : Id} (c : Nat) (seen : List Bool)
    (rest : List Entry) (out : List Id) (h : alistGet g.regions id = none) :
    handle_region g (c + 1) id ⟨seen, rest, out, false⟩ =
      ⟨seen, .regs id c :: rest, out, true⟩ := by
  unfold handle_region
  rw [h]

theorem hr_succ_oob {S : Type} {g : Graph S} {id : Id} {rl : List Region} (c : Nat)
    (seen : List Bool) (rest : List Entry) (out : List Id)
    (h : alistGet g.regions id = some rl) (hc : ¬ c < rl.length) :
    handle_region g (c + 1) id ⟨seen, rest, out, false⟩ =
      ⟨seen, .regs id c :: rest, out, true⟩ := by
  unfold handle_region
  rw [h]
  exact if_neg hc

theorem hr_succ_hit {S : Type} {g : Graph S} {id : Id} {rl : List Region} (c : Nat)
    (seen : List Bool) (rest : List Entry) (out : List Id)
    (h : alistGet g.regions id = some rl) (hc : c < rl.length) :
    handle_region g (c + 1) id ⟨seen, rest, out, false⟩ =
      add_region_entries g.predecessors ⟨seen, .regs id c :: rest, out, false⟩
        (rl.getD (rl.length - c - 1) default) := by
  unfold handle_region
  rw [h]
  exact if_pos hc

theorem anbi_panicked (preds : List (List Link)) (s : MState) (id : Id)
    (h : s.panicked = true) : add_node_by_id preds s id = s := by
  unfold add_node_by_id
  rw [if_pos h]

theorem seenAt_set_self {seen : List Bool} {id : Nat} (h : id < seen.length) :
    seenAt (seen.set id true) id = true := by
  unfold seenAt
  exact getD_set_self _ _ h

theorem seenAt_set_ne {seen : List Bool} {id j : Nat} (b : Bool) (h : id ≠ j) :
    seenAt (seen.set id b) j = seenAt seen j := getD_set_ne _ _ h

theorem anbi_facts {S : Type} (g : Graph S) (seen : List Bool) (id : Id) :
    ∃ (P : List Entry) (seen' : List Bool) (pk : Bool),
      (∀ (rest : List Entry) (out : List Id),
        add_node_by_id g.predecessors ⟨seen, rest, out, false⟩ id =
          ⟨seen', P ++ rest, out, pk⟩) ∧
      bigW g * unseenCount seen' + stackWeight g P ≤ bigW g * unseenCount seen ∧
      seen'.length = seen.length ∧
      (∀ i, seenAt seen i = true → seenAt seen' i = true) := by
  cases hs : seen[id]? with
  | none =>
    exact ⟨[], seen, true,
      fun rest out => by unfold add_node_by_id; simp [hs],
      by simp [stackWeight], rfl, fun _ h => h⟩
  | some b =>
    cases b with
    | true =>
      exact ⟨[], seen, false,
        fun rest out => by unfold add_node_by_id; simp [hs],
        by simp [stackWeight], rfl, fun _ h => h⟩
    | false =>
      cases hp : g.predecessors[id]? with
      | none =>
        exact ⟨[], seen, true,
          fun rest out => by unfold add_node_by_id; simp [hs, hp],
          by simp [stackWeight], rfl, fun _ h => h⟩
      | some pl =>
        refine ⟨[.preds id pl.length], seen.set id true, false,
          fun rest out => by unfold add_node_by_id; simp [hs, hp], ?_, by simp, ?_⟩
        · have h1 := unseenCount_set hs
          have h2 := entryWeight_push_lt g hp
          rw [show unseenCount seen = unseenCount (seen.set id true) + 1 from h1.symm,
            Nat.mul_succ]
          have h3 : stackWeight g [.preds id pl.length] = entryWeight g (.preds id pl.length) := by
            simp [stackWeight]
          omega
        · intro i hi
          by_cases he : id = i
          · subst he
            exact seenAt_set_self (by
              by_contra hc
              rw [List.getElem?_eq_none (by omega)] at hs
              exact Option.noConfusion hs)
          · rw [seenAt_set_ne _ he]
            exact hi

theorem are_facts {S : Type} (g : Graph S) (seen : List Bool) (r : Region) :
    ∃ (P : List Entry) (seen' : List Bool) (pk : Bool),
      (∀ (rest : List Entry) (out : List Id),
        add_region_entries g.predecessors ⟨seen, rest, out, false⟩ r =
          ⟨seen', P ++ rest, out, pk⟩) ∧
      bigW g * unseenCount seen' + stackWeight g P ≤ bigW g * unseenCount seen ∧
      seen'.length = seen.length ∧
      (∀ i, seenAt seen i = true → seenAt seen' i = true) := by
  obtain ⟨P₁, seen₁, pk₁, heq₁, hw₁, hl₁, hm₁⟩ := anbi_facts g seen r.end_
  cases pk₁ with
  | true =>
    refine ⟨P₁, seen₁, true, ?_, hw₁, hl₁, hm₁⟩
    intro rest out
    unfold add_region_entries
    rw [heq₁ rest out]
    exact anbi_panicked _ _ _ rfl
  | false =>
    obtain ⟨P₂, seen₂, pk₂, heq₂, hw₂, hl₂, hm₂⟩ := anbi_facts g seen₁ r.start
    refine ⟨P₂ ++ P₁, seen₂, pk₂, ?_, ?_, by rw [hl₂, hl₁], fun i hi => hm₂ i (hm₁ i hi)⟩
    · intro rest out
      unfold add_region_entries
      rw [heq₁ rest out, heq₂ (P₁ ++ rest) out, List.append_assoc]
    · rw [stackWeight_append]
      omega

theorem exec1_facts {S : Type} (g : Graph S) (e : Entry) (seen : List Bool) :
    ∃ (P : List Entry) (δ : List Id) (seen' : List Bool) (pk : Bool),
      (∀ (rest : List Entry) (out : List Id),
        exec1 g e ⟨seen, rest, out, false⟩ = ⟨seen', P ++ rest, out ++ δ, pk⟩) ∧
      bigW g * unseenCount seen' + stackWeight g P <
        bigW g * unseenCount seen + entryWeight g e ∧
      seen'.length = seen.length ∧
      (∀ i, seenAt seen i = true → seenAt seen' i = true) := by
  cases e with
  | node id =>
    exact ⟨[], [id], seen, false, fun rest out => rfl,
      by simp [stackWeight, entryWeight], rfl, fun _ h => h⟩
  | preds id count =>
    cases count with
    | zero =>
      cases hrcc : region_count_checked g id with
      | none =>
        refine ⟨[], [], seen, true, ?_, ?_, rfl, fun _ h => h⟩
        · intro rest out
          rw [show exec1 g (.preds id 0) ⟨seen, rest, out, false⟩ =
            handle_predecessor g 0 id ⟨seen, rest, out, false⟩ from rfl,
            hp_zero_none seen rest out hrcc]
          simp
        · show _ < _ + (3 + 0 + rcb g id)
          simp [stackWeight]
      | some rc =>
        refine ⟨[.regs id rc], [], seen, false, ?_, ?_, rfl, fun _ h => h⟩
        · intro rest out
          rw [show exec1 g (.preds id 0) ⟨seen, rest, out, false⟩ =
            handle_predecessor g 0 id ⟨seen, rest, out, false⟩ from rfl,
            hp_zero_some seen rest out hrcc]
          simp
        · have hrc : rcb g id = rc := by unfold rcb; rw [hrcc]; rfl
          show bigW g * unseenCount seen + stackWeight g [.regs id rc] <
            bigW g * unseenCount seen + (3 + 0 + rcb g id)
          have : stackWeight g [Entry.regs id rc] = 2 + rc := by
            simp [stackWeight, entryWeight]
          omega
    | succ c =>
      cases hp : g.predecessors[id]? with
      | none =>
        refine ⟨[.preds id c], [], seen, true, ?_, ?_, rfl, fun _ h => h⟩
        · intro rest out
          rw [show exec1 g (.preds id (c + 1)) ⟨seen, rest, out, false⟩ =
            handle_predecessor g (c + 1) id ⟨seen, rest, out, false⟩ from rfl,
            hp_succ_none c seen rest out hp]
          simp
        · show bigW g * unseenCount seen + stackWeight g [.preds id c] <
            bigW g * unseenCount seen + (3 + (c + 1) + rcb g id)
          have : stackWeight g [Entry.preds id c] = 3 + c + rcb g id := by
            simp [stackWeight, entryWeight]
          omega
      | some pl =>
        by_cases hc : c < pl.length
        · obtain ⟨P, seen', pk, heq, hw, hl, hm⟩ :=
            anbi_facts g seen (pl.getD (pl.length - c - 1) default).node
          refine ⟨P ++ [.preds id c], [], seen', pk, ?_, ?_, hl, hm⟩
          · intro rest out
            rw [show exec1 g (.preds id (c + 1)) ⟨seen, rest, out, false⟩ =
              handle_predecessor g (c + 1) id ⟨seen, rest, out, false⟩ from rfl,
              hp_succ_hit c seen rest out hp hc,
              heq (Entry.preds id c :: rest) out]
            simp
          · rw [stackWeight_append]
            have h3 : stackWeight g [Entry.preds id c] = 3 + c + rcb g id := by
              simp [stackWeight, entryWeight]
            show _ < bigW g * unseenCount seen + (3 + (c + 1) + rcb g id)
            omega
        · refine ⟨[.preds id c], [], seen, true, ?_, ?_, rfl, fun _ h => h⟩
          · intro rest out
            rw [show exec1 g (.preds id (c + 1)) ⟨seen, rest, out, false⟩ =
              handle_predecessor g (c + 1) id ⟨seen, rest, out, false⟩ from rfl,
              hp_succ_oob c seen rest out hp hc]
            simp
          · show bigW g * unseenCount seen + stackWeight g [.preds id c] <
              bigW g * unseenCount seen + (3 + (c + 1) + rcb g id)
            have : stackWeight g [Entry.preds id c] = 3 + c + rcb g id := by
              simp [stackWeight, entryWeight]
            omega
  | regs id count =>
    cases count with
    | zero =>
      refine ⟨[.node id], [], seen, false, ?_, ?_, rfl, fun _ h => h⟩
      · intro rest out
        rw [show exec1 g (.regs id 0) ⟨seen, rest, out, false⟩ =
          handle_region g 0 id ⟨seen, rest, out, false⟩ from rfl, hr_zero g id seen rest out]
        simp
      · show bigW g * unseenCount seen + stackWeight g [.node id] <
          bigW g * unseenCount seen + (2 + 0)
        have : stackWeight g [Entry.node id] = 1 := by simp [stackWeight, entryWeight]
        omega
    | succ c =>
      cases hr : alistGet g.regions id with
      | none =>
        refine ⟨[.regs id c], [], seen, true, ?_, ?_, rfl, fun _ h => h⟩
        · intro rest out
          rw [show exec1 g (.regs id (c + 1)) ⟨seen, rest, out, false⟩ =
            handle_region g (c + 1) id ⟨seen, rest, out, false⟩ from rfl,
            hr_succ_none c seen rest out hr]
          simp
        · show bigW g * unseenCount seen + stackWeight g [.regs id c] <
            bigW g * unseenCount seen + (2 + (c + 1))
          have : stackWeight g [Entry.regs id c] = 2 + c := by
            simp [stackWeight, entryWeight]
          omega
      | some rl =>
        by_cases hc : c < rl.length
        · obtain ⟨P, seen', pk, heq, hw, hl, hm⟩ :=
            are_facts g seen (rl.getD (rl.length - c - 1) default)
          refine ⟨P ++ [.regs id c], [], seen', pk, ?_, ?_, hl, hm⟩
          · intro rest out
            rw [show exec1 g (.regs id (c + 1)) ⟨seen, rest, out, false⟩ =
              handle_region g (c + 1) id ⟨seen, rest, out, false⟩ from rfl,
              hr_succ_hit c seen rest out hr hc,
              heq (Entry.regs id c :: rest) out]
            simp
          · rw [stackWeight_append]
            have h3 : stackWeight g [Entry.regs id c] = 2 + c := by
              simp [stackWeight, entryWeight]
            show _ < bigW g * unseenCount seen + (2 + (c + 1))
            omega
        · refine ⟨[.regs id c], [], seen, true, ?_, ?_, rfl, fun _ h => h⟩
          · intro rest out
            rw [show exec1 g (.regs id (c + 1)) ⟨seen, rest, out, false⟩ =
              handle_region g (c + 1) id ⟨seen, rest, out, false⟩ from rfl,
              hr_succ_oob c seen rest out hr hc]
            simp
          · show bigW g * unseenCount seen + stackWeight g [.regs id c] <
              bigW g * unseenCount seen + (2 + (c + 1))
            have : stackWeight g [Entry.regs id c] = 2 + c := by
              simp [stackWeight, entryWeight]
            omega

theorem exec1_measure {S : Type} (g : Graph S) (e : Entry) (seen : List Bool)
    (rest : List Entry) (out : List Id) :
    mMeasure g (exec1 g e ⟨seen, rest, out, false⟩) <
      mMeasure g ⟨seen, e :: rest, out, false⟩ := by
  obtain ⟨P, δ, seen', pk, heq, hw, _, _⟩ := exec1_facts g e seen
  rw [heq rest out]
  unfold mMeasure
  dsimp only
  rw [stackWeight_append, stackWeight_cons]
  omega

theorem loopFuel_terminal {S : Type} (g : Graph S) :
    ∀ (f : Nat) (s : MState), s.panicked = true ∨ s.stack = [] → loopFuel g f s = s
  | 0, _, _ => rfl
  | f + 1, s, h => by
    rcases h with h | h
    · simp [loopFuel, h]
    · by_cases hp : s.panicked <;> simp [loopFuel, h, hp]

theorem loopFuel_succ_step {S : Type} (g : Graph S) (f : Nat) (seen : List Bool)
    (e : Entry) (rest : List Entry) (out : List Id) :
    loopFuel g (f + 1) ⟨seen, e :: rest, out, false⟩ =
      loopFuel g f (exec1 g e ⟨seen, rest, out, false⟩) := rfl

theorem loopFuel_congr_le {S : Type} (g : Graph S) :
    ∀ (m : Nat) (s : MState) (f₁ f₂ : Nat), mMeasure g s ≤ m →
      mMeasure g s < f₁ → mMeasure g s < f₂ → loopFuel g f₁ s = loopFuel g f₂ s := by
  intro m
  induction m with
  | zero =>
    intro s f₁ f₂ hm _ _
    have hsw : stackWeight g s.stack = 0 := by
      unfold mMeasure at hm
      omega
    have hnil : s.stack = [] := stack_nil_of_weight_zero g hsw
    rw [loopFuel_terminal g f₁ s (Or.inr hnil), loopFuel_terminal g f₂ s (Or.inr hnil)]
  | succ m ih =>
    intro s f₁ f₂ hm h₁ h₂
    by_cases hp : s.panicked = true
    · rw [loopFuel_terminal g f₁ s (Or.inl hp), loopFuel_terminal g f₂ s (Or.inl hp)]
    · cases hst : s.stack with
      | nil => rw [loopFuel_terminal g f₁ s (Or.inr hst), loopFuel_terminal g f₂ s (Or.inr hst)]
      | cons e rest =>
        obtain ⟨seen, stack, out, pk⟩ := s
        simp only at hst hp hm h₁ h₂
        subst hst
        have hpk : pk = false := by revert hp; cases pk <;> simp
        subst hpk
        obtain ⟨k₁, rfl⟩ : ∃ k, f₁ = k + 1 := ⟨f₁ - 1, by omega⟩
        obtain ⟨k₂, rfl⟩ : ∃ k, f₂ = k + 1 := ⟨f₂ - 1, by omega⟩
        rw [loopFuel_succ_step, loopFuel_succ_step]
        have hdec := exec1_measure g e seen rest out
        exact ih (exec1 g e ⟨seen, rest, out, false⟩) k₁ k₂ (by omega) (by omega) (by omega)

theorem loopFuel_adequate {S : Type} (g : Graph S) :
    ∀ (m : Nat) (s : MState) (f : Nat), mMeasure g s ≤ m → mMeasure g s < f →
      (loopFuel g f s).panicked = true ∨ (loopFuel g f s).stack = [] := by
  intro m
  induction m with
  | zero =>
    intro s f hm _
    have hsw : stackWeight g s.stack = 0 := by
      unfold mMeasure at hm
      omega
    have hnil : s.stack = [] := stack_nil_of_weight_zero g hsw
    rw [loopFuel_terminal g f s (Or.inr hnil)]
    exact Or.inr hnil
  | succ m ih =>
    intro s f hm hf
    by_cases hp : s.panicked = true
    · rw [loopFuel_terminal g f s (Or.inl hp)]
      exact Or.inl hp
    · cases hst : s.stack with
      | nil =>
        rw [loopFuel_terminal g f s (Or.inr hst)]
        exact Or.inr hst
      | cons e rest =>
        obtain ⟨seen, stack, out, pk⟩ := s
        simp only at hst hp hm hf
        subst hst
        have hpk : pk = false := by revert hp; cases pk <;> simp
        subst hpk
        obtain ⟨k, rfl⟩ : ∃ k, f = k + 1 := ⟨f - 1, by omega⟩
        rw [loopFuel_succ_step]
        have hdec := exec1_measure g e seen rest out
        exact ih (exec1 g e ⟨seen, rest, out, false⟩) k (by omega) (by omega)

theorem runEnd_terminal {S : Type} (g : Graph S) (s : MState)
    (h : s.panicked = true ∨ s.stack = []) : runEnd g s = s :=
  loopFuel_terminal g _ s h

theorem runEnd_is_terminal {S : Type} (g : Graph S) (s : MState) :
    (runEnd g s).panicked = true ∨ (runEnd g s).stack = [] :=
  loopFuel_adequate g (mMeasure g s) s _ (le_refl _) (by omega)

theorem runEnd_step {S : Type} (g : Graph S) (seen : List Bool) (e : Entry)
    (rest : List Entry) (out : List Id) :
    runEnd g ⟨seen, e :: rest, out, false⟩ = runEnd g (exec1 g e ⟨seen, rest, out, false⟩) := by
  unfold runEnd
  rw [loopFuel_succ_step]
  have hdec := exec1_measure g e seen rest out
  exact loopFuel_congr_le g (mMeasure g (exec1 g e ⟨seen, rest, out, false⟩))
    (exec1 g e ⟨seen, rest, out, false⟩) _ _ (le_refl _) (by omega) (by omega)

theorem runEnd_out_shift {S : Type} (g : Graph S) :
    ∀ (m : Nat) (seen : List Bool) (A : List Entry) (out : List Id),
      mMeasure g ⟨seen, A, out, false⟩ ≤ m →
      runEnd g ⟨seen, A, out, false⟩ =
        ⟨(runEnd g ⟨seen, A, [], false⟩).seen, (runEnd g ⟨seen, A, [], false⟩).stack,
         out ++ (runEnd g ⟨seen, A, [], false⟩).out,
         (runEnd g ⟨seen, A, [], false⟩).panicked⟩ := by
  intro m
  induction m with
  | zero =>
    intro seen A out hm
    have hsw : stackWeight g A = 0 := by
      unfold mMeasure at hm
      simp only at hm
      omega
    have hnil : A = [] := stack_nil_of_weight_zero g hsw
    subst hnil
    rw [runEnd_terminal g _ (Or.inr rfl), runEnd_terminal g _ (Or.inr rfl)]
    simp
  | succ m ih =>
    intro seen A out hm
    cases A with
    | nil =>
      rw [runEnd_terminal g _ (Or.inr rfl), runEnd_terminal g _ (Or.inr rfl)]
      simp
    | cons e rest =>
      obtain ⟨P, δ, seen', pk, heq, hw, _, _⟩ := exec1_facts g e seen
      rw [runEnd_step, runEnd_step, heq rest out, heq rest []]
      cases pk with
      | true =>
        rw [runEnd_terminal g _ (Or.inl rfl), runEnd_terminal g _ (Or.inl rfl)]
        simp
      | false =>
        have hmm : mMeasure g ⟨seen', P ++ rest, out ++ δ, false⟩ ≤ m := by
          have h1 : mMeasure g (exec1 g e ⟨seen, rest, out, false⟩) <
              mMeasure g ⟨seen, e :: rest, out, false⟩ := exec1_measure g e seen rest out
          rw [heq rest out] at h1
          have h2 : mMeasure g ⟨seen', P ++ rest, out ++ δ, false⟩ =
              mMeasure g ⟨seen', P ++ rest, δ, false⟩ := rfl
          omega
        have hmm2 : mMeasure g ⟨seen', P ++ rest, δ, false⟩ ≤ m := hmm
        simp only [List.nil_append]
        rw [ih seen' (P ++ rest) (out ++ δ) hmm, ih seen' (P ++ rest) δ hmm2]
        simp [List.append_assoc]

theorem runEnd_append {S : Type} (g : Graph S) :
    ∀ (m : Nat) (seen : List Bool) (A B : List Entry) (out : List Id),
      mMeasure g ⟨seen, A, out, false⟩ ≤ m →
      runEnd g ⟨seen, A ++ B, out, false⟩ =
        (if (runEnd g ⟨seen, A, out, false⟩).panicked then
          { runEnd g ⟨seen, A, out, false⟩ with
            stack := (runEnd g ⟨seen, A, out, false⟩).stack ++ B }
         else runEnd g ⟨(runEnd g ⟨seen, A, out, false⟩).seen, B,
           (runEnd g ⟨seen, A, out, false⟩).out, false⟩) := by
  intro m
  induction m with
  | zero =>
    intro seen A B out hm
    have hsw : stackWeight g A = 0 := by
      unfold mMeasure at hm
      simp only at hm
      omega
    have hnil : A = [] := stack_nil_of_weight_zero g hsw
    subst hnil
    rw [runEnd_terminal g ⟨seen, [], out, false⟩ (Or.inr rfl)]
    simp
  | succ m ih =>
    intro seen A B out hm
    cases A with
    | nil =>
      rw [runEnd_terminal g ⟨seen, [], out, false⟩ (Or.inr rfl)]
      simp
    | cons e rest =>
      obtain ⟨P, δ, seen', pk, heq, hw, _, _⟩ := exec1_facts g e seen
      have hstep1 : runEnd g ⟨seen, (e :: rest) ++ B, out, false⟩ =
          runEnd g ⟨seen', (P ++ rest) ++ B, out ++ δ, pk⟩ := by
        rw [List.cons_append, runEnd_step, heq (rest ++ B) out, List.append_assoc]
      have hstep2 : runEnd g ⟨seen, e :: rest, out, false⟩ =
          runEnd g ⟨seen', P ++ rest, out ++ δ, pk⟩ := by
        rw [runEnd_step, heq rest out]
      have hmes : mMeasure g ⟨seen', P ++ rest, out ++ δ, false⟩ ≤ m := by
        have h1 : mMeasure g (exec1 g e ⟨seen, rest, out, false⟩) <
            mMeasure g ⟨seen, e :: rest, out, false⟩ := exec1_measure g e seen rest out
        rw [heq rest out] at h1
        have h2 : mMeasure g ⟨seen', P ++ rest, out ++ δ, pk⟩ =
            mMeasure g ⟨seen', P ++ rest, out ++ δ, false⟩ := rfl
        omega
      cases pk with
      | true =>
        rw [hstep1, hstep2, runEnd_terminal g _ (Or.inl rfl), runEnd_terminal g _ (Or.inl rfl)]
        simp [List.append_assoc]
      | false =>
        rw [hstep1, hstep2]
        exact ih seen' (P ++ rest) B (out ++ δ) hmes

/-! ### The stack invariant and its preservation -/

theorem lt_of_seenAt {seen : List Bool} {j : Nat} (h : seenAt seen j = true) :
    j < seen.length := by
  by_contra hc
  unfold seenAt at h
  rw [getD_of_ge false (by omega)] at h
  exact Bool.noConfusion h

theorem seenAt_set_true_mono {seen : List Bool} {t j : Nat} (h : seenAt seen j = true) :
    seenAt (seen.set t true) j = true := by
  by_cases he : t = j
  · subst he
    exact seenAt_set_self (lt_of_seenAt h)
  · rw [seenAt_set_ne _ he]
    exact h

theorem seenAt_set_true_cases {seen : List Bool} {t j : Nat}
    (h : seenAt (seen.set t true) j = true) : seenAt seen j = true ∨ j = t := by
  by_cases he : t = j
  · exact Or.inr he.symm
  · rw [seenAt_set_ne _ he] at h
    exact Or.inl h

theorem mem_regionFold {b : Id} :
    ∀ rl : List Region, (b ∈ rl.foldr (fun r acc => r.start :: r.end_ :: acc) [] ↔
      ∃ r ∈ rl, b = r.start ∨ b = r.end_)
  | [] => by simp
  | r :: rest => by
    simp only [List.foldr_cons, List.mem_cons, mem_regionFold rest, List.mem_cons]
    constructor
    · rintro (h | h | ⟨r', hr', hb⟩)
      · exact ⟨r, Or.inl rfl, Or.inl h⟩
      · exact ⟨r, Or.inl rfl, Or.inr h⟩
      · exact ⟨r', Or.inr hr', hb⟩
    · rintro ⟨r', hr' | hr', hb⟩
      · subst hr'
        rcases hb with hb | hb
        · exact Or.inl hb
        · exact Or.inr (Or.inl hb)
      · exact Or.inr (Or.inr ⟨r', hr', hb⟩)

theorem edge_of_pred {S : Type} (g : Graph S) {id : Id} {l : Link}
    (h : l ∈ predsD g id) : edgeG g id l.node := by
  unfold edgeG edgeTargets
  exact List.mem_append_left _ (List.mem_map_of_mem _ h)

theorem edge_of_marker {S : Type} (g : Graph S) {id : Id} {r : Region}
    (hc : isCompoundAt g id = true) (h : r ∈ regionsOfD g id) :
    edgeG g id r.start ∧ edgeG g id r.end_ := by
  unfold edgeG edgeTargets
  rw [if_pos hc]
  exact ⟨List.mem_append_right _ ((mem_regionFold _).mpr ⟨r, h, Or.inl rfl⟩),
    List.mem_append_right _ ((mem_regionFold _).mpr ⟨r, h, Or.inr rfl⟩)⟩

theorem edge_live {S : Type} {g : Graph S} (hwfs : WFS g) {a b : Id}
    (ha : liveAt g a = true) (hab : edgeG g a b) : liveAt g b = true := by
  unfold edgeG edgeTargets at hab
  rcases List.mem_append.mp hab with h | h
  · obtain ⟨l, hl, rfl⟩ := List.mem_map.mp h
    exact hwfs.link_live a ha l hl
  · by_cases hc : isCompoundAt g a = true
    · rw [if_pos hc] at h
      obtain ⟨r, hr, hb⟩ := (mem_regionFold _).mp h
      rcases hb with rfl | rfl
      · exact (hwfs.marker_live a ha hc r hr).1
      · exact (hwfs.marker_live a ha hc r hr).2
    · rw [if_neg hc] at h
      exact absurd h (List.not_mem_nil b)

theorem EntryInv_live {S : Type} {g : Graph S} {seen : List Bool} (e : Entry)
    (h : EntryInv g seen e) : liveAt g (eOwner e) = true := by
  cases e <;> exact h.1

theorem EntryInv_seen {S : Type} {g : Graph S} {seen : List Bool} (e : Entry)
    (h : EntryInv g seen e) : seenAt seen (eOwner e) = true := by
  cases e <;> exact h.2.1

theorem EntryInv_mono {S : Type} {g : Graph S} {seen seen' : List Bool}
    (hm : ∀ j, seenAt seen j = true → seenAt seen' j = true) :
    ∀ e : Entry, EntryInv g seen e → EntryInv g seen' e := by
  intro e h
  cases e with
  | preds id c =>
    obtain ⟨h1, h2, h3, h4⟩ := h
    exact ⟨h1, hm _ h2, h3, fun l hl => hm _ (h4 l hl)⟩
  | regs id c =>
    obtain ⟨h1, h2, h3, h4, h5, h6⟩ := h
    exact ⟨h1, hm _ h2, h3, fun l hl => hm _ (h4 l hl), h5,
      fun hc r hr => ⟨hm _ ((h6 hc r hr).1), hm _ ((h6 hc r hr).2)⟩⟩
  | node id =>
    obtain ⟨h1, h2, h3⟩ := h
    exact ⟨h1, hm _ h2, fun b hb => hm _ (h3 b hb)⟩

theorem EntryInv_fresh {S : Type} {g : Graph S} {seen : List Bool} {t : Id}
    (hlive : liveAt g t = true) (hseen : seenAt seen t = true) :
    EntryInv g seen (.preds t (predsD g t).length) := by
  refine ⟨hlive, hseen, le_refl _, ?_⟩
  rw [Nat.sub_self]
  simp

theorem predsD_getElem? {S : Type} {g : Graph S} {id : Id}
    (h : id < g.predecessors.length) : g.predecessors[id]? = some (predsD g id) := by
  have h1 : g.predecessors[id]? = some g.predecessors[id] := List.getElem?_eq_getElem h
  rw [h1]
  unfold predsD
  rw [getD_of_getElem? [] h1]

theorem take_sub_succ {α : Type} [Inhabited α] {l : List α} {c : Nat} (h : c < l.length) :
    l.take (l.length - c) = l.take (l.length - c - 1) ++ [l.getD (l.length - c - 1) default] := by
  have hk : l.length - c - 1 < l.length := by omega
  have h1 : l[l.length - c - 1]? = some l[l.length - c - 1] := List.getElem?_eq_getElem hk
  nth_rewrite 1 [show l.length - c = (l.length - c - 1) + 1 from by omega]
  rw [List.take_succ, h1, getD_of_getElem? default h1]
  rfl

theorem getD_mem_of_lt {α : Type} [Inhabited α] {l : List α} {k : Nat} (h : k < l.length) :
    l.getD k default ∈ l := by
  have h1 : l[k]? = some l[k] := List.getElem?_eq_getElem h
  rw [getD_of_getElem? default h1]
  exact List.getElem_mem h

theorem anbi_char {S : Type} {g : Graph S} {seen : List Bool} {p : Id}
    (hcov : g.active ≤ g.predecessors.length)
    (hlen : seen.length = g.active) (hlive : liveAt g p = true) :
    (seenAt seen p = true ∧ ∀ (rest : List Entry) (out : List Id),
      add_node_by_id g.predecessors ⟨seen, rest, out, false⟩ p = ⟨seen, rest, out, false⟩) ∨
    (seenAt seen p = false ∧ ∀ (rest : List Entry) (out : List Id),
      add_node_by_id g.predecessors ⟨seen, rest, out, false⟩ p =
        ⟨seen.set p true, .preds p (predsD g p).length :: rest, out, false⟩) := by
  have hplt : p < g.active := lt_activeAux_of_isSome _ p hlive
  have hps : seen[p]? = some (seenAt seen p) := by
    have hlt : p < seen.length := by rw [hlen]; exact hplt
    have h1 : seen[p]? = some seen[p] := List.getElem?_eq_getElem hlt
    rw [h1]
    unfold seenAt
    rw [getD_of_getElem? false h1]
  have hpp : g.predecessors[p]? = some (predsD g p) :=
    predsD_getElem? (lt_of_lt_of_le hplt hcov)
  cases hb : seenAt seen p with
  | true =>
    rw [hb] at hps
    refine Or.inl ⟨rfl, fun rest out => ?_⟩
    unfold add_node_by_id
    simp [hps]
  | false =>
    rw [hb] at hps
    refine Or.inr ⟨rfl, fun rest out => ?_⟩
    unfold add_node_by_id
    simp [hps, hpp]

theorem are_inv {S : Type} {g : Graph S} {seen : List Bool} {r : Region}
    (hcov : g.active ≤ g.predecessors.length) (hlen : seen.length = g.active)
    (hls : liveAt g r.start = true) (hle : liveAt g r.end_ = true) :
    ∃ (F : List Entry) (seen' : List Bool),
      (∀ (rest : List Entry) (out : List Id),
        add_region_entries g.predecessors ⟨seen, rest, out, false⟩ r =
          ⟨seen', F ++ rest, out, false⟩) ∧
      seen'.length = seen.length ∧
      (∀ j, seenAt seen j = true → seenAt seen' j = true) ∧
      (∀ j, seenAt seen' j = true → seenAt seen j = true ∨ j = r.start ∨ j = r.end_) ∧
      (∀ e' ∈ F, EntryInv g seen' e') ∧
      (∀ e' ∈ F, eOwner e' = r.start ∨ eOwner e' = r.end_) ∧
      seenAt seen' r.start = true ∧ seenAt seen' r.end_ = true ∧
      (∀ j, seenAt seen' j = true → seenAt seen j = false → ∃ e' ∈ F, eOwner e' = j) := by
  have hslt : r.start < seen.length := by
    rw [hlen]; exact lt_activeAux_of_isSome _ _ hls
  have helt : r.end_ < seen.length := by
    rw [hlen]; exact lt_activeAux_of_isSome _ _ hle
  rcases anbi_char (p := r.end_) hcov hlen hle with ⟨hse, heqE⟩ | ⟨hse, heqE⟩
  · -- end marker already seen
    rcases anbi_char (p := r.start) hcov hlen hls with ⟨hss, heqS⟩ | ⟨hss, heqS⟩
    · refine ⟨[], seen, fun rest out => ?_, rfl, fun _ h => h, fun _ h => Or.inl h,
        by simp, by simp, hss, hse, fun j hj hnj => by rw [hj] at hnj; exact Bool.noConfusion hnj⟩
      unfold add_region_entries
      rw [heqE rest out, heqS rest out]
      rfl
    · refine ⟨[.preds r.start (predsD g r.start).length], seen.set r.start true,
        fun rest out => ?_, by simp, fun _ h => seenAt_set_true_mono h,
        fun j hj => (seenAt_set_true_cases hj).imp_right Or.inl, ?_, by simp [eOwner],
        seenAt_set_self hslt, seenAt_set_true_mono hse, ?_⟩
      · unfold add_region_entries
        rw [heqE rest out, heqS rest out]
        rfl
      · intro e' he'
        rw [List.mem_singleton] at he'
        subst he'
        exact EntryInv_fresh hls (seenAt_set_self hslt)
      · intro j hj hnj
        rcases seenAt_set_true_cases hj with h | h
        · rw [h] at hnj; exact Bool.noConfusion hnj
        · exact ⟨_, List.mem_singleton_self _, h.symm⟩
  · -- end marker freshly marked
    have hse' : seenAt (seen.set r.end_ true) r.end_ = true := seenAt_set_self helt
    have hlen1 : (seen.set r.end_ true).length = g.active := by simp [hlen]
    rcases anbi_char (p := r.start) hcov hlen1 hls with ⟨hss, heqS⟩ | ⟨hss, heqS⟩
    · refine ⟨[.preds r.end_ (predsD g r.end_).length], seen.set r.end_ true,
        fun rest out => ?_, by simp, fun _ h => seenAt_set_true_mono h,
        fun j hj => (seenAt_set_true_cases hj).imp_right Or.inr, ?_, by simp [eOwner],
        hss, hse', ?_⟩
      · unfold add_region_entries
        rw [heqE rest out, heqS (.preds r.end_ (predsD g r.end_).length :: rest) out]
        rfl
      · intro e' he'
        rw [List.mem_singleton] at he'
        subst he'
        exact EntryInv_fresh hle hse'
      · intro j hj hnj
        rcases seenAt_set_true_cases hj with h | h
        · rw [h] at hnj; exact Bool.noConfusion hnj
        · exact ⟨_, List.mem_singleton_self _, h.symm⟩
    · refine ⟨[.preds r.start (predsD g r.start).length,
        .preds r.end_ (predsD g r.end_).length], (seen.set r.end_ true).set r.start true,
        fun rest out => ?_, by simp, ?_, ?_, ?_, ?_,
        seenAt_set_self (by simpa using hslt), seenAt_set_true_mono hse', ?_⟩
      · unfold add_region_entries
        rw [heqE rest out, heqS (.preds r.end_ (predsD g r.end_).length :: rest) out]
        rfl
      · intro j hj
        exact seenAt_set_true_mono (seenAt_set_true_mono hj)
      · intro j hj
        rcases seenAt_set_true_cases hj with h | h
        · exact (seenAt_set_true_cases h).imp_right Or.inr
        · exact Or.inr (Or.inl h)
      · intro e' he'
        rcases List.mem_cons.mp he' with he' | he'
        · subst he'
          exact EntryInv_fresh hls (seenAt_set_self (by simpa using hslt))
        · rw [List.mem_singleton] at he'
          subst he'
          exact EntryInv_fresh hle (seenAt_set_true_mono hse')
      · intro e' he'
        rcases List.mem_cons.mp he' with he' | he'
        · subst he'; exact Or.inl rfl
        · rw [List.mem_singleton] at he'
          subst he'; exact Or.inr rfl
      · intro j hj hnj
        rcases seenAt_set_true_cases hj with h | h
        · rcases seenAt_set_true_cases h with h' | h'
          · rw [h'] at hnj; exact Bool.noConfusion hnj
          · exact ⟨.preds r.end_ (predsD g r.end_).length, by simp, h'.symm⟩
        · exact ⟨.preds r.start (predsD g r.start).length, by simp, h.symm⟩

theorem no_new_marks {P : List Entry} {seen : List Bool} (j : Nat)
    (hj : seenAt seen j = true) (hnj : seenAt seen j = false) : ∃ e' ∈ P, eOwner e' = j := by
  rw [hj] at hnj
  exact Bool.noConfusion hnj

theorem exec1_inv {S : Type} {g : Graph S} (hwfs : WFS g) (e : Entry) (seen : List Bool)
    (hlen : seen.length = g.active) (hE : EntryInv g seen e) :
    ∃ (P : List Entry) (δ : List Id) (seen' : List Bool),
      (∀ (rest : List Entry) (out : List Id),
        exec1 g e ⟨seen, rest, out, false⟩ = ⟨seen', P ++ rest, out ++ δ, false⟩) ∧
      seen'.length = seen.length ∧
      (∀ j, seenAt seen j = true → seenAt seen' j = true) ∧
      (∀ j, seenAt seen' j = true → seenAt seen j = true ∨ edgeG g (eOwner e) j) ∧
      (∀ e' ∈ P, EntryInv g seen' e') ∧
      (∀ e' ∈ P, eOwner e' = eOwner e ∨ edgeG g (eOwner e) (eOwner e')) ∧
      ((∀ b ∈ edgeTargets g (eOwner e), seenAt seen' b = true) ∨
        ∃ e' ∈ P, eOwner e' = eOwner e) ∧
      (∀ j, seenAt seen' j = true → seenAt seen j = false → ∃ e' ∈ P, eOwner e' = j) := by
  have hcov := hwfs.pred_cover
  cases e with
  | node id =>
    obtain ⟨hl, hs, htargets⟩ := hE
    exact ⟨[], [id], seen, fun rest out => rfl, rfl, fun _ h => h, fun j hj => Or.inl hj,
      fun e' he' => absurd he' (List.not_mem_nil e'),
      fun e' he' => absurd he' (List.not_mem_nil e'),
      Or.inl htargets, fun j => no_new_marks j⟩
  | preds id c =>
    cases c with
    | zero =>
      obtain ⟨hl, hs, _, hwalked⟩ := hE
      obtain ⟨n, hn⟩ : ∃ n, g.nodes.get id = some n := by
        cases hgn : g.nodes.get id with
        | none =>
          unfold liveAt at hl
          rw [hgn] at hl
          exact Bool.noConfusion hl
        | some n => exact ⟨n, rfl⟩
      have hpredsAll : ∀ l ∈ predsD g id, seenAt seen l.node = true := by
        intro l hl'
        exact hwalked l (by rw [Nat.sub_zero, List.take_length]; exact hl')
      by_cases hcomp : isCompoundAt g id = true
      · have hex : (alistGet g.regions id).isSome = true := hwfs.comp_entry id hl hcomp
        obtain ⟨rl, hrl⟩ : ∃ rl, alistGet g.regions id = some rl := by
          cases hh : alistGet g.regions id with
          | none => rw [hh] at hex; exact Bool.noConfusion hex
          | some rl => exact ⟨rl, rfl⟩
        have hrleq : regionsOfD g id = rl := by
          unfold regionsOfD
          rw [hrl]
          rfl
        obtain ⟨cc, rfl⟩ : ∃ cc, n = .compound cc := by
          unfold isCompoundAt at hcomp
          rw [hn] at hcomp
          cases n with
          | compound cc => exact ⟨cc, rfl⟩
          | simple s => exact Bool.noConfusion hcomp
          | marker m => exact Bool.noConfusion hcomp
        have hrcc : region_count_checked g id = some rl.length := by
          simp [region_count_checked, hn, Node.as_compound, hrl]
        refine ⟨[.regs id rl.length], [], seen, ?_, rfl, fun _ h => h, fun j hj => Or.inl hj,
          ?_, ?_, Or.inr ⟨.regs id rl.length, List.mem_singleton_self _, rfl⟩,
          fun j => no_new_marks j⟩
        · intro rest out
          rw [show exec1 g (.preds id 0) ⟨seen, rest, out, false⟩ =
            handle_predecessor g 0 id ⟨seen, rest, out, false⟩ from rfl,
            hp_zero_some seen rest out hrcc]
          simp
        · intro e' he'
          rw [List.mem_singleton] at he'
          subst he'
          refine ⟨hl, hs, Nat.le_of_eq (by rw [hrleq]), hpredsAll, fun _ => hcomp,
            fun _ => ?_⟩
          intro r' hr'
          rw [hrleq, Nat.sub_self, List.take_zero] at hr'
          exact absurd hr' (List.not_mem_nil r')
        · intro e' he'
          rw [List.mem_singleton] at he'
          subst he'
          exact Or.inl rfl
      · have hnc : n.as_compound = none := by
          cases n with
          | compound cc =>
            exfalso
            apply hcomp
            unfold isCompoundAt
            rw [hn]
          | simple s => rfl
          | marker m => rfl
        have hrcc : region_count_checked g id = some 0 := by
          simp [region_count_checked, hn, hnc]
        refine ⟨[.regs id 0], [], seen, ?_, rfl, fun _ h => h, fun j hj => Or.inl hj,
          ?_, ?_, Or.inr ⟨.regs id 0, List.mem_singleton_self _, rfl⟩,
          fun j => no_new_marks j⟩
        · intro rest out
          rw [show exec1 g (.preds id 0) ⟨seen, rest, out, false⟩ =
            handle_predecessor g 0 id ⟨seen, rest, out, false⟩ from rfl,
            hp_zero_some seen rest out hrcc]
          simp
        · intro e' he'
          rw [List.mem_singleton] at he'
          subst he'
          exact ⟨hl, hs, Nat.zero_le _, hpredsAll, fun h0 => absurd h0 (lt_irrefl 0),
            fun hc => absurd hc hcomp⟩
        · intro e' he'
          rw [List.mem_singleton] at he'
          subst he'
          exact Or.inl rfl
    | succ c' =>
      obtain ⟨hl, hs, hc1, hwalked⟩ := hE
      have hplt : id < g.active := lt_activeAux_of_isSome _ _ hl
      have hpp : g.predecessors[id]? = some (predsD g id) :=
        predsD_getElem? (lt_of_lt_of_le hplt hcov)
      have hclt : c' < (predsD g id).length := by omega
      have hkd : (predsD g id).length - c' - 1 < (predsD g id).length := by omega
      set p := ((predsD g id).getD ((predsD g id).length - c' - 1) default).node with hp
      have hmem : (predsD g id).getD ((predsD g id).length - c' - 1) default ∈ predsD g id :=
        getD_mem_of_lt hkd
      have hplive : liveAt g p = true := by
        rw [hp]
        exact hwfs.link_live id hl _ hmem
      have hedge : edgeG g id p := by
        rw [hp]
        exact edge_of_pred g hmem
      rcases anbi_char hcov hlen hplive with ⟨hsp, heqA⟩ | ⟨hsp, heqA⟩
      · refine ⟨[.preds id c'], [], seen, ?_, rfl, fun _ h => h, fun j hj => Or.inl hj,
          ?_, ?_, Or.inr ⟨.preds id c', List.mem_singleton_self _, rfl⟩,
          fun j => no_new_marks j⟩
        · intro rest out
          rw [show exec1 g (.preds id (c' + 1)) ⟨seen, rest, out, false⟩ =
            handle_predecessor g (c' + 1) id ⟨seen, rest, out, false⟩ from rfl,
            hp_succ_hit c' seen rest out hpp hclt, ← hp, heqA (.preds id c' :: rest) out]
          simp
        · intro e' he'
          rw [List.mem_singleton] at he'
          subst he'
          refine ⟨hl, hs, by omega, ?_⟩
          intro l hl'
          rw [take_sub_succ hclt] at hl'
          rcases List.mem_append.mp hl' with h | h
          · exact hwalked l h
          · rw [List.mem_singleton] at h
            subst h
            exact hsp
        · intro e' he'
          rw [List.mem_singleton] at he'
          subst he'
          exact Or.inl rfl
      · have hpltlen : p < seen.length := by
          rw [hlen]
          exact lt_activeAux_of_isSome _ _ hplive
        refine ⟨[.preds p (predsD g p).length, .preds id c'], [], seen.set p true, ?_,
          by simp, fun _ h => seenAt_set_true_mono h, ?_, ?_, ?_,
          Or.inr ⟨.preds id c', by simp, rfl⟩, ?_⟩
        · intro rest out
          rw [show exec1 g (.preds id (c' + 1)) ⟨seen, rest, out, false⟩ =
            handle_predecessor g (c' + 1) id ⟨seen, rest, out, false⟩ from rfl,
            hp_succ_hit c' seen rest out hpp hclt, ← hp, heqA (.preds id c' :: rest) out]
          simp
        · intro j hj
          rcases seenAt_set_true_cases hj with h | h
          · exact Or.inl h
          · subst h
            exact Or.inr hedge
        · intro e' he'
          rcases List.mem_cons.mp he' with he' | he'
          · subst he'
            exact EntryInv_fresh hplive (seenAt_set_self hpltlen)
          · rw [List.mem_singleton] at he'
            subst he'
            refine ⟨hl, seenAt_set_true_mono hs, by omega, ?_⟩
            intro l hl'
            rw [take_sub_succ hclt] at hl'
            rcases List.mem_append.mp hl' with h | h
            · exact seenAt_set_true_mono (hwalked l h)
            · rw [List.mem_singleton] at h
              subst h
              rw [← hp]
              exact seenAt_set_self hpltlen
        · intro e' he'
          rcases List.mem_cons.mp he' with he' | he'
          · subst he'
            exact Or.inr hedge
          · rw [List.mem_singleton] at he'
            subst he'
            exact Or.inl rfl
        · intro j hj hnj
          rcases seenAt_set_true_cases hj with h | h
          · rw [h] at hnj
            exact Bool.noConfusion hnj
          · subst h
            exact ⟨.preds p (predsD g p).length, by simp, rfl⟩
  | regs id c =>
    cases c with
    | zero =>
      obtain ⟨hl, hs, _, h4, _, h6⟩ := hE
      refine ⟨[.node id], [], seen, ?_, rfl, fun _ h => h, fun j hj => Or.inl hj, ?_, ?_,
        Or.inr ⟨.node id, List.mem_singleton_self _, rfl⟩, fun j => no_new_marks j⟩
      · intro rest out
        rw [show exec1 g (.regs id 0) ⟨seen, rest, out, false⟩ =
          handle_region g 0 id ⟨seen, rest, out, false⟩ from rfl, hr_zero g id seen rest out]
        simp
      · intro e' he'
        rw [List.mem_singleton] at he'
        subst he'
        refine ⟨hl, hs, ?_⟩
        intro b hb
        unfold edgeTargets at hb
        rcases List.mem_append.mp hb with h | h
        · obtain ⟨l, hl', rfl⟩ := List.mem_map.mp h
          exact h4 l hl'
        · by_cases hcomp : isCompoundAt g id = true
          · rw [if_pos hcomp] at h
            obtain ⟨r', hr', hcase⟩ := (mem_regionFold _).mp h
            have hmk := h6 hcomp r' (by rw [Nat.sub_zero, List.take_length]; exact hr')
            rcases hcase with rfl | rfl
            · exact hmk.1
            · exact hmk.2
          · rw [if_neg hcomp] at h
            exact absurd h (List.not_mem_nil b)
      · intro e' he'
        rw [List.mem_singleton] at he'
        subst he'
        exact Or.inl rfl
    | succ c' =>
      obtain ⟨hl, hs, hc1, h4, h5, h6⟩ := hE
      have hcomp : isCompoundAt g id = true := h5 (Nat.succ_pos c')
      have hex : (alistGet g.regions id).isSome = true := hwfs.comp_entry id hl hcomp
      obtain ⟨rl, hrl⟩ : ∃ rl, alistGet g.regions id = some rl := by
        cases hh : alistGet g.regions id with
        | none => rw [hh] at hex; exact Bool.noConfusion hex
        | some rl => exact ⟨rl, rfl⟩
      have hrleq : regionsOfD g id = rl := by
        unfold regionsOfD
        rw [hrl]
        rfl
      rw [hrleq] at hc1
      have hclt : c' < rl.length := by omega
      have hkd : rl.length - c' - 1 < rl.length := by omega
      set r := rl.getD (rl.length - c' - 1) default with hr
      have hmem : r ∈ rl := by
        rw [hr]
        exact getD_mem_of_lt hkd
      have hmem' : r ∈ regionsOfD g id := by
        rw [hrleq]
        exact hmem
      have hml := hwfs.marker_live id hl hcomp r hmem'
      have hedges := edge_of_marker g hcomp hmem'
      obtain ⟨F, seen', heqR, hlen', hmono, hcases, hFinv, hFown, hsS, hsE, hnew⟩ :=
        are_inv (r := r) hcov hlen hml.1 hml.2
      refine ⟨F ++ [.regs id c'], [], seen', ?_, hlen', hmono, ?_, ?_, ?_,
        Or.inr ⟨.regs id c', List.mem_append_right _ (List.mem_singleton_self _), rfl⟩, ?_⟩
      · intro rest out
        rw [show exec1 g (.regs id (c' + 1)) ⟨seen, rest, out, false⟩ =
          handle_region g (c' + 1) id ⟨seen, rest, out, false⟩ from rfl,
          hr_succ_hit c' seen rest out hrl hclt, ← hr, heqR (.regs id c' :: rest) out]
        simp
      · intro j hj
        rcases hcases j hj with h | h | h
        · exact Or.inl h
        · subst h
          exact Or.inr hedges.1
        · subst h
          exact Or.inr hedges.2
      · intro e' he'
        rcases List.mem_append.mp he' with he' | he'
        · exact hFinv e' he'
        · rw [List.mem_singleton] at he'
          subst he'
          refine ⟨hl, hmono _ hs, by rw [hrleq]; omega, fun l hl' => hmono _ (h4 l hl'),
            fun _ => hcomp, fun _ => ?_⟩
          intro r' hr'
          rw [hrleq, take_sub_succ hclt, ← hr] at hr'
          rcases List.mem_append.mp hr' with h | h
          · have hmk := h6 hcomp r' (by rw [hrleq]; exact h)
            exact ⟨hmono _ hmk.1, hmono _ hmk.2⟩
          · rw [List.mem_singleton] at h
            subst h
            exact ⟨hsS, hsE⟩
      · intro e' he'
        rcases List.mem_append.mp he' with he' | he'
        · rcases hFown e' he' with h | h
          · right
            rw [h]
            exact hedges.1
          · right
            rw [h]
            exact hedges.2
        · rw [List.mem_singleton] at he'
          subst he'
          exact Or.inl rfl
      · intro j hj hnj
        obtain ⟨e', he', ho⟩ := hnew j hj hnj
        exact ⟨e', List.mem_append_left _ he', ho⟩

theorem reach_seen_of_closed {S : Type} {g : Graph S} {X : Id → Prop}
    (hcl : ∀ id, X id → ∀ b ∈ edgeTargets g id, X b) {a j : Id}
    (hr : Reach g a j) (ha : X a) : X j := by
  induction hr with
  | refl => exact ha
  | tail hab hbc ih => exact hcl _ ih _ hbc

theorem runEnd_inv {S : Type} {g : Graph S} (hwfs : WFS g) :
    ∀ (m : Nat) (s : MState), mMeasure g s ≤ m → s.panicked = false → MInv g s →
      (runEnd g s).panicked = false ∧
      (runEnd g s).stack = [] ∧
      MInv g (runEnd g s) ∧
      (∀ j, seenAt s.seen j = true → seenAt (runEnd g s).seen j = true) ∧
      (∀ j, seenAt (runEnd g s).seen j = true →
        seenAt s.seen j = true ∨ ∃ e ∈ s.stack, Reach g (eOwner e) j) := by
  intro m
  induction m with
  | zero =>
    intro s hm hpk hinv
    have hsw : stackWeight g s.stack = 0 := by
      unfold mMeasure at hm
      omega
    have hnil : s.stack = [] := stack_nil_of_weight_zero g hsw
    rw [runEnd_terminal g s (Or.inr hnil)]
    exact ⟨hpk, hnil, hinv, fun _ h => h, fun j hj => Or.inl hj⟩
  | succ m ih =>
    intro s hm hpk hinv
    cases hst : s.stack with
    | nil =>
      rw [runEnd_terminal g s (Or.inr hst)]
      exact ⟨hpk, hst, hinv, fun _ h => h, fun j hj => Or.inl hj⟩
    | cons e rest =>
      obtain ⟨seen, stack, out, pk⟩ := s
      simp only at hst hpk hm hinv ⊢
      subst hst
      subst hpk
      obtain ⟨hlen, hstackInv, hcov⟩ := hinv
      obtain ⟨P, δ, seen', heq, hlen', hmono, hnewEdge, hPinv, hPown, hownerCov, hnewCov⟩ :=
        exec1_inv hwfs e seen hlen (hstackInv e (List.mem_cons_self e rest))
      have hstep : runEnd g ⟨seen, e :: rest, out, false⟩ =
          runEnd g ⟨seen', P ++ rest, out ++ δ, false⟩ := by
        rw [runEnd_step, heq rest out]
      have hmes : mMeasure g ⟨seen', P ++ rest, out ++ δ, false⟩ ≤ m := by
        have h1 := exec1_measure g e seen rest out
        rw [heq rest out] at h1
        omega
      have hinv' : MInv g ⟨seen', P ++ rest, out ++ δ, false⟩ := by
        refine ⟨by rw [hlen']; exact hlen, ?_, ?_⟩
        · intro e' he'
          rcases List.mem_append.mp he' with h | h
          · exact hPinv e' h
          · exact EntryInv_mono hmono e' (hstackInv e' (List.mem_cons_of_mem e h))
        · intro id hid
          by_cases hold : seenAt seen id = true
          · obtain ⟨hlive, hcc⟩ := hcov id hold
            refine ⟨hlive, ?_⟩
            rcases hcc with h | ⟨e₀, he₀, ho⟩
            · exact Or.inl (fun b hb => hmono b (h b hb))
            · rcases List.mem_cons.mp he₀ with rfl | he₀
              · rcases hownerCov with h | ⟨e', he', ho'⟩
                · exact Or.inl (by rw [← ho]; exact h)
                · exact Or.inr ⟨e', List.mem_append_left _ he', by rw [ho', ho]⟩
              · exact Or.inr ⟨e₀, List.mem_append_right _ he₀, ho⟩
          · have hidb : seenAt seen id = false := by
              cases hb : seenAt seen id
              · rfl
              · exact absurd hb hold
            have hlive : liveAt g id = true := by
              rcases hnewEdge id hid with h | h
              · exact absurd h hold
              · exact edge_live hwfs
                  (EntryInv_live e (hstackInv e (List.mem_cons_self e rest))) h
            obtain ⟨e', he', ho'⟩ := hnewCov id hid hidb
            exact ⟨hlive, Or.inr ⟨e', List.mem_append_left _ he', ho'⟩⟩
      obtain ⟨hPk, hStk, hMI, hMono2, hSound2⟩ :=
        ih ⟨seen', P ++ rest, out ++ δ, false⟩ hmes rfl hinv'
      rw [hstep]
      refine ⟨hPk, hStk, hMI, ?_, ?_⟩
      · intro j hj
        exact hMono2 j (hmono j hj)
      · intro j hj
        rcases hSound2 j hj with h | ⟨e', he', hre⟩
        · rcases hnewEdge j h with h' | h'
          · exact Or.inl h'
          · exact Or.inr ⟨e, List.mem_cons_self e rest, Relation.ReflTransGen.single h'⟩
        · rcases List.mem_append.mp he' with hP | hR
          · rcases hPown e' hP with ho | ho
            · exact Or.inr ⟨e, List.mem_cons_self e rest, by rw [← ho]; exact hre⟩
            · exact Or.inr ⟨e, List.mem_cons_self e rest, Relation.ReflTransGen.head ho hre⟩
          · exact Or.inr ⟨e', List.mem_cons_of_mem e hR, hre⟩

theorem seenAt_replicate_false (n j : Nat) : seenAt (List.replicate n false) j = false := by
  unfold seenAt
  rw [getD_eq_getElem?, List.getElem?_replicate]
  split <;> rfl

theorem roots_fold_facts {S : Type} {g : Graph S} (hcov : g.active ≤ g.predecessors.length) :
    ∀ (roots : List Id) (s : MState), s.panicked = false → s.seen.length = g.active →
      (∀ rt ∈ roots, liveAt g rt = true) →
      ∃ (F : List Entry) (seen' : List Bool),
        roots.foldl (add_node_by_id g.predecessors) s = ⟨seen', F ++ s.stack, s.out, false⟩ ∧
        seen'.length = g.active ∧
        (∀ j, seenAt seen' j = true ↔ seenAt s.seen j = true ∨ j ∈ roots) ∧
        (∀ e ∈ F, ∃ rt ∈ roots, e = .preds rt (predsD g rt).length) ∧
        (∀ rt ∈ roots, seenAt s.seen rt = true ∨
          (Entry.preds rt (predsD g rt).length) ∈ F) := by
  intro roots
  induction roots with
  | nil =>
    intro s hpk hlen _
    obtain ⟨seen, stack, out, pk⟩ := s
    simp only at hpk hlen
    subst hpk
    exact ⟨[], seen, rfl, hlen, fun j => by simp, by simp, by simp⟩
  | cons rt roots ihr =>
    intro s hpk hlen hlive
    obtain ⟨seen, stack, out, pk⟩ := s
    simp only at hpk hlen
    subst hpk
    have hrt := hlive rt (List.mem_cons_self rt roots)
    have hrest : ∀ r ∈ roots, liveAt g r = true :=
      fun r hr => hlive r (List.mem_cons_of_mem rt hr)
    rcases anbi_char hcov hlen hrt with ⟨hsr, heqA⟩ | ⟨hsr, heqA⟩
    · obtain ⟨F, seen', hf, hl', hiff, hframes, hcover⟩ :=
        ihr ⟨seen, stack, out, false⟩ rfl hlen hrest
      refine ⟨F, seen', ?_, hl', ?_, ?_, ?_⟩
      · rw [List.foldl_cons, heqA stack out]
        exact hf
      · intro j
        rw [hiff j]
        simp only [List.mem_cons]
        constructor
        · rintro (h | h)
          · exact Or.inl h
          · exact Or.inr (Or.inr h)
        · rintro (h | rfl | h)
          · exact Or.inl h
          · exact Or.inl hsr
          · exact Or.inr h
      · intro e he
        obtain ⟨r', hr', he'⟩ := hframes e he
        exact ⟨r', List.mem_cons_of_mem rt hr', he'⟩
      · intro r' hr'
        rcases List.mem_cons.mp hr' with rfl | hr'
        · exact Or.inl hsr
        · exact hcover r' hr'
    · have hlen1 : (seen.set rt true).length = g.active := by simp [hlen]
      obtain ⟨F, seen', hf, hl', hiff, hframes, hcover⟩ :=
        ihr ⟨seen.set rt true, .preds rt (predsD g rt).length :: stack, out, false⟩ rfl
          hlen1 hrest
      refine ⟨F ++ [.preds rt (predsD g rt).length], seen', ?_, hl', ?_, ?_, ?_⟩
      · rw [List.foldl_cons, heqA stack out, hf]
        simp [List.append_assoc]
      · intro j
        rw [hiff j]
        constructor
        · rintro (h | h)
          · rcases seenAt_set_true_cases h with h' | h'
            · exact Or.inl h'
            · exact Or.inr (by rw [h']; exact List.mem_cons_self rt roots)
          · exact Or.inr (List.mem_cons_of_mem rt h)
        · rintro (h | h)
          · exact Or.inl (seenAt_set_true_mono h)
          · rcases List.mem_cons.mp h with rfl | h'
            · exact Or.inl (seenAt_set_self
                (by rw [hlen]; exact lt_activeAux_of_isSome _ _ hrt))
            · exact Or.inr h'
      · intro e he
        rcases List.mem_append.mp he with he | he
        · obtain ⟨r', hr', he'⟩ := hframes e he
          exact ⟨r', List.mem_cons_of_mem rt hr', he'⟩
        · rw [List.mem_singleton] at he
          exact ⟨rt, List.mem_cons_self rt roots, he⟩
      · intro r' hr'
        rcases List.mem_cons.mp hr' with rfl | hr'
        · exact Or.inr (List.mem_append_right _ (List.mem_singleton_self _))
        · rcases hcover r' hr' with h | h
          · rcases seenAt_set_true_cases h with h' | h'
            · exact Or.inl h'
            · subst h'
              exact Or.inr (List.mem_append_right _ (List.mem_singleton_self _))
          · exact Or.inr (List.mem_append_left _ h)

theorem set_up_roots_facts {S : Type} {g : Graph S} (hcov : g.active ≤ g.predecessors.length)
    (roots : List Id) (hroots : ∀ rt ∈ roots, liveAt g rt = true) :
    ∃ (seen₀ : List Bool) (stack₀ : List Entry),
      set_up_roots g roots = ⟨seen₀, stack₀, [], false⟩ ∧
      seen₀.length = g.active ∧
      (∀ j, seenAt seen₀ j = true ↔ j ∈ roots) ∧
      (∀ e ∈ stack₀, ∃ rt ∈ roots, e = .preds rt (predsD g rt).length) ∧
      (∀ rt ∈ roots, (Entry.preds rt (predsD g rt).length) ∈ stack₀) := by
  obtain ⟨F, seen', hf, hl', hiff, hframes, hcover⟩ :=
    roots_fold_facts hcov roots ⟨List.replicate g.active false, [], [], false⟩ rfl
      (by simp) hroots
  refine ⟨seen', F.reverse, ?_, hl', ?_, ?_, ?_⟩
  · unfold set_up_roots
    dsimp only
    rw [hf]
    simp
  · intro j
    rw [hiff j]
    simp [seenAt_replicate_false]
  · intro e he
    rw [List.mem_reverse] at he
    exact hframes e he
  · intro rt hrt
    rw [List.mem_reverse]
    rcases hcover rt hrt with h | h
    · rw [seenAt_replicate_false] at h
      exact Bool.noConfusion h
    · exact h

theorem run_facts {S : Type} {g : Graph S} (hwfs : WFS g) (roots : List Id)
    (hroots : ∀ rt ∈ roots, liveAt g rt = true) :
    (ReverseTopological.run g roots).panicked = false ∧
    (ReverseTopological.run g roots).stack = [] ∧
    (∀ j, seenAt (ReverseTopological.run g roots).seen j = true ↔
      ∃ rt ∈ roots, Reach g rt j) ∧
    (∀ j, seenAt (ReverseTopological.run g roots).seen j = true → liveAt g j = true) := by
  obtain ⟨seen₀, stack₀, hsu, hl0, hiff0, hframes0, hcover0⟩ :=
    set_up_roots_facts hwfs.pred_cover roots hroots
  have hinv0 : MInv g ⟨seen₀, stack₀, [], false⟩ := by
    refine ⟨hl0, ?_, ?_⟩
    · intro e he
      obtain ⟨rt, hrt, rfl⟩ := hframes0 e he
      exact EntryInv_fresh (hroots rt hrt) ((hiff0 rt).mpr hrt)
    · intro id hid
      have hidr : id ∈ roots := (hiff0 id).mp hid
      exact ⟨hroots id hidr, Or.inr ⟨.preds id (predsD g id).length, hcover0 id hidr, rfl⟩⟩
  obtain ⟨hPk, hStk, hMI, hMono, hSound⟩ :=
    runEnd_inv hwfs (mMeasure g ⟨seen₀, stack₀, [], false⟩) ⟨seen₀, stack₀, [], false⟩
      (le_refl _) rfl hinv0
  have hrun : ReverseTopological.run g roots = runEnd g ⟨seen₀, stack₀, [], false⟩ := by
    unfold ReverseTopological.run
    rw [hsu]
  rw [hrun]
  obtain ⟨hlenF, hstackF, hcovF⟩ := hMI
  refine ⟨hPk, hStk, ?_, fun j hj => (hcovF j hj).1⟩
  intro j
  constructor
  · intro hj
    rcases hSound j hj with h | ⟨e, he, hre⟩
    · exact ⟨j, (hiff0 j).mp h, Relation.ReflTransGen.refl⟩
    · obtain ⟨rt, hrt, rfl⟩ := hframes0 e he
      exact ⟨rt, hrt, hre⟩
  · rintro ⟨rt, hrt, hre⟩
    have hstart : seenAt (runEnd g ⟨seen₀, stack₀, [], false⟩).seen rt = true :=
      hMono rt ((hiff0 rt).mpr hrt)
    have hclosed : ∀ id, seenAt (runEnd g ⟨seen₀, stack₀, [], false⟩).seen id = true →
        ∀ b ∈ edgeTargets g id, seenAt (runEnd g ⟨seen₀, stack₀, [], false⟩).seen b = true := by
      intro id hid
      rcases (hcovF id hid).2 with h | ⟨e, he, _⟩
      · exact h
      · rw [hStk] at he
        exact absurd he (List.not_mem_nil e)
    exact reach_seen_of_closed hclosed hre hstart

/-! ### Sweep-level lemmas -/

theorem retain_get {α : Type} (a : Arena α) (p : Nat → Bool) (i : Nat) :
    (a.retain p).get i = if p i = true then a.get i else none := by
  unfold Arena.retain Arena.get
  dsimp only
  rw [getD_eq_getElem?, getD_eq_getElem?, List.getElem?_mapIdx]
  cases h : a.slots[i]? <;> cases hp : p i <;> simp [h, hp]

theorem alistGet_filter_key {β : Type} (p : Id → Bool) :
    ∀ (l : List (Id × β)) (k : Id),
      alistGet (l.filter fun kv => p kv.1) k = if p k = true then alistGet l k else none
  | [], k => by cases hp : p k <;> simp [alistGet, hp]
  | (k', v) :: rest, k => by
    rcases eq_or_ne k' k with rfl | hk
    · cases hp : p k' with
      | true => simp [List.filter_cons, hp, alistGet]
      | false => simp [List.filter_cons, hp, alistGet, alistGet_filter_key p rest k']
    · cases hp : p k' with
      | true => simp [List.filter_cons, hp, alistGet, hk, alistGet_filter_key p rest k]
      | false => simp [List.filter_cons, hp, alistGet, hk, alistGet_filter_key p rest k]

theorem retain_idem {α : Type} (a : Arena α) (p : Nat → Bool) :
    (a.retain p).retain p = a.retain p := by
  unfold Arena.retain
  congr 1
  apply List.ext_getElem?
  intro i
  rw [List.getElem?_mapIdx, List.getElem?_mapIdx]
  cases h : a.slots[i]? <;> cases hp : p i <;> simp [hp]

theorem filter_idem {α : Type} (f : α → Bool) :
    ∀ l : List α, (l.filter f).filter f = l.filter f
  | [] => rfl
  | x :: rest => by
    cases hx : f x <;> simp [List.filter_cons, hx, filter_idem f rest]

theorem graph_ext {S : Type} {g1 g2 : Graph S} (hn : g1.nodes = g2.nodes)
    (hr : g1.regions = g2.regions) (hp : g1.predecessors = g2.predecessors) : g1 = g2 := by
  cases g1
  cases g2
  simp_all

theorem activeAux_le_of_pointwise {α β : Type} (l' : List (Option α)) (l : List (Option β))
    (h : ∀ i, (l'.getD i none).isSome = true → (l.getD i none).isSome = true) :
    activeAux l' ≤ activeAux l := by
  rcases activeAux_last l' with h0 | hlast
  · omega
  · have := lt_activeAux_of_isSome l _ (h _ hlast)
    omega

theorem wfs_of_check {S : Type} {g : Graph S} (h : wfsCheck g = true) : WFS g := by
  unfold wfsCheck at h
  rw [Bool.and_eq_true, List.all_eq_true] at h
  obtain ⟨h1, h2⟩ := h
  have key : ∀ id : Id, liveAt g id = true →
      (((predsD g id).all fun l => liveAt g l.node) = true ∧
       (!(isCompoundAt g id) ||
         ((alistGet g.regions id).isSome &&
          ((regionsOfD g id).all fun r => liveAt g r.start && liveAt g r.end_))) = true) := by
    intro id hlv
    have hlt : id < g.nodes.slots.length := by
      unfold liveAt Arena.get at hlv
      cases hx : g.nodes.slots.getD id none with
      | none => rw [hx] at hlv; exact Bool.noConfusion hlv
      | some x => exact lt_length_of_getD_some hx
    have hb := h2 id (List.mem_range.mpr hlt)
    rw [hlv] at hb
    simp only [Bool.not_true, Bool.false_or, Bool.and_eq_true] at hb
    exact hb
  refine ⟨of_decide_eq_true h1, ?_, ?_, ?_⟩
  · intro id hlv l hl'
    have h3 := (key id hlv).1
    rw [List.all_eq_true] at h3
    exact h3 l hl'
  · intro id hlv hc
    have h3 := (key id hlv).2
    rw [hc] at h3
    simp only [Bool.not_true, Bool.false_or, Bool.and_eq_true] at h3
    exact h3.1
  · intro id hlv hc r hr
    have h3 := (key id hlv).2
    rw [hc] at h3
    simp only [Bool.not_true, Bool.false_or, Bool.and_eq_true] at h3
    have h4 := h3.2
    rw [List.all_eq_true] at h4
    have h5 := h4 r hr
    rw [Bool.and_eq_true] at h5
    exact h5

theorem reach_congr {S T : Type} {g1 : Graph S} {g2 : Graph T} {X : Id → Prop}
    (hX : ∀ i, X i → edgeTargets g1 i = edgeTargets g2 i)
    (hcl : ∀ i, X i → ∀ b ∈ edgeTargets g1 i, X b) {a j : Id} (ha : X a)
    (hr : Reach g1 a j) : Reach g2 a j := by
  induction hr with
  | refl => exact Relation.ReflTransGen.refl
  | @tail b c hab hbc ih =>
    have hXb : X b := reach_seen_of_closed hcl hab ha
    refine ih.tail ?_
    have hb : c ∈ edgeTargets g1 b := hbc
    rw [hX b hXb] at hb
    exact hb

/-- **C4.** After the mark-and-sweep pass runs on a structurally
well-formed graph from a set of live roots, a node is live in the swept
store if and only if the traversal saw it, that is, iff it is reachable
from one of the roots via predecessor links and region containment; and
the region map retains exactly the entries whose compound key was seen. -/
theorem claim_C4 {S : Type} (g : Graph S) (roots : List Id) (hwfs : WFS g)
    (hroots : ∀ rt ∈ roots, liveAt g rt = true) :
    (∀ id, liveAt (sweep g roots) id = true ↔ ∃ rt ∈ roots, Reach g rt id) ∧
    (∀ id, (∃ rt ∈ roots, Reach g rt id) →
      alistGet (sweep g roots).regions id = alistGet g.regions id) ∧
    (∀ id, ¬ (∃ rt ∈ roots, Reach g rt id) →
      alistGet (sweep g roots).regions id = none) := by
  obtain ⟨hPk, hStk, hiff, hlive⟩ := run_facts hwfs roots hroots
  have hnodes : (sweep g roots).nodes =
      g.nodes.retain fun i => seenAt (ReverseTopological.run g roots).seen i := rfl
  have hregs : (sweep g roots).regions =
      g.regions.filter fun kv => seenAt (ReverseTopological.run g roots).seen kv.1 := rfl
  refine ⟨?_, ?_, ?_⟩
  · intro id
    constructor
    · intro hid
      unfold liveAt at hid
      rw [hnodes] at hid
      simp only [retain_get] at hid
      by_cases hseen : seenAt (ReverseTopological.run g roots).seen id = true
      · exact (hiff id).mp hseen
      · rw [if_neg hseen] at hid
        exact Bool.noConfusion hid
    · intro hre
      have hseen := (hiff id).mpr hre
      unfold liveAt
      rw [hnodes]
      simp only [retain_get]
      rw [if_pos hseen]
      exact hlive id hseen
  · intro id hre
    rw [hregs]
    simp only [alistGet_filter_key]
    rw [if_pos ((hiff id).mpr hre)]
  · intro id hre
    rw [hregs]
    simp only [alistGet_filter_key]
    rw [if_neg (fun hseen => hre ((hiff id).mp hseen))]

/-- Witness for C4: the three-node chain swept from root `2` keeps exactly
the reachable chain. -/
theorem claim_C4_witness :
    (wfsCheck gChain = true ∧ ∀ rt ∈ [2], liveAt gChain rt = true) ∧
    ((∀ id, liveAt (sweep gChain [2]) id = true ↔ ∃ rt ∈ [2], Reach gChain rt id) ∧
     (∀ id, (∃ rt ∈ [2], Reach gChain rt id) →
       alistGet (sweep gChain [2]).regions id = alistGet gChain.regions id) ∧
     (∀ id, ¬ (∃ rt ∈ [2], Reach gChain rt id) →
       alistGet (sweep gChain [2]).regions id = none)) :=
  ⟨⟨by decide, by decide⟩, claim_C4 gChain [2] (wfs_of_check (by decide)) (by decide)⟩

/-- **C7.** Mark-and-sweep is idempotent on structurally well-formed graphs
with live roots: sweeping twice from the same roots is the same graph as
sweeping once (nodes, region map, and predecessor table all agree). -/
theorem claim_C7 {S : Type} (g : Graph S) (roots : List Id) (hwfs : WFS g)
    (hroots : ∀ rt ∈ roots, liveAt g rt = true) :
    sweep (sweep g roots) roots = sweep g roots := by
  obtain ⟨hPk, hStk, hiff, hlive⟩ := run_facts hwfs roots hroots
  set g' := sweep g roots with hg'
  have hpredeq : g'.predecessors = g.predecessors := rfl
  have hget : ∀ i, g'.nodes.get i =
      if seenAt (ReverseTopological.run g roots).seen i = true then g.nodes.get i
      else none := by
    intro i
    rw [hg']
    exact retain_get g.nodes _ i
  have hlive' : ∀ i, liveAt g' i = true ↔
      seenAt (ReverseTopological.run g roots).seen i = true := by
    intro i
    unfold liveAt
    rw [hget i]
    constructor
    · intro h
      by_cases hs : seenAt (ReverseTopological.run g roots).seen i = true
      · exact hs
      · rw [if_neg hs] at h
        exact Bool.noConfusion h
    · intro hs
      rw [if_pos hs]
      exact hlive i hs
  have halist : ∀ i, alistGet g'.regions i =
      if seenAt (ReverseTopological.run g roots).seen i = true then alistGet g.regions i
      else none := by
    intro i
    rw [hg']
    exact alistGet_filter_key _ _ i
  have hcomp' : ∀ i, seenAt (ReverseTopological.run g roots).seen i = true →
      isCompoundAt g' i = isCompoundAt g i := by
    intro i hs
    unfold isCompoundAt
    rw [hget i, if_pos hs]
  have hregD : ∀ i, seenAt (ReverseTopological.run g roots).seen i = true →
      regionsOfD g' i = regionsOfD g i := by
    intro i hs
    unfold regionsOfD
    rw [halist i, if_pos hs]
  have hpredsD : ∀ i, predsD g' i = predsD g i := fun i => rfl
  have hclosure : ∀ i, seenAt (ReverseTopological.run g roots).seen i = true →
      ∀ b ∈ edgeTargets g i, seenAt (ReverseTopological.run g roots).seen b = true := by
    intro i hs b hb
    obtain ⟨rt, hrt, hre⟩ := (hiff i).mp hs
    exact (hiff b).mpr ⟨rt, hrt, hre.tail hb⟩
  have hedgeEq : ∀ i, seenAt (ReverseTopological.run g roots).seen i = true →
      edgeTargets g' i = edgeTargets g i := by
    intro i hs
    unfold edgeTargets
    rw [hpredsD i, hcomp' i hs]
    by_cases hc : isCompoundAt g i = true
    · rw [if_pos hc, if_pos hc, hregD i hs]
    · rw [if_neg hc, if_neg hc]
  have hclosure' : ∀ i, seenAt (ReverseTopological.run g roots).seen i = true →
      ∀ b ∈ edgeTargets g' i, seenAt (ReverseTopological.run g roots).seen b = true := by
    intro i hi b hb
    rw [hedgeEq i hi] at hb
    exact hclosure i hi b hb
  have hwfs' : WFS g' := by
    refine ⟨?_, ?_, ?_, ?_⟩
    · have h1 : g'.active ≤ g.active := by
        unfold Graph.active
        apply activeAux_le_of_pointwise
        intro i hi
        exact hlive i ((hlive' i).mp hi)
      rw [hpredeq]
      exact le_trans h1 hwfs.pred_cover
    · intro i hi l hl'
      have hsi := (hlive' i).mp hi
      rw [hpredsD i] at hl'
      exact (hlive' l.node).mpr (hclosure i hsi l.node (edge_of_pred g hl'))
    · intro i hi hc
      have hsi := (hlive' i).mp hi
      rw [hcomp' i hsi] at hc
      rw [halist i, if_pos hsi]
      exact hwfs.comp_entry i (hlive i hsi) hc
    · intro i hi hc r hr
      have hsi := (hlive' i).mp hi
      rw [hcomp' i hsi] at hc
      rw [hregD i hsi] at hr
      have hedges := edge_of_marker g hc hr
      exact ⟨(hlive' r.start).mpr (hclosure i hsi r.start hedges.1),
        (hlive' r.end_).mpr (hclosure i hsi r.end_ hedges.2)⟩
  have hroots' : ∀ rt ∈ roots, liveAt g' rt = true := by
    intro rt hrt
    exact (hlive' rt).mpr ((hiff rt).mpr ⟨rt, hrt, Relation.ReflTransGen.refl⟩)
  obtain ⟨hPk2, hStk2, hiff2, hlive2⟩ := run_facts hwfs' roots hroots'
  have hseeneq : ∀ j, seenAt (ReverseTopological.run g' roots).seen j =
      seenAt (ReverseTopological.run g roots).seen j := by
    intro j
    have hiffj : seenAt (ReverseTopological.run g' roots).seen j = true ↔
        seenAt (ReverseTopological.run g roots).seen j = true := by
      rw [hiff2 j, hiff j]
      constructor
      · rintro ⟨rt, hrt, hre⟩
        refine ⟨rt, hrt, ?_⟩
        have hXrt : seenAt (ReverseTopological.run g roots).seen rt = true :=
          (hiff rt).mpr ⟨rt, hrt, Relation.ReflTransGen.refl⟩
        exact reach_congr hedgeEq hclosure' hXrt hre
      · rintro ⟨rt, hrt, hre⟩
        refine ⟨rt, hrt, ?_⟩
        have hXrt : seenAt (ReverseTopological.run g roots).seen rt = true :=
          (hiff rt).mpr ⟨rt, hrt, Relation.ReflTransGen.refl⟩
        exact reach_congr (fun i hi => (hedgeEq i hi).symm) hclosure hXrt hre
    cases h1 : seenAt (ReverseTopological.run g' roots).seen j with
    | true => exact (hiffj.mp h1).symm
    | false =>
      cases h2 : seenAt (ReverseTopological.run g roots).seen j with
      | true =>
        rw [hiffj.mpr h2] at h1
        exact Bool.noConfusion h1
      | false => rfl
  have hfun2 : (fun kv : Id × List Region =>
      seenAt (ReverseTopological.run g' roots).seen kv.1) =
      (fun kv => seenAt (ReverseTopological.run g roots).seen kv.1) :=
    funext fun kv => hseeneq kv.1
  have hfun : (fun i => seenAt (ReverseTopological.run g' roots).seen i) =
      (fun i => seenAt (ReverseTopological.run g roots).seen i) := funext hseeneq
  apply graph_ext
  · show g'.nodes.retain (fun i => seenAt (ReverseTopological.run g' roots).seen i) =
      g'.nodes
    rw [hfun, hg']
    show ((g.nodes.retain fun i => seenAt (ReverseTopological.run g roots).seen i).retain
      fun i => seenAt (ReverseTopological.run g roots).seen i) =
      g.nodes.retain fun i => seenAt (ReverseTopological.run g roots).seen i
    exact retain_idem _ _
  · show (g'.regions.filter fun kv =>
      seenAt (ReverseTopological.run g' roots).seen kv.1) = g'.regions
    rw [hfun2, hg']
    show ((g.regions.filter fun kv =>
      seenAt (ReverseTopological.run g roots).seen kv.1).filter fun kv =>
      seenAt (ReverseTopological.run g roots).seen kv.1) =
      g.regions.filter fun kv => seenAt (ReverseTopological.run g roots).seen kv.1
    exact filter_idem _ _
  · rfl

/-- Witness for C7 at the three-node chain with root `2`. -/
theorem claim_C7_witness :
    (wfsCheck gChain = true ∧ ∀ rt ∈ [2], liveAt gChain rt = true) ∧
    sweep (sweep gChain [2]) [2] = sweep gChain [2] :=
  ⟨⟨by decide, by decide⟩, claim_C7 gChain [2] (wfs_of_check (by decide)) (by decide)⟩

/-! ### Ordering metatheory for the traversal -/

theorem mem_getElem? {α : Type} {l : List α} {a : α} (h : a ∈ l) :
    ∃ i, i < l.length ∧ l[i]? = some a := by
  obtain ⟨i, hi, rfl⟩ := List.getElem_of_mem h
  exact ⟨i, hi, List.getElem?_eq_getElem hi⟩

theorem emitsBefore_mono {out δ : List Id} {b a : Id} (h : emitsBefore out b a) :
    emitsBefore (out ++ δ) b a := by
  obtain ⟨i, hi, j, hj, hb, ha⟩ := h
  refine ⟨i, by simp; omega, j, hj, ?_, ?_⟩
  · rw [List.getElem?_append_left (by omega)]
    exact hb
  · rw [List.getElem?_append_left hi]
    exact ha

theorem emitsBefore_append {out δ : List Id} {b a : Id} (hb : b ∈ out) (ha : a ∈ δ) :
    emitsBefore (out ++ δ) b a := by
  obtain ⟨j, hj, hbj⟩ := mem_getElem? hb
  obtain ⟨k, hk, hak⟩ := mem_getElem? ha
  refine ⟨out.length + k, by simp; omega, j, by omega, ?_, ?_⟩
  · rw [List.getElem?_append_left (by omega)]
    exact hbj
  · rw [List.getElem?_append_right (by omega)]
    simpa using hak

theorem OutOrd_snoc {S : Type} {g : Graph S} {out : List Id} {id : Id} (h : OutOrd g out)
    (htargets : ∀ b ∈ edgeTargets g id, b ∈ out) : OutOrd g (out ++ [id]) := by
  intro i a ha b hb
  by_cases hlt : i < out.length
  · rw [List.getElem?_append_left hlt] at ha
    obtain ⟨j, hj, hbj⟩ := h i a ha b hb
    exact ⟨j, hj, by rw [List.getElem?_append_left (by omega)]; exact hbj⟩
  · have hi : i = out.length := by
      by_contra hne
      rw [List.getElem?_append_right (by omega)] at ha
      rw [List.getElem?_eq_none (by simp; omega)] at ha
      exact Option.noConfusion ha
    subst hi
    rw [getElem?_append_length] at ha
    obtain rfl : a = id := (Option.some.inj ha).symm
    obtain ⟨j, hj, hbj⟩ := mem_getElem? (htargets b hb)
    exact ⟨j, by omega, by rw [List.getElem?_append_left (by omega)]; exact hbj⟩

theorem nodup_snoc {α : Type} {l : List α} {a : α} (h : l.Nodup) (ha : a ∉ l) :
    (l ++ [a]).Nodup := by
  rw [List.nodup_append]
  refine ⟨h, List.nodup_singleton a, fun x hx hxa => ?_⟩
  rw [List.mem_singleton] at hxa
  subst hxa
  exact ha hx

theorem unseenCount_le_of_mono :
    ∀ (s' s : List Bool), s'.length = s.length →
      (∀ j, seenAt s j = true → seenAt s' j = true) → unseenCount s' ≤ unseenCount s
  | [], [], _, _ => le_refl _
  | [], _ :: _, hl, _ => by simp at hl
  | _ :: _, [], hl, _ => by simp at hl
  | a' :: tl', a :: tl, hl, hm => by
    have hlt : tl'.length = tl.length := by simpa using hl
    have hmt : ∀ j, seenAt tl j = true → seenAt tl' j = true := fun j h => hm (j + 1) h
    have ih := unseenCount_le_of_mono tl' tl hlt hmt
    unfold unseenCount at ih ⊢
    rw [List.count_cons, List.count_cons]
    cases a with
    | true =>
      have ha' : a' = true := hm 0 rfl
      subst ha'
      simpa using ih
    | false =>
      cases a' <;> simp <;> omega

theorem not_end_of_start {S : Type} {g : Graph S} {i : Id} (h : markerStartAt g i = true) :
    markerEndAt g i = false := by
  unfold markerStartAt at h
  unfold markerEndAt
  cases hg : g.nodes.get i with
  | none => rfl
  | some n =>
    cases n with
    | simple s => rfl
    | compound c => rfl
    | marker m =>
      cases m with
      | start => rfl
      | end_ =>
        rw [hg] at h
        exact Bool.noConfusion h

theorem not_compound_of_start {S : Type} {g : Graph S} {i : Id}
    (h : markerStartAt g i = true) : isCompoundAt g i = false := by
  unfold markerStartAt at h
  unfold isCompoundAt
  cases hg : g.nodes.get i with
  | none => rfl
  | some n =>
    cases n with
    | simple s => rfl
    | marker m => rfl
    | compound c =>
      rw [hg] at h
      exact Bool.noConfusion h

theorem not_compound_of_end {S : Type} {g : Graph S} {i : Id}
    (h : markerEndAt g i = true) : isCompoundAt g i = false := by
  unfold markerEndAt at h
  unfold isCompoundAt
  cases hg : g.nodes.get i with
  | none => rfl
  | some n =>
    cases n with
    | simple s => rfl
    | marker m => rfl
    | compound c =>
      rw [hg] at h
      exact Bool.noConfusion h

theorem live_of_compound {S : Type} {g : Graph S} {i : Id} (h : isCompoundAt g i = true) :
    liveAt g i = true := by
  unfold isCompoundAt at h
  unfold liveAt
  cases hg : g.nodes.get i with
  | none => rw [hg] at h; exact Bool.noConfusion h
  | some n => rfl

theorem live_of_reach {S : Type} {g : Graph S} (hwfs : WFS g) {a b : Id}
    (ha : liveAt g a = true) (h : Reach g a b) : liveAt g b = true := by
  induction h with
  | refl => exact ha
  | tail hab hbc ih => exact edge_live hwfs ih hbc

theorem edgeTargets_start {S : Type} {g : Graph S} (hwfo : WFO g) {c : Id} {r : Region}
    (hlc : liveAt g c = true) (hcc : isCompoundAt g c = true) (hr : r ∈ regionsOfD g c) :
    edgeTargets g r.start = [] := by
  have hk := not_compound_of_start (hwfo.start_kind c hlc hcc r hr)
  unfold edgeTargets
  rw [hwfo.start_no_preds c hlc hcc r hr, if_neg (by simp [hk])]
  rfl

theorem reach_of_empty_targets {S : Type} {g : Graph S} {a b : Id}
    (h : edgeTargets g a = []) (hr : Reach g a b) : b = a := by
  rcases Relation.ReflTransGen.cases_head hr with heq | ⟨c, hac, _⟩
  · exact heq.symm
  · have hac' : c ∈ edgeTargets g a := hac
    rw [h] at hac'
    exact absurd hac' (List.not_mem_nil c)

theorem end_edge_unique {S : Type} {g : Graph S} (hwfo : WFO g)
    {c : Id} {r : Region} (hlc : liveAt g c = true) (hcc : isCompoundAt g c = true)
    (hr : r ∈ regionsOfD g c) {a : Id} (hla : liveAt g a = true)
    (hab : edgeG g a r.end_) : a = c := by
  have hendk : markerEndAt g r.end_ = true := hwfo.end_kind c hlc hcc r hr
  have hab' : r.end_ ∈ edgeTargets g a := hab
  unfold edgeTargets at hab'
  rcases List.mem_append.mp hab' with h | h
  · obtain ⟨l, hl, hleq⟩ := List.mem_map.mp h
    have hne := hwfo.no_end_links a hla l hl
    rw [hleq, hendk] at hne
    exact Bool.noConfusion hne
  · by_cases hca : isCompoundAt g a = true
    · rw [if_pos hca] at h
      obtain ⟨r', hr', hcase⟩ := (mem_regionFold _).mp h
      rcases hcase with he | he
      · have hstart := hwfo.start_kind a hla hca r' hr'
        rw [← he] at hstart
        rw [not_end_of_start hstart] at hendk
        exact Bool.noConfusion hendk
      · exact (hwfo.end_unique a c hla hca hlc hcc r' hr' r hr he.symm).1
    · rw [if_neg hca] at h
      exact absurd h (List.not_mem_nil _)

theorem EntryInvO_mono {S : Type} {g : Graph S} {out δ : List Id} :
    ∀ e : Entry, EntryInvO g out e → EntryInvO g (out ++ δ) e := by
  intro e h
  cases e with
  | preds id c => exact fun l hl => List.mem_append_left _ (h l hl)
  | regs id c =>
    obtain ⟨h1, h2⟩ := h
    exact ⟨fun l hl => List.mem_append_left _ (h1 l hl),
      fun hc r hr => ⟨List.mem_append_left _ ((h2 hc r hr).1),
        List.mem_append_left _ ((h2 hc r hr).2)⟩⟩
  | node id => exact fun b hb => List.mem_append_left _ (h b hb)

theorem EndOb_mono {S : Type} {g : Graph S} {seen seen' : List Bool} {out δ : List Id}
    {id : Id} (hm : ∀ j, seenAt seen j = true → seenAt seen' j = true)
    (h : EndOb g seen out id) : EndOb g seen' (out ++ δ) id := by
  intro hk c r hc hr he
  obtain ⟨h1, h2⟩ := h hk c r hc hr he
  exact ⟨hm _ h1, List.mem_append_left _ h2⟩

theorem piece_ord {S : Type} {g : Graph S} (hwfs : WFS g) (hwfo : WFO g) (hacy : Acyclic g) :
    ∀ (m : Nat) (seen : List Bool) (e : Entry) (out GD : List Id),
      mMeasure g ⟨seen, [e], out, false⟩ ≤ m →
      seen.length = g.active →
      EntryInv g seen e →
      EntryInvO g out e →
      EndOb g seen out (eOwner e) →
      (∀ j, seenAt seen j = true ↔ j ∈ out ∨ j ∈ GD) →
      (∀ j ∈ out, j ∉ GD) →
      out.Nodup →
      OutOrd g out →
      (∀ p ∈ GD, ∀ a, Reach g (eOwner e) a → ¬ edgeG g a p) →
      eOwner e ∈ GD →
      EndOwner g seen out →
      EndSE g seen out →
      ∃ (out' : List Id) (seen' : List Bool),
        runEnd g ⟨seen, [e], out, false⟩ = ⟨seen', [], out', false⟩ ∧
        (∃ δ₀, out' = out ++ δ₀ ++ [eOwner e]) ∧
        seen'.length = seen.length ∧
        (∀ j, seenAt seen j = true → seenAt seen' j = true) ∧
        (∀ j, seenAt seen' j = true ↔ j ∈ out' ∨ (j ∈ GD ∧ j ≠ eOwner e)) ∧
        (∀ j ∈ out', j ∈ GD → j = eOwner e) ∧
        out'.Nodup ∧
        OutOrd g out' ∧
        EndOwner g seen' out' ∧
        EndSE g seen' out' := by
  intro m
  induction m with
  | zero =>
    intro seen e out GD hm _ _ _ _ _ _ _ _ _ _ _ _
    exfalso
    have h1 : mMeasure g ⟨seen, [e], out, false⟩ =
        bigW g * unseenCount seen + stackWeight g [e] := rfl
    have h2 : stackWeight g [e] = entryWeight g e + 0 := rfl
    have h3 := entryWeight_pos g e
    omega
  | succ m ih =>
    intro seen e out GD hm hlen hEI hEO hEOb hpart hdis hnd hOO hGDx hOwn hEOwn hESE
    have hcov := hwfs.pred_cover
    cases e with
    | node id =>
      obtain ⟨hl, hs, _⟩ := hEI
      have hid_not_out : id ∉ out := fun h => hdis id h hOwn
      refine ⟨out ++ [id], seen, ?_, ⟨[], by simp [eOwner]⟩, rfl, fun _ h => h, ?_, ?_,
        nodup_snoc hnd hid_not_out, OutOrd_snoc hOO hEO, ?_, ?_⟩
      · rw [runEnd_step, show exec1 g (.node id) ⟨seen, [], out, false⟩ =
          ⟨seen, [], out ++ [id], false⟩ from rfl, runEnd_terminal g _ (Or.inr rfl)]
      · intro j
        constructor
        · intro hj
          rcases (hpart j).mp hj with h | h
          · exact Or.inl (List.mem_append_left _ h)
          · by_cases hje : j = id
            · subst hje
              exact Or.inl (List.mem_append_right _ (List.mem_singleton_self _))
            · exact Or.inr ⟨h, hje⟩
        · intro hj
          rcases hj with h | ⟨h, _⟩
          · rcases List.mem_append.mp h with h' | h'
            · exact (hpart j).mpr (Or.inl h')
            · rw [List.mem_singleton] at h'
              subst h'
              exact hs
          · exact (hpart j).mpr (Or.inr h)
      · intro j hj hjGD
        rcases List.mem_append.mp hj with h | h
        · exact absurd hjGD (hdis j h)
        · exact List.mem_singleton.mp h
      · intro c hc r hr he
        rcases List.mem_append.mp he with h | h
        · exact hEOwn c hc r hr h
        · rw [List.mem_singleton] at h
          have hmk : markerEndAt g id = true := by
            rw [← h]
            exact hwfo.end_kind c (live_of_compound hc) hc r hr
          exact (hEOb hmk c r hc hr h).1
      · intro c hc r hr he hcs
        rcases List.mem_append.mp he with h | h
        · obtain ⟨h1, h2⟩ := hESE c hc r hr h hcs
          exact ⟨List.mem_append_left _ h1, emitsBefore_mono h2⟩
        · rw [List.mem_singleton] at h
          have hmk : markerEndAt g id = true := by
            rw [← h]
            exact hwfo.end_kind c (live_of_compound hc) hc r hr
          obtain ⟨_, h2⟩ := hEOb hmk c r hc hr h
          refine ⟨List.mem_append_left _ h2, ?_⟩
          rw [h]
          exact emitsBefore_append h2 (List.mem_singleton_self _)
    | preds id c =>
      cases c with
      | zero =>
        obtain ⟨hl, hs, _, hwalked⟩ := hEI
        obtain ⟨n, hn⟩ : ∃ n, g.nodes.get id = some n := by
          cases hgn : g.nodes.get id with
          | none =>
            unfold liveAt at hl
            rw [hgn] at hl
            exact Bool.noConfusion hl
          | some n => exact ⟨n, rfl⟩
        have hpredsAllSeen : ∀ l ∈ predsD g id, seenAt seen l.node = true := by
          intro l hl'
          exact hwalked l (by rw [Nat.sub_zero, List.take_length]; exact hl')
        have hpredsAllOut : ∀ l ∈ predsD g id, l.node ∈ out := by
          intro l hl'
          exact hEO l (by rw [Nat.sub_zero, List.take_length]; exact hl')
        by_cases hcomp : isCompoundAt g id = true
        · have hex : (alistGet g.regions id).isSome = true := hwfs.comp_entry id hl hcomp
          obtain ⟨rl, hrl⟩ : ∃ rl, alistGet g.regions id = some rl := by
            cases hh : alistGet g.regions id with
            | none => rw [hh] at hex; exact Bool.noConfusion hex
            | some rl => exact ⟨rl, rfl⟩
          have hrleq : regionsOfD g id = rl := by
            unfold regionsOfD
            rw [hrl]
            rfl
          obtain ⟨cc, rfl⟩ : ∃ cc, n = .compound cc := by
            unfold isCompoundAt at hcomp
            rw [hn] at hcomp
            cases n with
            | compound cc => exact ⟨cc, rfl⟩
            | simple s => exact Bool.noConfusion hcomp
            | marker mk => exact Bool.noConfusion hcomp
          have hrcc : region_count_checked g id = some rl.length := by
            simp [region_count_checked, hn, Node.as_compound, hrl]
          have hstep : runEnd g ⟨seen, [.preds id 0], out, false⟩ =
              runEnd g ⟨seen, [.regs id rl.length], out, false⟩ := by
            rw [runEnd_step, show exec1 g (.preds id 0) ⟨seen, [], out, false⟩ =
              handle_predecessor g 0 id ⟨seen, [], out, false⟩ from rfl,
              hp_zero_some seen [] out hrcc]
          have hmes : mMeasure g ⟨seen, [.regs id rl.length], out, false⟩ ≤ m := by
            have h1 := exec1_measure g (.preds id 0) seen [] out
            rw [show exec1 g (.preds id 0) ⟨seen, [], out, false⟩ =
              handle_predecessor g 0 id ⟨seen, [], out, false⟩ from rfl,
              hp_zero_some seen [] out hrcc] at h1
            omega
          obtain ⟨out', seen', heq, hδ, h3, h4, h5, h6, h7, h8, h9, h10⟩ :=
            ih seen (.regs id rl.length) out GD hmes hlen
              ⟨hl, hs, Nat.le_of_eq (by rw [hrleq]), hpredsAllSeen, fun _ => hcomp,
                fun _ => by
                  intro r' hr'
                  rw [hrleq, Nat.sub_self, List.take_zero] at hr'
                  exact absurd hr' (List.not_mem_nil r')⟩
              ⟨hpredsAllOut, fun _ => by
                  intro r' hr'
                  rw [hrleq, Nat.sub_self, List.take_zero] at hr'
                  exact absurd hr' (List.not_mem_nil r')⟩
              hEOb hpart hdis hnd hOO hGDx hOwn hEOwn hESE
          simp only [eOwner] at hδ h5 h6
          exact ⟨out', seen', by rw [hstep]; exact heq, hδ, h3, h4, h5, h6, h7, h8, h9, h10⟩
        · have hnc : n.as_compound = none := by
            cases n with
            | compound cc =>
              exfalso
              apply hcomp
              unfold isCompoundAt
              rw [hn]
            | simple s => rfl
            | marker mk => rfl
          have hrcc : region_count_checked g id = some 0 := by
            simp [region_count_checked, hn, hnc]
          have hstep : runEnd g ⟨seen, [.preds id 0], out, false⟩ =
              runEnd g ⟨seen, [.regs id 0], out, false⟩ := by
            rw [runEnd_step, show exec1 g (.preds id 0) ⟨seen, [], out, false⟩ =
              handle_predecessor g 0 id ⟨seen, [], out, false⟩ from rfl,
              hp_zero_some seen [] out hrcc]
          have hmes : mMeasure g ⟨seen, [.regs id 0], out, false⟩ ≤ m := by
            have h1 := exec1_measure g (.preds id 0) seen [] out
            rw [show exec1 g (.preds id 0) ⟨seen, [], out, false⟩ =
              handle_predecessor g 0 id ⟨seen, [], out, false⟩ from rfl,
              hp_zero_some seen [] out hrcc] at h1
            omega
          obtain ⟨out', seen', heq, hδ, h3, h4, h5, h6, h7, h8, h9, h10⟩ :=
            ih seen (.regs id 0) out GD hmes hlen
              ⟨hl, hs, Nat.zero_le _, hpredsAllSeen, fun h0 => absurd h0 (lt_irrefl 0),
                fun hcc => absurd hcc hcomp⟩
              ⟨hpredsAllOut, fun hcc => absurd hcc hcomp⟩
              hEOb hpart hdis hnd hOO hGDx hOwn hEOwn hESE
          simp only [eOwner] at hδ h5 h6
          exact ⟨out', seen', by rw [hstep]; exact heq, hδ, h3, h4, h5, h6, h7, h8, h9, h10⟩
      | succ c' =>
        obtain ⟨hl, hs, hc1, hwalked⟩ := hEI
        have hplt : id < g.active := lt_activeAux_of_isSome _ _ hl
        have hpp : g.predecessors[id]? = some (predsD g id) :=
          predsD_getElem? (lt_of_lt_of_le hplt hcov)
        have hclt : c' < (predsD g id).length := by omega
        have hkd : (predsD g id).length - c' - 1 < (predsD g id).length := by omega
        set p := ((predsD g id).getD ((predsD g id).length - c' - 1) default).node with hp
        have hmem : (predsD g id).getD ((predsD g id).length - c' - 1) default ∈ predsD g id :=
          getD_mem_of_lt hkd
        have hplive : liveAt g p = true := by
          rw [hp]
          exact hwfs.link_live id hl _ hmem
        have hedge : edgeG g id p := by
          rw [hp]
          exact edge_of_pred g hmem
        have hpnotend : markerEndAt g p = false := by
          rw [hp]
          exact hwfo.no_end_links id hl _ hmem
        rcases anbi_char hcov hlen hplive with ⟨hsp, heqA⟩ | ⟨hsp, heqA⟩
        · -- the walked producer is already marked, hence already emitted
          have hpout : p ∈ out := by
            rcases (hpart p).mp hsp with h | h
            · exact h
            · exact absurd hedge (hGDx p h id Relation.ReflTransGen.refl)
          have hstep : runEnd g ⟨seen, [.preds id (c' + 1)], out, false⟩ =
              runEnd g ⟨seen, [.preds id c'], out, false⟩ := by
            rw [runEnd_step, show exec1 g (.preds id (c' + 1)) ⟨seen, [], out, false⟩ =
              handle_predecessor g (c' + 1) id ⟨seen, [], out, false⟩ from rfl,
              hp_succ_hit c' seen [] out hpp hclt, ← hp, heqA [.preds id c'] out]
          have hmes : mMeasure g ⟨seen, [.preds id c'], out, false⟩ ≤ m := by
            have h1 := exec1_measure g (.preds id (c' + 1)) seen [] out
            rw [show exec1 g (.preds id (c' + 1)) ⟨seen, [], out, false⟩ =
              handle_predecessor g (c' + 1) id ⟨seen, [], out, false⟩ from rfl,
              hp_succ_hit c' seen [] out hpp hclt, ← hp, heqA [.preds id c'] out] at h1
            omega
          obtain ⟨out', seen', heq, hδ, h3, h4, h5, h6, h7, h8, h9, h10⟩ :=
            ih seen (.preds id c') out GD hmes hlen
              ⟨hl, hs, by omega, by
                intro l hl'
                rw [take_sub_succ hclt] at hl'
                rcases List.mem_append.mp hl' with h | h
                · exact hwalked l h
                · rw [List.mem_singleton] at h
                  subst h
                  exact hsp⟩
              (by
                intro l hl'
                rw [take_sub_succ hclt] at hl'
                rcases List.mem_append.mp hl' with h | h
                · exact hEO l h
                · rw [List.mem_singleton] at h
                  subst h
                  exact hpout)
              hEOb hpart hdis hnd hOO hGDx hOwn hEOwn hESE
          simp only [eOwner] at hδ h5 h6
          exact ⟨out', seen', by rw [hstep]; exact heq, hδ, h3, h4, h5, h6, h7, h8, h9, h10⟩
        · -- fresh producer: run its frame first, then continue
          have hp_not_outGD : ¬ (p ∈ out ∨ p ∈ GD) := fun h => by
            rw [(hpart p).mpr h] at hsp
            exact Bool.noConfusion hsp
          have hpnout : p ∉ out := fun h => hp_not_outGD (Or.inl h)
          have hpnGD : p ∉ GD := fun h => hp_not_outGD (Or.inr h)
          have hplen : p < seen.length := by
            rw [hlen]
            exact lt_activeAux_of_isSome _ _ hplive
          have hstep : runEnd g ⟨seen, [.preds id (c' + 1)], out, false⟩ =
              runEnd g ⟨seen.set p true,
                [.preds p (predsD g p).length, .preds id c'], out, false⟩ := by
            rw [runEnd_step, show exec1 g (.preds id (c' + 1)) ⟨seen, [], out, false⟩ =
              handle_predecessor g (c' + 1) id ⟨seen, [], out, false⟩ from rfl,
              hp_succ_hit c' seen [] out hpp hclt, ← hp, heqA [.preds id c'] out]
          have hmes2 : mMeasure g ⟨seen.set p true,
              [.preds p (predsD g p).length, .preds id c'], out, false⟩ ≤ m := by
            have h1 := exec1_measure g (.preds id (c' + 1)) seen [] out
            rw [show exec1 g (.preds id (c' + 1)) ⟨seen, [], out, false⟩ =
              handle_predecessor g (c' + 1) id ⟨seen, [], out, false⟩ from rfl,
              hp_succ_hit c' seen [] out hpp hclt, ← hp, heqA [.preds id c'] out] at h1
            omega
          have hswA : stackWeight g [Entry.preds p (predsD g p).length, Entry.preds id c'] =
              entryWeight g (.preds p (predsD g p).length) +
                (entryWeight g (.preds id c') + 0) := rfl
          have hswB : stackWeight g [Entry.preds p (predsD g p).length] =
              entryWeight g (.preds p (predsD g p).length) + 0 := rfl
          have hswC : stackWeight g [Entry.preds id c'] =
              entryWeight g (.preds id c') + 0 := rfl
          have hmesA : mMeasure g ⟨seen.set p true, [Entry.preds p (predsD g p).length,
              Entry.preds id c'], out, false⟩ = bigW g * unseenCount (seen.set p true) +
              stackWeight g [Entry.preds p (predsD g p).length, Entry.preds id c'] := rfl
          have hmes1 : mMeasure g ⟨seen.set p true,
              [.preds p (predsD g p).length], out, false⟩ ≤ m := by
            have e2 : mMeasure g ⟨seen.set p true, [Entry.preds p (predsD g p).length],
                out, false⟩ = bigW g * unseenCount (seen.set p true) +
                stackWeight g [Entry.preds p (predsD g p).length] := rfl
            omega
          obtain ⟨out₁, seen₂, heq1, hδ1, hlen2, hmono2, hpart2, hc62, hnd2, hOO2,
              hEOwn2, hESE2⟩ :=
            ih (seen.set p true) (.preds p (predsD g p).length) out (p :: GD) hmes1
              (by simp [hlen])
              (EntryInv_fresh hplive (seenAt_set_self hplen))
              (by
                intro l hl'
                rw [Nat.sub_self, List.take_zero] at hl'
                exact absurd hl' (List.not_mem_nil l))
              (by
                intro hk
                have hk' : markerEndAt g p = true := hk
                rw [hpnotend] at hk'
                exact Bool.noConfusion hk')
              (by
                intro j
                constructor
                · intro hj
                  rcases seenAt_set_true_cases hj with h | h
                  · rcases (hpart j).mp h with h' | h'
                    · exact Or.inl h'
                    · exact Or.inr (List.mem_cons_of_mem p h')
                  · subst h
                    exact Or.inr (List.mem_cons_self p GD)
                · intro hj
                  rcases hj with h | h
                  · exact seenAt_set_true_mono ((hpart j).mpr (Or.inl h))
                  · rcases List.mem_cons.mp h with rfl | h'
                    · exact seenAt_set_self hplen
                    · exact seenAt_set_true_mono ((hpart j).mpr (Or.inr h')))
              (by
                intro j hj hjGD
                rcases List.mem_cons.mp hjGD with rfl | h'
                · exact hpnout hj
                · exact hdis j hj h')
              hnd hOO
              (by
                intro q hq a hra hedge'
                rcases List.mem_cons.mp hq with rfl | hq'
                · exact absurd hra (hacy a p hedge')
                · exact hGDx q hq' a (Relation.ReflTransGen.head hedge hra) hedge')
              (List.mem_cons_self p GD)
              (fun c hc r hr he => seenAt_set_true_mono (hEOwn c hc r hr he))
              (by
                intro c hc r hr he hc1
                rcases seenAt_set_true_cases hc1 with h | h
                · exact hESE c hc r hr he h
                · subst h
                  have h2 := hEOwn p hc r hr he
                  rw [h2] at hsp
                  exact Bool.noConfusion hsp)
          simp only [eOwner] at hδ1 hpart2 hc62
          have happ := runEnd_append g
            (mMeasure g ⟨seen.set p true, [.preds p (predsD g p).length], out, false⟩)
            (seen.set p true) [.preds p (predsD g p).length] [.preds id c'] out (le_refl _)
          rw [show ([Entry.preds p (predsD g p).length] ++ [Entry.preds id c'] : List Entry) =
            [Entry.preds p (predsD g p).length, Entry.preds id c'] from rfl, heq1] at happ
          rw [if_neg (fun hpk => Bool.noConfusion hpk)] at happ
          dsimp only at happ
          have hu2 : unseenCount seen₂ ≤ unseenCount (seen.set p true) :=
            unseenCount_le_of_mono seen₂ (seen.set p true) hlen2 hmono2
          have hmul : bigW g * unseenCount seen₂ ≤ bigW g * unseenCount (seen.set p true) :=
            Nat.mul_le_mul_left _ hu2
          have hmesC : mMeasure g ⟨seen₂, [.preds id c'], out₁, false⟩ ≤ m := by
            have e1 : mMeasure g ⟨seen₂, [Entry.preds id c'], out₁, false⟩ =
                bigW g * unseenCount seen₂ + stackWeight g [Entry.preds id c'] := rfl
            omega
          obtain ⟨δp₀, hδp⟩ := hδ1
          have hpin1 : p ∈ out₁ := by
            rw [hδp]
            exact List.mem_append_right _ (List.mem_singleton_self _)
          have houtsub : ∀ j ∈ out, j ∈ out₁ := by
            intro j hj
            rw [hδp]
            exact List.mem_append_left _ (List.mem_append_left _ hj)
          obtain ⟨out₂, seen₃, heq2, hδ2, hlen3, hmono3, hpart3, hc63, hnd3, hOO3,
              hEOwn3, hESE3⟩ :=
            ih seen₂ (.preds id c') out₁ GD hmesC (by rw [hlen2]; simp [hlen])
              ⟨hl, hmono2 _ (seenAt_set_true_mono hs), by omega, by
                intro l hl'
                rw [take_sub_succ hclt] at hl'
                rcases List.mem_append.mp hl' with h | h
                · exact hmono2 _ (seenAt_set_true_mono (hwalked l h))
                · rw [List.mem_singleton] at h
                  subst h
                  exact hmono2 _ (seenAt_set_self hplen)⟩
              (by
                intro l hl'
                rw [take_sub_succ hclt] at hl'
                rcases List.mem_append.mp hl' with h | h
                · exact houtsub _ (hEO l h)
                · rw [List.mem_singleton] at h
                  subst h
                  exact hpin1)
              (by
                intro hk c r hc hr he
                obtain ⟨h1, h2⟩ := hEOb hk c r hc hr he
                exact ⟨hmono2 _ (seenAt_set_true_mono h1), houtsub _ h2⟩)
              (by
                intro j
                rw [hpart2 j]
                constructor
                · rintro (h | ⟨h, hne⟩)
                  · exact Or.inl h
                  · rcases List.mem_cons.mp h with rfl | h'
                    · exact absurd rfl hne
                    · exact Or.inr h'
                · rintro (h | h)
                  · exact Or.inl h
                  · exact Or.inr ⟨List.mem_cons_of_mem p h,
                      fun hje => hpnGD (by rw [← hje]; exact h)⟩)
              (by
                intro j hj hjGD
                have hjp := hc62 j hj (List.mem_cons_of_mem p hjGD)
                exact hpnGD (by rw [← hjp]; exact hjGD))
              hnd2 hOO2 hGDx hOwn hEOwn2 hESE2
          simp only [eOwner] at hδ2 hpart3 hc63
          refine ⟨out₂, seen₃, ?_, ?_, ?_, ?_, hpart3, hc63, hnd3, hOO3, hEOwn3, hESE3⟩
          · rw [hstep, happ]
            exact heq2
          · obtain ⟨δc₀, hδc⟩ := hδ2
            refine ⟨δp₀ ++ [p] ++ δc₀, ?_⟩
            rw [hδc, hδp]
            simp [eOwner, List.append_assoc]
          · rw [hlen3, hlen2]
            simp
          · intro j hj
            exact hmono3 j (hmono2 j (seenAt_set_true_mono hj))
    | regs id c =>
      cases c with
      | zero =>
        obtain ⟨hl, hs, _, h4seen, _, h6seen⟩ := hEI
        obtain ⟨hEO4, hEO6⟩ := hEO
        have htargseen : ∀ b ∈ edgeTargets g id, seenAt seen b = true := by
          intro b hb
          unfold edgeTargets at hb
          rcases List.mem_append.mp hb with h | h
          · obtain ⟨l, hl', rfl⟩ := List.mem_map.mp h
            exact h4seen l hl'
          · by_cases hcomp : isCompoundAt g id = true
            · rw [if_pos hcomp] at h
              obtain ⟨r', hr', hcase⟩ := (mem_regionFold _).mp h
              have hmk := h6seen hcomp r' (by rw [Nat.sub_zero, List.take_length]; exact hr')
              rcases hcase with rfl | rfl
              · exact hmk.1
              · exact hmk.2
            · rw [if_neg hcomp] at h
              exact absurd h (List.not_mem_nil b)
        have htargets : ∀ b ∈ edgeTargets g id, b ∈ out := by
          intro b hb
          unfold edgeTargets at hb
          rcases List.mem_append.mp hb with h | h
          · obtain ⟨l, hl', rfl⟩ := List.mem_map.mp h
            exact hEO4 l hl'
          · by_cases hcomp : isCompoundAt g id = true
            · rw [if_pos hcomp] at h
              obtain ⟨r', hr', hcase⟩ := (mem_regionFold _).mp h
              have hmk := hEO6 hcomp r' (by rw [Nat.sub_zero, List.take_length]; exact hr')
              rcases hcase with rfl | rfl
              · exact hmk.1
              · exact hmk.2
            · rw [if_neg hcomp] at h
              exact absurd h (List.not_mem_nil b)
        have hstep : runEnd g ⟨seen, [.regs id 0], out, false⟩ =
            runEnd g ⟨seen, [.node id], out, false⟩ := by
          rw [runEnd_step, show exec1 g (.regs id 0) ⟨seen, [], out, false⟩ =
            handle_region g 0 id ⟨seen, [], out, false⟩ from rfl, hr_zero g id seen [] out]
        have hmes : mMeasure g ⟨seen, [.node id], out, false⟩ ≤ m := by
          have h1 := exec1_measure g (.regs id 0) seen [] out
          rw [show exec1 g (.regs id 0) ⟨seen, [], out, false⟩ =
            handle_region g 0 id ⟨seen, [], out, false⟩ from rfl,
            hr_zero g id seen [] out] at h1
          omega
        obtain ⟨out', seen', heq, hδ, h3, h4, h5, h6, h7, h8, h9, h10⟩ :=
          ih seen (.node id) out GD hmes hlen ⟨hl, hs, htargseen⟩ htargets
            hEOb hpart hdis hnd hOO hGDx hOwn hEOwn hESE
        simp only [eOwner] at hδ h5 h6
        exact ⟨out', seen', by rw [hstep]; exact heq, hδ, h3, h4, h5, h6, h7, h8, h9, h10⟩
      | succ c' =>
        obtain ⟨hl, hs, hc1, h4seen, h5, h6seen⟩ := hEI
        obtain ⟨hEO4, hEO6⟩ := hEO
        have hcomp : isCompoundAt g id = true := h5 (Nat.succ_pos c')
        have hex : (alistGet g.regions id).isSome = true := hwfs.comp_entry id hl hcomp
        obtain ⟨rl, hrl⟩ : ∃ rl, alistGet g.regions id = some rl := by
          cases hh : alistGet g.regions id with
          | none => rw [hh] at hex; exact Bool.noConfusion hex
          | some rl => exact ⟨rl, rfl⟩
        have hrleq : regionsOfD g id = rl := by
          unfold regionsOfD
          rw [hrl]
          rfl
        rw [hrleq] at hc1
        have hclt : c' < rl.length := by omega
        have hkd : rl.length - c' - 1 < rl.length := by omega
        set r := rl.getD (rl.length - c' - 1) default with hr
        have hmem : r ∈ rl := by
          rw [hr]
          exact getD_mem_of_lt hkd
        have hmem' : r ∈ regionsOfD g id := by
          rw [hrleq]
          exact hmem
        have hml := hwfs.marker_live id hl hcomp r hmem'
        have hedges := edge_of_marker g hcomp hmem'
        have hstartk := hwfo.start_kind id hl hcomp r hmem'
        have hendk := hwfo.end_kind id hl hcomp r hmem'
        have hne_se : r.start ≠ r.end_ := by
          intro hse
          have h1 := not_end_of_start hstartk
          rw [hse] at h1
          rw [h1] at hendk
          exact Bool.noConfusion hendk
        have hstep0 : runEnd g ⟨seen, [.regs id (c' + 1)], out, false⟩ =
            runEnd g (add_region_entries g.predecessors ⟨seen, [.regs id c'], out, false⟩ r) := by
          rw [runEnd_step, show exec1 g (.regs id (c' + 1)) ⟨seen, [], out, false⟩ =
            handle_region g (c' + 1) id ⟨seen, [], out, false⟩ from rfl,
            hr_succ_hit c' seen [] out hrl hclt, ← hr]
        have hmes0 : mMeasure g (add_region_entries g.predecessors
            ⟨seen, [.regs id c'], out, false⟩ r) ≤ m := by
          have h1 := exec1_measure g (.regs id (c' + 1)) seen [] out
          rw [show exec1 g (.regs id (c' + 1)) ⟨seen, [], out, false⟩ =
            handle_region g (c' + 1) id ⟨seen, [], out, false⟩ from rfl,
            hr_succ_hit c' seen [] out hrl hclt, ← hr] at h1
          omega
        rcases anbi_char hcov hlen hml.2 with ⟨hseE, heqE⟩ | ⟨hseE, heqE⟩
        · -- End marker already marked: it is already emitted and SE holds
          have hEndOut : r.end_ ∈ out := by
            rcases (hpart _).mp hseE with h | h
            · exact h
            · exact absurd hedges.2 (hGDx _ h id Relation.ReflTransGen.refl)
          obtain ⟨hStartOut, _⟩ := hESE id hcomp r hmem' hEndOut hs
          rcases anbi_char hcov hlen hml.1 with ⟨hseS, heqS⟩ | ⟨hseS, heqS⟩
          · have hstep : runEnd g ⟨seen, [.regs id (c' + 1)], out, false⟩ =
                runEnd g ⟨seen, [.regs id c'], out, false⟩ := by
              rw [hstep0]
              unfold add_region_entries
              rw [heqE [.regs id c'] out, heqS [.regs id c'] out]
            have hmes : mMeasure g ⟨seen, [.regs id c'], out, false⟩ ≤ m := by
              have h2 : add_region_entries g.predecessors ⟨seen, [.regs id c'], out, false⟩ r =
                  ⟨seen, [.regs id c'], out, false⟩ := by
                unfold add_region_entries
                rw [heqE [.regs id c'] out, heqS [.regs id c'] out]
              rw [h2] at hmes0
              exact hmes0
            obtain ⟨out', seen', heq, hδ, h3, h4, h5x, h6, h7, h8, h9, h10⟩ :=
              ih seen (.regs id c') out GD hmes hlen
                ⟨hl, hs, by rw [hrleq]; omega, h4seen, fun _ => hcomp, fun _ => by
                  intro r' hr'
                  rw [hrleq, take_sub_succ hclt, ← hr] at hr'
                  rcases List.mem_append.mp hr' with h | h
                  · exact h6seen hcomp r' (by rw [hrleq]; exact h)
                  · rw [List.mem_singleton] at h
                    subst h
                    exact ⟨hseS, hseE⟩⟩
                ⟨hEO4, fun _ => by
                  intro r' hr'
                  rw [hrleq, take_sub_succ hclt, ← hr] at hr'
                  rcases List.mem_append.mp hr' with h | h
                  · exact hEO6 hcomp r' (by rw [hrleq]; exact h)
                  · rw [List.mem_singleton] at h
                    subst h
                    exact ⟨hStartOut, hEndOut⟩⟩
                hEOb hpart hdis hnd hOO hGDx hOwn hEOwn hESE
            simp only [eOwner] at hδ h5x h6
            exact ⟨out', seen', by rw [hstep]; exact heq, hδ, h3, h4, h5x, h6, h7, h8, h9, h10⟩
          · exfalso
            have hx := (hpart r.start).mpr (Or.inl hStartOut)
            rw [hx] at hseS
            exact Bool.noConfusion hseS
        · -- End marker fresh
          have hEnotout : r.end_ ∉ out := fun h => by
            have hx := (hpart r.end_).mpr (Or.inl h)
            rw [hx] at hseE
            exact Bool.noConfusion hseE
          have hEnGD : r.end_ ∉ GD := fun h => by
            have hx := (hpart r.end_).mpr (Or.inr h)
            rw [hx] at hseE
            exact Bool.noConfusion hseE
          have helen : r.end_ < seen.length := by
            rw [hlen]
            exact lt_activeAux_of_isSome _ _ hml.2
          have hlen1 : (seen.set r.end_ true).length = g.active := by simp [hlen]
          rcases anbi_char hcov hlen1 hml.1 with ⟨hseS, heqS⟩ | ⟨hseS, heqS⟩
          · -- Start already marked, hence emitted; only the End frame runs
            have hseS0 : seenAt seen r.start = true := by
              rcases seenAt_set_true_cases hseS with h | h
              · exact h
              · exact absurd h hne_se
            have hStartOut : r.start ∈ out := by
              rcases (hpart _).mp hseS0 with h | h
              · exact h
              · exact absurd hedges.1 (hGDx _ h id Relation.ReflTransGen.refl)
            have hare : add_region_entries g.predecessors ⟨seen, [.regs id c'], out, false⟩ r =
                ⟨seen.set r.end_ true,
                  [.preds r.end_ (predsD g r.end_).length, .regs id c'], out, false⟩ := by
              unfold add_region_entries
              rw [heqE [.regs id c'] out,
                heqS (.preds r.end_ (predsD g r.end_).length :: [.regs id c']) out]
            have hstep : runEnd g ⟨seen, [.regs id (c' + 1)], out, false⟩ =
                runEnd g ⟨seen.set r.end_ true,
                  [.preds r.end_ (predsD g r.end_).length, .regs id c'], out, false⟩ := by
              rw [hstep0, hare]
            rw [hare] at hmes0
            have hswB : stackWeight g [Entry.preds r.end_ (predsD g r.end_).length] =
                entryWeight g (.preds r.end_ (predsD g r.end_).length) + 0 := rfl
            have hswA : stackWeight g [Entry.preds r.end_ (predsD g r.end_).length,
                Entry.regs id c'] = entryWeight g (.preds r.end_ (predsD g r.end_).length) +
                (entryWeight g (.regs id c') + 0) := rfl
            have hswC : stackWeight g [Entry.regs id c'] =
                entryWeight g (.regs id c') + 0 := rfl
            have hmesA : mMeasure g ⟨seen.set r.end_ true,
                [Entry.preds r.end_ (predsD g r.end_).length, Entry.regs id c'], out, false⟩ =
                bigW g * unseenCount (seen.set r.end_ true) +
                stackWeight g [Entry.preds r.end_ (predsD g r.end_).length,
                  Entry.regs id c'] := rfl
            have hmes1 : mMeasure g ⟨seen.set r.end_ true,
                [.preds r.end_ (predsD g r.end_).length], out, false⟩ ≤ m := by
              have e2 : mMeasure g ⟨seen.set r.end_ true,
                  [Entry.preds r.end_ (predsD g r.end_).length], out, false⟩ =
                  bigW g * unseenCount (seen.set r.end_ true) +
                  stackWeight g [Entry.preds r.end_ (predsD g r.end_).length] := rfl
              omega
            obtain ⟨out₁, seen₂, heq1, hδ1, hlen2, hmono2, hpart2, hc62, hnd2, hOO2,
                hEOwn2, hESE2⟩ :=
              ih (seen.set r.end_ true) (.preds r.end_ (predsD g r.end_).length) out
                (r.end_ :: GD) hmes1 hlen1
                (EntryInv_fresh hml.2 (seenAt_set_self helen))
                (by
                  intro l hl'
                  rw [Nat.sub_self, List.take_zero] at hl'
                  exact absurd hl' (List.not_mem_nil l))
                (by
                  intro _ c'' r'' hc'' hr'' he''
                  obtain ⟨hceq, hreq⟩ := hwfo.end_unique c'' id (live_of_compound hc'')
                    hc'' hl hcomp r'' hr'' r hmem' he''
                  subst hceq
                  subst hreq
                  exact ⟨seenAt_set_true_mono hs, hStartOut⟩)
                (by
                  intro j
                  constructor
                  · intro hj
                    rcases seenAt_set_true_cases hj with h | h
                    · rcases (hpart j).mp h with h' | h'
                      · exact Or.inl h'
                      · exact Or.inr (List.mem_cons_of_mem _ h')
                    · subst h
                      exact Or.inr (List.mem_cons_self _ _)
                  · intro hj
                    rcases hj with h | h
                    · exact seenAt_set_true_mono ((hpart j).mpr (Or.inl h))
                    · rcases List.mem_cons.mp h with rfl | h'
                      · exact seenAt_set_self helen
                      · exact seenAt_set_true_mono ((hpart j).mpr (Or.inr h')))
                (by
                  intro j hj hjGD
                  rcases List.mem_cons.mp hjGD with rfl | h'
                  · exact hEnotout hj
                  · exact hdis j hj h')
                hnd hOO
                (by
                  intro q hq a hra hedge'
                  rcases List.mem_cons.mp hq with rfl | hq'
                  · have hla : liveAt g a = true := live_of_reach hwfs hml.2 hra
                    have haid : a = id := end_edge_unique hwfo hl hcomp hmem' hla hedge'
                    subst haid
                    exact absurd hra (hacy a r.end_ hedges.2)
                  · exact hGDx q hq' a (Relation.ReflTransGen.head hedges.2 hra) hedge')
                (List.mem_cons_self _ _)
                (fun c hc r' hr' he => seenAt_set_true_mono (hEOwn c hc r' hr' he))
                (by
                  intro c hc r' hr' he hc1
                  rcases seenAt_set_true_cases hc1 with h | h
                  · exact hESE c hc r' hr' he h
                  · subst h
                    rw [not_compound_of_end hendk] at hc
                    exact Bool.noConfusion hc)
            simp only [eOwner] at hδ1 hpart2 hc62
            have happ := runEnd_append g
              (mMeasure g ⟨seen.set r.end_ true,
                [.preds r.end_ (predsD g r.end_).length], out, false⟩)
              (seen.set r.end_ true) [.preds r.end_ (predsD g r.end_).length]
              [.regs id c'] out (le_refl _)
            rw [show ([Entry.preds r.end_ (predsD g r.end_).length] ++
              [Entry.regs id c'] : List Entry) =
              [Entry.preds r.end_ (predsD g r.end_).length, Entry.regs id c'] from rfl,
              heq1] at happ
            rw [if_neg (fun hpk => Bool.noConfusion hpk)] at happ
            dsimp only at happ
            have hu2 : unseenCount seen₂ ≤ unseenCount (seen.set r.end_ true) :=
              unseenCount_le_of_mono seen₂ (seen.set r.end_ true) hlen2 hmono2
            have hmul : bigW g * unseenCount seen₂ ≤
                bigW g * unseenCount (seen.set r.end_ true) := Nat.mul_le_mul_left _ hu2
            have hmesC : mMeasure g ⟨seen₂, [.regs id c'], out₁, false⟩ ≤ m := by
              have e1 : mMeasure g ⟨seen₂, [Entry.regs id c'], out₁, false⟩ =
                  bigW g * unseenCount seen₂ + stackWeight g [Entry.regs id c'] := rfl
              omega
            obtain ⟨δe₀, hδe⟩ := hδ1
            have hEndIn1 : r.end_ ∈ out₁ := by
              rw [hδe]
              exact List.mem_append_right _ (List.mem_singleton_self _)
            have houtsub : ∀ j ∈ out, j ∈ out₁ := by
              intro j hj
              rw [hδe]
              exact List.mem_append_left _ (List.mem_append_left _ hj)
            obtain ⟨out₂, seen₃, heq2, hδ2, hlen3, hmono3, hpart3, hc63, hnd3, hOO3,
                hEOwn3, hESE3⟩ :=
              ih seen₂ (.regs id c') out₁ GD hmesC (by rw [hlen2]; exact hlen1)
                ⟨hl, hmono2 _ (seenAt_set_true_mono hs), by rw [hrleq]; omega,
                  fun l hl' => hmono2 _ (seenAt_set_true_mono (h4seen l hl')),
                  fun _ => hcomp, fun _ => by
                    intro r' hr'
                    rw [hrleq, take_sub_succ hclt, ← hr] at hr'
                    rcases List.mem_append.mp hr' with h | h
                    · obtain ⟨ha, hb⟩ := h6seen hcomp r' (by rw [hrleq]; exact h)
                      exact ⟨hmono2 _ (seenAt_set_true_mono ha),
                        hmono2 _ (seenAt_set_true_mono hb)⟩
                    · rw [List.mem_singleton] at h
                      subst h
                      exact ⟨hmono2 _ hseS, hmono2 _ (seenAt_set_self helen)⟩⟩
                ⟨fun l hl' => houtsub _ (hEO4 l hl'), fun _ => by
                  intro r' hr'
                  rw [hrleq, take_sub_succ hclt, ← hr] at hr'
                  rcases List.mem_append.mp hr' with h | h
                  · obtain ⟨ha, hb⟩ := hEO6 hcomp r' (by rw [hrleq]; exact h)
                    exact ⟨houtsub _ ha, houtsub _ hb⟩
                  · rw [List.mem_singleton] at h
                    subst h
                    exact ⟨houtsub _ hStartOut, hEndIn1⟩⟩
                (by
                  intro hk c'' r'' hc'' hr'' he''
                  obtain ⟨h1, h2⟩ := hEOb hk c'' r'' hc'' hr'' he''
                  exact ⟨hmono2 _ (seenAt_set_true_mono h1), houtsub _ h2⟩)
                (by
                  intro j
                  rw [hpart2 j]
                  constructor
                  · rintro (h | ⟨h, hne⟩)
                    · exact Or.inl h
                    · rcases List.mem_cons.mp h with rfl | h'
                      · exact absurd rfl hne
                      · exact Or.inr h'
                  · rintro (h | h)
                    · exact Or.inl h
                    · exact Or.inr ⟨List.mem_cons_of_mem _ h,
                      fun hje => hEnGD (by rw [← hje]; exact h)⟩)
                (by
                  intro j hj hjGD
                  have hjp := hc62 j hj (List.mem_cons_of_mem _ hjGD)
                  exact hEnGD (by rw [← hjp]; exact hjGD))
                hnd2 hOO2 hGDx hOwn hEOwn2 hESE2
            simp only [eOwner] at hδ2 hpart3 hc63
            refine ⟨out₂, seen₃, ?_, ?_, ?_, ?_, hpart3, hc63, hnd3, hOO3, hEOwn3, hESE3⟩
            · rw [hstep, happ]
              exact heq2
            · obtain ⟨δc₀, hδc⟩ := hδ2
              refine ⟨δe₀ ++ [r.end_] ++ δc₀, ?_⟩
              rw [hδc, hδe]
              simp [eOwner, List.append_assoc]
            · rw [hlen3, hlen2]
              simp
            · intro j hj
              exact hmono3 j (hmono2 j (seenAt_set_true_mono hj))
          · -- both markers fresh: Start frame, then End frame, then continue
            have hseS0 : seenAt seen r.start = false := by
              cases hx : seenAt seen r.start
              · rfl
              · rw [seenAt_set_true_mono hx] at hseS
                exact Bool.noConfusion hseS
            have hSnotout : r.start ∉ out := fun h => by
              have hx := (hpart r.start).mpr (Or.inl h)
              rw [hx] at hseS0
              exact Bool.noConfusion hseS0
            have hSnGD : r.start ∉ GD := fun h => by
              have hx := (hpart r.start).mpr (Or.inr h)
              rw [hx] at hseS0
              exact Bool.noConfusion hseS0
            have hslen : r.start < seen.length := by
              rw [hlen]
              exact lt_activeAux_of_isSome _ _ hml.1
            have hslen1 : r.start < (seen.set r.end_ true).length := by
              simpa using hslen
            have hare : add_region_entries g.predecessors ⟨seen, [.regs id c'], out, false⟩ r =
                ⟨(seen.set r.end_ true).set r.start true,
                  [.preds r.start (predsD g r.start).length,
                   .preds r.end_ (predsD g r.end_).length, .regs id c'], out, false⟩ := by
              unfold add_region_entries
              rw [heqE [.regs id c'] out,
                heqS (.preds r.end_ (predsD g r.end_).length :: [.regs id c']) out]
            have hstep : runEnd g ⟨seen, [.regs id (c' + 1)], out, false⟩ =
                runEnd g ⟨(seen.set r.end_ true).set r.start true,
                  [.preds r.start (predsD g r.start).length,
                   .preds r.end_ (predsD g r.end_).length, .regs id c'], out, false⟩ := by
              rw [hstep0, hare]
            rw [hare] at hmes0
            have hswA : stackWeight g [Entry.preds r.start (predsD g r.start).length,
                Entry.preds r.end_ (predsD g r.end_).length, Entry.regs id c'] =
                entryWeight g (.preds r.start (predsD g r.start).length) +
                (entryWeight g (.preds r.end_ (predsD g r.end_).length) +
                  (entryWeight g (.regs id c') + 0)) := rfl
            have hmesA : mMeasure g ⟨(seen.set r.end_ true).set r.start true,
                [Entry.preds r.start (predsD g r.start).length,
                 Entry.preds r.end_ (predsD g r.end_).length, Entry.regs id c'], out, false⟩ =
                bigW g * unseenCount ((seen.set r.end_ true).set r.start true) +
                stackWeight g [Entry.preds r.start (predsD g r.start).length,
                  Entry.preds r.end_ (predsD g r.end_).length, Entry.regs id c'] := rfl
            have hmes1 : mMeasure g ⟨(seen.set r.end_ true).set r.start true,
                [.preds r.start (predsD g r.start).length], out, false⟩ ≤ m := by
              have e2 : mMeasure g ⟨(seen.set r.end_ true).set r.start true,
                  [Entry.preds r.start (predsD g r.start).length], out, false⟩ =
                  bigW g * unseenCount ((seen.set r.end_ true).set r.start true) +
                  (entryWeight g (.preds r.start (predsD g r.start).length) + 0) := rfl
              omega
            have hseenSx : seenAt ((seen.set r.end_ true).set r.start true) r.start = true :=
              seenAt_set_self hslen1
            have hseenEx : seenAt ((seen.set r.end_ true).set r.start true) r.end_ = true :=
              seenAt_set_true_mono (seenAt_set_self helen)
            obtain ⟨out₁, seen₂, heq1, hδ1, hlen2, hmono2, hpart2, hc62, hnd2, hOO2,
                hEOwn2, hESE2⟩ :=
              ih ((seen.set r.end_ true).set r.start true)
                (.preds r.start (predsD g r.start).length) out (r.start :: r.end_ :: GD)
                hmes1 (by simp [hlen])
                (EntryInv_fresh hml.1 hseenSx)
                (by
                  intro l hl'
                  rw [Nat.sub_self, List.take_zero] at hl'
                  exact absurd hl' (List.not_mem_nil l))
                (by
                  intro hk
                  have hk' : markerEndAt g r.start = true := hk
                  rw [not_end_of_start hstartk] at hk'
                  exact Bool.noConfusion hk')
                (by
                  intro j
                  constructor
                  · intro hj
                    rcases seenAt_set_true_cases hj with h | h
                    · rcases seenAt_set_true_cases h with h' | h'
                      · rcases (hpart j).mp h' with h'' | h''
                        · exact Or.inl h''
                        · exact Or.inr (List.mem_cons_of_mem _ (List.mem_cons_of_mem _ h''))
                      · subst h'
                        exact Or.inr (List.mem_cons_of_mem _ (List.mem_cons_self _ _))
                    · subst h
                      exact Or.inr (List.mem_cons_self _ _)
                  · intro hj
                    rcases hj with h | h
                    · exact seenAt_set_true_mono (seenAt_set_true_mono
                        ((hpart j).mpr (Or.inl h)))
                    · rcases List.mem_cons.mp h with rfl | h'
                      · exact hseenSx
                      · rcases List.mem_cons.mp h' with rfl | h''
                        · exact hseenEx
                        · exact seenAt_set_true_mono (seenAt_set_true_mono
                            ((hpart j).mpr (Or.inr h''))))
                (by
                  intro j hj hjGD
                  rcases List.mem_cons.mp hjGD with rfl | h'
                  · exact hSnotout hj
                  · rcases List.mem_cons.mp h' with rfl | h''
                    · exact hEnotout hj
                    · exact hdis j hj h'')
                hnd hOO
                (by
                  intro q hq a hra hedge'
                  have ha := reach_of_empty_targets
                    (edgeTargets_start hwfo hl hcomp hmem') hra
                  subst ha
                  have hq' : q ∈ edgeTargets g r.start := hedge'
                  rw [edgeTargets_start hwfo hl hcomp hmem'] at hq'
                  exact absurd hq' (List.not_mem_nil q))
                (List.mem_cons_self _ _)
                (fun c hc r' hr' he => seenAt_set_true_mono (seenAt_set_true_mono
                  (hEOwn c hc r' hr' he)))
                (by
                  intro c hc r' hr' he hc1
                  rcases seenAt_set_true_cases hc1 with h | h
                  · rcases seenAt_set_true_cases h with h' | h'
                    · exact hESE c hc r' hr' he h'
                    · subst h'
                      rw [not_compound_of_end hendk] at hc
                      exact Bool.noConfusion hc
                  · subst h
                    rw [not_compound_of_start hstartk] at hc
                    exact Bool.noConfusion hc)
            simp only [eOwner] at hδ1 hpart2 hc62
            have happ1 := runEnd_append g
              (mMeasure g ⟨(seen.set r.end_ true).set r.start true,
                [.preds r.start (predsD g r.start).length], out, false⟩)
              ((seen.set r.end_ true).set r.start true)
              [.preds r.start (predsD g r.start).length]
              [.preds r.end_ (predsD g r.end_).length, .regs id c'] out (le_refl _)
            rw [show ([Entry.preds r.start (predsD g r.start).length] ++
              [Entry.preds r.end_ (predsD g r.end_).length, Entry.regs id c'] : List Entry) =
              [Entry.preds r.start (predsD g r.start).length,
               Entry.preds r.end_ (predsD g r.end_).length, Entry.regs id c'] from rfl,
              heq1] at happ1
            rw [if_neg (fun hpk => Bool.noConfusion hpk)] at happ1
            dsimp only at happ1
            have hu2 : unseenCount seen₂ ≤
                unseenCount ((seen.set r.end_ true).set r.start true) :=
              unseenCount_le_of_mono seen₂ _ hlen2 hmono2
            have hmul2 : bigW g * unseenCount seen₂ ≤
                bigW g * unseenCount ((seen.set r.end_ true).set r.start true) :=
              Nat.mul_le_mul_left _ hu2
            obtain ⟨δs₀, hδs⟩ := hδ1
            have hStartIn1 : r.start ∈ out₁ := by
              rw [hδs]
              exact List.mem_append_right _ (List.mem_singleton_self _)
            have houtsub1 : ∀ j ∈ out, j ∈ out₁ := by
              intro j hj
              rw [hδs]
              exact List.mem_append_left _ (List.mem_append_left _ hj)
            have hmesE : mMeasure g ⟨seen₂,
                [.preds r.end_ (predsD g r.end_).length], out₁, false⟩ ≤ m := by
              have e1 : mMeasure g ⟨seen₂,
                  [Entry.preds r.end_ (predsD g r.end_).length], out₁, false⟩ =
                  bigW g * unseenCount seen₂ +
                  (entryWeight g (.preds r.end_ (predsD g r.end_).length) + 0) := rfl
              omega
            obtain ⟨out₂, seen₃, heq2, hδ2, hlen3, hmono3, hpart3, hc63, hnd3, hOO3,
                hEOwn3, hESE3⟩ :=
              ih seen₂ (.preds r.end_ (predsD g r.end_).length) out₁ (r.end_ :: GD)
                hmesE (by rw [hlen2]; simp [hlen])
                ⟨hml.2, hmono2 _ hseenEx, Nat.le_refl _, by
                  intro l hl'
                  rw [Nat.sub_self, List.take_zero] at hl'
                  exact absurd hl' (List.not_mem_nil l)⟩
                (by
                  intro l hl'
                  rw [Nat.sub_self, List.take_zero] at hl'
                  exact absurd hl' (List.not_mem_nil l))
                (by
                  intro _ c'' r'' hc'' hr'' he''
                  obtain ⟨hceq, hreq⟩ := hwfo.end_unique c'' id (live_of_compound hc'')
                    hc'' hl hcomp r'' hr'' r hmem' he''
                  subst hceq
                  subst hreq
                  exact ⟨hmono2 _ (seenAt_set_true_mono (seenAt_set_true_mono hs)),
                    hStartIn1⟩)
                (by
                  intro j
                  rw [hpart2 j]
                  constructor
                  · rintro (h | ⟨h, hne⟩)
                    · exact Or.inl h
                    · rcases List.mem_cons.mp h with rfl | h'
                      · exact absurd rfl hne
                      · exact Or.inr h'
                  · rintro (h | h)
                    · exact Or.inl h
                    · refine Or.inr ⟨List.mem_cons_of_mem _ h, fun hje => ?_⟩
                      have hsx : r.start ∈ r.end_ :: GD := by rw [← hje]; exact h
                      rcases List.mem_cons.mp hsx with heq' | hin
                      · exact hne_se heq'
                      · exact hSnGD hin)
                (by
                  intro j hj hjGD
                  have hjs := hc62 j hj (List.mem_cons_of_mem _ hjGD)
                  have hsx : r.start ∈ r.end_ :: GD := by rw [← hjs]; exact hjGD
                  rcases List.mem_cons.mp hsx with heq' | hin
                  · exact hne_se heq'
                  · exact hSnGD hin)
                hnd2 hOO2
                (by
                  intro q hq a hra hedge'
                  rcases List.mem_cons.mp hq with rfl | hq'
                  · have hla : liveAt g a = true := live_of_reach hwfs hml.2 hra
                    have haid : a = id := end_edge_unique hwfo hl hcomp hmem' hla hedge'
                    subst haid
                    exact absurd hra (hacy a r.end_ hedges.2)
                  · exact hGDx q hq' a (Relation.ReflTransGen.head hedges.2 hra) hedge')
                (List.mem_cons_self _ _)
                hEOwn2 hESE2
            simp only [eOwner] at hδ2 hpart3 hc63
            have happ2 := runEnd_append g
              (mMeasure g ⟨seen₂, [.preds r.end_ (predsD g r.end_).length], out₁, false⟩)
              seen₂ [.preds r.end_ (predsD g r.end_).length] [.regs id c'] out₁ (le_refl _)
            rw [show ([Entry.preds r.end_ (predsD g r.end_).length] ++
              [Entry.regs id c'] : List Entry) =
              [Entry.preds r.end_ (predsD g r.end_).length, Entry.regs id c'] from rfl,
              heq2] at happ2
            rw [if_neg (fun hpk => Bool.noConfusion hpk)] at happ2
            dsimp only at happ2
            obtain ⟨δe₀, hδe⟩ := hδ2
            have hEndIn2 : r.end_ ∈ out₂ := by
              rw [hδe]
              exact List.mem_append_right _ (List.mem_singleton_self _)
            have houtsub2 : ∀ j ∈ out₁, j ∈ out₂ := by
              intro j hj
              rw [hδe]
              exact List.mem_append_left _ (List.mem_append_left _ hj)
            have hu3 : unseenCount seen₃ ≤ unseenCount seen₂ :=
              unseenCount_le_of_mono seen₃ seen₂ hlen3 hmono3
            have hmul3 : bigW g * unseenCount seen₃ ≤ bigW g * unseenCount seen₂ :=
              Nat.mul_le_mul_left _ hu3
            have hmesCont : mMeasure g ⟨seen₃, [.regs id c'], out₂, false⟩ ≤ m := by
              have e1 : mMeasure g ⟨seen₃, [Entry.regs id c'], out₂, false⟩ =
                  bigW g * unseenCount seen₃ + (entryWeight g (.regs id c') + 0) := rfl
              have e2 : mMeasure g ⟨seen₂,
                  [Entry.preds r.end_ (predsD g r.end_).length], out₁, false⟩ =
                  bigW g * unseenCount seen₂ +
                  (entryWeight g (.preds r.end_ (predsD g r.end_).length) + 0) := rfl
              omega
            obtain ⟨out₃, seen₄, heq3, hδ3, hlen4, hmono4, hpart4, hc64, hnd4, hOO4,
                hEOwn4, hESE4⟩ :=
              ih seen₃ (.regs id c') out₂ GD hmesCont
                (by rw [hlen3, hlen2]; simp [hlen])
                ⟨hl, hmono3 _ (hmono2 _ (seenAt_set_true_mono (seenAt_set_true_mono hs))),
                  by rw [hrleq]; omega,
                  fun l hl' => hmono3 _ (hmono2 _ (seenAt_set_true_mono
                    (seenAt_set_true_mono (h4seen l hl')))),
                  fun _ => hcomp, fun _ => by
                    intro r' hr'
                    rw [hrleq, take_sub_succ hclt, ← hr] at hr'
                    rcases List.mem_append.mp hr' with h | h
                    · obtain ⟨ha, hb⟩ := h6seen hcomp r' (by rw [hrleq]; exact h)
                      exact ⟨hmono3 _ (hmono2 _ (seenAt_set_true_mono
                          (seenAt_set_true_mono ha))),
                        hmono3 _ (hmono2 _ (seenAt_set_true_mono
                          (seenAt_set_true_mono hb)))⟩
                    · rw [List.mem_singleton] at h
                      subst h
                      exact ⟨hmono3 _ (hmono2 _ hseenSx), hmono3 _ (hmono2 _ hseenEx)⟩⟩
                ⟨fun l hl' => houtsub2 _ (houtsub1 _ (hEO4 l hl')), fun _ => by
                  intro r' hr'
                  rw [hrleq, take_sub_succ hclt, ← hr] at hr'
                  rcases List.mem_append.mp hr' with h | h
                  · obtain ⟨ha, hb⟩ := hEO6 hcomp r' (by rw [hrleq]; exact h)
                    exact ⟨houtsub2 _ (houtsub1 _ ha), houtsub2 _ (houtsub1 _ hb)⟩
                  · rw [List.mem_singleton] at h
                    subst h
                    exact ⟨houtsub2 _ hStartIn1, hEndIn2⟩⟩
                (by
                  intro hk c'' r'' hc'' hr'' he''
                  obtain ⟨h1, h2⟩ := hEOb hk c'' r'' hc'' hr'' he''
                  exact ⟨hmono3 _ (hmono2 _ (seenAt_set_true_mono
                    (seenAt_set_true_mono h1))), houtsub2 _ (houtsub1 _ h2)⟩)
                (by
                  intro j
                  rw [hpart3 j]
                  constructor
                  · rintro (h | ⟨h, hne⟩)
                    · exact Or.inl h
                    · rcases List.mem_cons.mp h with rfl | h'
                      · exact absurd rfl hne
                      · exact Or.inr h'
                  · rintro (h | h)
                    · exact Or.inl h
                    · exact Or.inr ⟨List.mem_cons_of_mem _ h,
                      fun hje => hEnGD (by rw [← hje]; exact h)⟩)
                (by
                  intro j hj hjGD
                  have hjs := hc63 j hj (List.mem_cons_of_mem _ hjGD)
                  exact hEnGD (by rw [← hjs]; exact hjGD))
                hnd3 hOO3 hGDx hOwn hEOwn3 hESE3
            simp only [eOwner] at hδ3 hpart4 hc64
            refine ⟨out₃, seen₄, ?_, ?_, ?_, ?_, hpart4, hc64, hnd4, hOO4, hEOwn4, hESE4⟩
            · rw [hstep, happ1, happ2]
              exact heq3
            · obtain ⟨δc₀, hδc⟩ := hδ3
              refine ⟨δs₀ ++ [r.start] ++ δe₀ ++ [r.end_] ++ δc₀, ?_⟩
              rw [hδc, hδe, hδs]
              simp [eOwner, List.append_assoc]
            · rw [hlen4, hlen3, hlen2]
              simp
            · intro j hj
              exact hmono4 j (hmono3 j (hmono2 j (seenAt_set_true_mono
                (seenAt_set_true_mono hj))))

theorem roots_fold_nodup {S : Type} {g : Graph S} (hcov : g.active ≤ g.predecessors.length) :
    ∀ (roots : List Id) (s : MState), s.panicked = false → s.seen.length = g.active →
      (∀ rt ∈ roots, liveAt g rt = true) →
      ∃ F : List Entry,
        (roots.foldl (add_node_by_id g.predecessors) s).stack = F ++ s.stack ∧
        (F.map eOwner).Nodup ∧
        (∀ e ∈ F, seenAt s.seen (eOwner e) = false) := by
  intro roots
  induction roots with
  | nil =>
    intro s hpk hlen _
    exact ⟨[], rfl, List.nodup_nil, by simp⟩
  | cons rt roots ihr =>
    intro s hpk hlen hlive
    obtain ⟨seen, stack, out, pk⟩ := s
    simp only at hpk hlen
    subst hpk
    have hrt := hlive rt (List.mem_cons_self rt roots)
    have hrest : ∀ r ∈ roots, liveAt g r = true :=
      fun r hr => hlive r (List.mem_cons_of_mem rt hr)
    rcases anbi_char hcov hlen hrt with ⟨hsr, heqA⟩ | ⟨hsr, heqA⟩
    · obtain ⟨F, hf, hnodup, hfresh⟩ := ihr ⟨seen, stack, out, false⟩ rfl hlen hrest
      refine ⟨F, ?_, hnodup, hfresh⟩
      rw [List.foldl_cons, heqA stack out]
      exact hf
    · have hlen1 : (seen.set rt true).length = g.active := by simp [hlen]
      obtain ⟨F, hf, hnodup, hfresh⟩ :=
        ihr ⟨seen.set rt true, .preds rt (predsD g rt).length :: stack, out, false⟩ rfl
          hlen1 hrest
      have hrtlen : rt < seen.length := by
        rw [hlen]
        exact lt_activeAux_of_isSome _ _ hrt
      have howner_ne : ∀ e ∈ F, eOwner e ≠ rt := by
        intro e he heq
        have := hfresh e he
        rw [heq] at this
        rw [seenAt_set_self hrtlen] at this
        exact Bool.noConfusion this
      refine ⟨F ++ [.preds rt (predsD g rt).length], ?_, ?_, ?_⟩
      · rw [List.foldl_cons, heqA stack out, hf]
        simp [List.append_assoc]
      · rw [List.map_append]
        refine nodup_snoc hnodup ?_
        intro hmem
        obtain ⟨e, he, heq⟩ := List.mem_map.mp hmem
        exact howner_ne e he heq
      · intro e he
        rcases List.mem_append.mp he with he | he
        · have h1 := hfresh e he
          cases hx : seenAt seen (eOwner e)
          · rfl
          · rw [seenAt_set_true_mono hx] at h1
            exact Bool.noConfusion h1
        · rw [List.mem_singleton] at he
          subst he
          exact hsr

theorem set_up_roots_nodup {S : Type} {g : Graph S} (hcov : g.active ≤ g.predecessors.length)
    (roots : List Id) (hroots : ∀ rt ∈ roots, liveAt g rt = true) :
    ((set_up_roots g roots).stack.map eOwner).Nodup := by
  obtain ⟨F, hf, hnodup, _⟩ :=
    roots_fold_nodup hcov roots ⟨List.replicate g.active false, [], [], false⟩ rfl
      (by simp) hroots
  have hst : (set_up_roots g roots).stack =
      (roots.foldl (add_node_by_id g.predecessors)
        ⟨List.replicate g.active false, [], [], false⟩).stack.reverse := by
    unfold set_up_roots
    dsimp only
  rw [hst, hf]
  simp only [List.append_nil, List.map_reverse]
  exact List.nodup_reverse.mpr hnodup

theorem frames_ord {S : Type} {g : Graph S} (hwfs : WFS g) (hwfo : WFO g) (hacy : Acyclic g) :
    ∀ (fs : List Entry) (seen : List Bool) (out : List Id),
      (∀ e ∈ fs, ∃ rt, e = .preds rt (predsD g rt).length ∧ liveAt g rt = true ∧
        markerEndAt g rt = false) →
      (∀ e ∈ fs, ∀ e' ∈ fs, eOwner e ≠ eOwner e' → ¬ Reach g (eOwner e) (eOwner e')) →
      (fs.map eOwner).Nodup →
      seen.length = g.active →
      (∀ j, seenAt seen j = true ↔ j ∈ out ∨ j ∈ fs.map eOwner) →
      (∀ j ∈ out, j ∉ fs.map eOwner) →
      out.Nodup → OutOrd g out → EndOwner g seen out → EndSE g seen out →
      ∃ (out' : List Id) (seen' : List Bool),
        runEnd g ⟨seen, fs, out, false⟩ = ⟨seen', [], out', false⟩ ∧
        (∀ j, seenAt seen' j = true ↔ j ∈ out') ∧
        out'.Nodup ∧ OutOrd g out' ∧ EndOwner g seen' out' ∧ EndSE g seen' out' := by
  intro fs
  induction fs with
  | nil =>
    intro seen out _ _ _ _ hpart _ hnd hOO hEOwn hESE
    refine ⟨out, seen, runEnd_terminal g _ (Or.inr rfl), ?_, hnd, hOO, hEOwn, hESE⟩
    intro j
    rw [hpart j]
    simp
  | cons f fs' ihf =>
    intro seen out hshape hindep hnodup hlen hpart hdis hnd hOO hEOwn hESE
    obtain ⟨rt, rfl, hliv, hnend⟩ := hshape f (List.mem_cons_self f fs')
    simp only [List.map_cons, eOwner] at hpart hdis hnodup
    have hrt_notin : rt ∉ fs'.map eOwner := (List.nodup_cons.mp hnodup).1
    have hnodup' : (fs'.map eOwner).Nodup := (List.nodup_cons.mp hnodup).2
    have hseenrt : seenAt seen rt = true :=
      (hpart rt).mpr (Or.inr (List.mem_cons_self rt _))
    obtain ⟨out₁, seen₂, heq1, hδ1, hlen2, hmono2, hpart2, hc62, hnd2, hOO2,
        hEOwn2, hESE2⟩ :=
      piece_ord hwfs hwfo hacy
        (mMeasure g ⟨seen, [.preds rt (predsD g rt).length], out, false⟩)
        seen (.preds rt (predsD g rt).length) out (rt :: fs'.map eOwner) (le_refl _) hlen
        (EntryInv_fresh hliv hseenrt)
        (by
          intro l hl'
          rw [Nat.sub_self, List.take_zero] at hl'
          exact absurd hl' (List.not_mem_nil l))
        (by
          intro hk
          have hk' : markerEndAt g rt = true := hk
          rw [hnend] at hk'
          exact Bool.noConfusion hk')
        hpart hdis hnd hOO
        (by
          intro q hq a hra hedge'
          rcases List.mem_cons.mp hq with rfl | hq'
          · exact absurd hra (hacy a q hedge')
          · obtain ⟨e', he', heq'⟩ := List.mem_map.mp hq'
            have hne : rt ≠ q := fun hx => hrt_notin (hx ▸ hq')
            have hnr := hindep (.preds rt (predsD g rt).length)
              (List.mem_cons_self _ _) e' (List.mem_cons_of_mem _ he')
              (by rw [heq']; exact hne)
            rw [heq'] at hnr
            exact hnr (Relation.ReflTransGen.tail hra hedge'))
        (List.mem_cons_self _ _) hEOwn hESE
    simp only [eOwner] at hδ1 hpart2 hc62
    have happ := runEnd_append g
      (mMeasure g ⟨seen, [.preds rt (predsD g rt).length], out, false⟩)
      seen [.preds rt (predsD g rt).length] fs' out (le_refl _)
    rw [show ([Entry.preds rt (predsD g rt).length] ++ fs' : List Entry) =
      Entry.preds rt (predsD g rt).length :: fs' from rfl, heq1] at happ
    rw [if_neg (fun hpk => Bool.noConfusion hpk)] at happ
    dsimp only at happ
    obtain ⟨out₂, seen₃, heq2, hpart3, hnd3, hOO3, hEOwn3, hESE3⟩ :=
      ihf seen₂ out₁
        (fun e he => hshape e (List.mem_cons_of_mem _ he))
        (fun e he e' he' => hindep e (List.mem_cons_of_mem _ he) e'
          (List.mem_cons_of_mem _ he'))
        hnodup' (by rw [hlen2]; exact hlen)
        (by
          intro j
          rw [hpart2 j]
          constructor
          · rintro (h | ⟨h, hne⟩)
            · exact Or.inl h
            · rcases List.mem_cons.mp h with rfl | h'
              · exact absurd rfl hne
              · exact Or.inr h'
          · rintro (h | h)
            · exact Or.inl h
            · exact Or.inr ⟨List.mem_cons_of_mem _ h, fun hje => hrt_notin (hje ▸ h)⟩)
        (by
          intro j hj hjGD
          have hjs := hc62 j hj (List.mem_cons_of_mem _ hjGD)
          exact hrt_notin (hjs ▸ hjGD))
        hnd2 hOO2 hEOwn2 hESE2
    exact ⟨out₂, seen₃, by rw [happ]; exact heq2, hpart3, hnd3, hOO3, hEOwn3, hESE3⟩

theorem edgeTargets_oob {S : Type} (g : Graph S) (a : Id)
    (h : max g.predecessors.length g.nodes.slots.length ≤ a) : edgeTargets g a = [] := by
  have hp : g.predecessors.length ≤ a := le_trans (Nat.le_max_left _ _) h
  have hs : g.nodes.slots.length ≤ a := le_trans (Nat.le_max_right _ _) h
  have h1 : predsD g a = [] := getD_of_ge [] hp
  have h2 : isCompoundAt g a = false := by
    unfold isCompoundAt Arena.get
    rw [getD_of_ge none hs]
  unfold edgeTargets
  rw [h1, h2]
  rfl

theorem wfo_of_check {S : Type} {g : Graph S} (h : wfoCheck g = true) : WFO g := by
  unfold wfoCheck at h
  rw [Bool.and_eq_true] at h
  obtain ⟨h1, h2⟩ := h
  rw [List.all_eq_true] at h1 h2
  have hlt_of_live : ∀ id : Id, liveAt g id = true → id < g.nodes.slots.length := by
    intro id hlv
    unfold liveAt Arena.get at hlv
    cases hx : g.nodes.slots.getD id none with
    | none => rw [hx] at hlv; exact Bool.noConfusion hlv
    | some x => exact lt_length_of_getD_some hx
  have key1 : ∀ id : Id, liveAt g id = true →
      ((predsD g id).all fun l => !(markerEndAt g l.node)) = true ∧
      (!(isCompoundAt g id) ||
        ((regionsOfD g id).all fun r =>
          markerStartAt g r.start && markerEndAt g r.end_ &&
          decide (predsD g r.start = []))) = true := by
    intro id hlv
    have hb := h1 id (List.mem_range.mpr (hlt_of_live id hlv))
    rw [hlv] at hb
    simp only [Bool.not_true, Bool.false_or, Bool.and_eq_true] at hb
    exact hb
  have key2 : ∀ id : Id, liveAt g id = true → isCompoundAt g id = true →
      ∀ r ∈ regionsOfD g id,
        markerStartAt g r.start = true ∧ markerEndAt g r.end_ = true ∧
        predsD g r.start = [] := by
    intro id hlv hc r hr
    have h3 := (key1 id hlv).2
    rw [hc] at h3
    simp only [Bool.not_true, Bool.false_or] at h3
    rw [List.all_eq_true] at h3
    have h4 := h3 r hr
    simp only [Bool.and_eq_true, decide_eq_true_eq] at h4
    exact ⟨h4.1.1, h4.1.2, h4.2⟩
  refine ⟨?_, ?_, ?_, ?_, ?_⟩
  · intro id hlv hc r hr
    exact (key2 id hlv hc r hr).1
  · intro id hlv hc r hr
    exact (key2 id hlv hc r hr).2.1
  · intro id hlv hc r hr
    exact (key2 id hlv hc r hr).2.2
  · intro id hlv l hl'
    have h3 := (key1 id hlv).1
    rw [List.all_eq_true] at h3
    simpa using h3 l hl'
  · intro id id' hlv hc hlv' hc' r hr r' hr' hre
    have hb := h2 id (List.mem_range.mpr (hlt_of_live id hlv))
    rw [hlv, hc] at hb
    simp only [Bool.true_and, Bool.not_true, Bool.false_or] at hb
    rw [List.all_eq_true] at hb
    have hb2 := hb id' (List.mem_range.mpr (hlt_of_live id' hlv'))
    rw [hlv', hc'] at hb2
    simp only [Bool.true_and, Bool.not_true, Bool.false_or] at hb2
    rw [List.all_eq_true] at hb2
    have hb3 := hb2 r hr
    rw [List.all_eq_true] at hb3
    have hb4 := hb3 r' hr'
    rw [show (r.end_ == r'.end_) = true from beq_iff_eq.mpr hre] at hb4
    simp only [Bool.not_true, Bool.false_or, Bool.and_eq_true, decide_eq_true_eq] at hb4
    exact hb4

theorem acyclic_of_ranked {S : Type} {g : Graph S} {rank : List Nat}
    (h : rankedAcyclicCheck g rank = true) : Acyclic g := by
  have hedge : ∀ a b : Id, edgeG g a b → rank.getD b 0 < rank.getD a 0 := by
    intro a b hab
    by_cases hlt : a < max g.predecessors.length g.nodes.slots.length
    · unfold rankedAcyclicCheck at h
      rw [List.all_eq_true] at h
      have h2 := h a (List.mem_range.mpr hlt)
      rw [List.all_eq_true] at h2
      exact of_decide_eq_true (h2 b hab)
    · exfalso
      have hb : b ∈ edgeTargets g a := hab
      rw [edgeTargets_oob g a (Nat.le_of_not_lt hlt)] at hb
      exact absurd hb (List.not_mem_nil b)
  have hreach : ∀ a b : Id, Reach g a b → rank.getD b 0 ≤ rank.getD a 0 := by
    intro a b hr
    induction hr with
    | refl => exact le_refl _
    | @tail x y hax hxy ih => exact le_trans (le_of_lt (hedge _ _ hxy)) ih
  intro a b hab hr
  have hx1 := hedge a b hab
  have hx2 := hreach b a hr
  omega

/-- **C1** (corrected).  For a graph satisfying the data-model invariants
(structural well-formedness, marker discipline, acyclicity) and a root set
of live keys, none an `End` marker, none reachable from another root,
`ReverseTopological::run` emits exactly the nodes reachable from the roots,
each exactly once, every node strictly after all of its dependency targets
(its parameter producers and, for a compound, its region markers), and for
every region of an emitted compound the `Start` marker strictly before the
`End` marker.  (The original claim's stronger per-region contiguous
`Start`, body, `End` sequencing is refuted by `gCx`.) -/
theorem claim_C1 {S : Type} (g : Graph S) (roots : List Id) (hwfs : WFS g) (hwfo : WFO g)
    (hacy : Acyclic g) (hro : RootsOk g roots)
    (hnoend : ∀ rt ∈ roots, markerEndAt g rt = false) :
    (ReverseTopological.run g roots).panicked = false ∧
    (ReverseTopological.run g roots).out.Nodup ∧
    (∀ id : Id, id ∈ (ReverseTopological.run g roots).out ↔ ∃ rt ∈ roots, Reach g rt id) ∧
    OutOrd g (ReverseTopological.run g roots).out ∧
    (∀ c : Id, c ∈ (ReverseTopological.run g roots).out → isCompoundAt g c = true →
      ∀ r ∈ regionsOfD g c,
        r.start ∈ (ReverseTopological.run g roots).out ∧
        r.end_ ∈ (ReverseTopological.run g roots).out ∧
        emitsBefore (ReverseTopological.run g roots).out r.start r.end_) := by
  obtain ⟨hlive, hindep⟩ := hro
  obtain ⟨seen₀, stack₀, hsu, hl0, hiff0, hframes0, hcover0⟩ :=
    set_up_roots_facts hwfs.pred_cover roots hlive
  have hnodup0 : (stack₀.map eOwner).Nodup := by
    have hx := set_up_roots_nodup hwfs.pred_cover roots hlive
    rw [hsu] at hx
    exact hx
  have howner_roots : ∀ j, j ∈ stack₀.map eOwner ↔ j ∈ roots := by
    intro j
    constructor
    · intro hj
      obtain ⟨e, he, heq⟩ := List.mem_map.mp hj
      obtain ⟨rt, hrt, rfl⟩ := hframes0 e he
      simp only [eOwner] at heq
      rw [← heq]
      exact hrt
    · intro hj
      have hmem := hcover0 j hj
      have h2 : eOwner (Entry.preds j (predsD g j).length) ∈ stack₀.map eOwner :=
        List.mem_map_of_mem eOwner hmem
      simp only [eOwner] at h2
      exact h2
  obtain ⟨out', seen'', heqr, hpart', hnd', hOO', hEOwn', hESE'⟩ :=
    frames_ord hwfs hwfo hacy stack₀ seen₀ []
      (fun e he => by
        obtain ⟨rt, hrt, rfl⟩ := hframes0 e he
        exact ⟨rt, rfl, hlive rt hrt, hnoend rt hrt⟩)
      (fun e he e' he' hne => by
        obtain ⟨rt, hrt, rfl⟩ := hframes0 e he
        obtain ⟨rt', hrt', rfl⟩ := hframes0 e' he'
        simp only [eOwner] at hne ⊢
        exact hindep rt hrt rt' hrt' hne)
      hnodup0 hl0
      (by
        intro j
        rw [hiff0 j]
        rw [show (j ∈ ([] : List Id) ∨ j ∈ stack₀.map eOwner) ↔ j ∈ stack₀.map eOwner by
          simp]
        exact (howner_roots j).symm)
      (by intro j hj; exact absurd hj (List.not_mem_nil j))
      List.nodup_nil
      (by intro i a ha; rw [List.getElem?_nil] at ha; exact Option.noConfusion ha)
      (by intro c hcomp r hr hend; exact absurd hend (List.not_mem_nil _))
      (by intro c hcomp r hr hend; exact absurd hend (List.not_mem_nil _))
  have hrun : ReverseTopological.run g roots = ⟨seen'', [], out', false⟩ := by
    unfold ReverseTopological.run
    rw [hsu]
    exact heqr
  obtain ⟨-, -, hreach, -⟩ := run_facts hwfs roots hlive
  rw [hrun] at hreach
  refine ⟨by rw [hrun], by rw [hrun]; exact hnd', ?_, ?_, ?_⟩
  · intro id
    rw [hrun]
    dsimp only
    rw [← hpart' id]
    exact hreach id
  · rw [hrun]
    exact hOO'
  · intro c hc hcomp r hr
    rw [hrun] at hc ⊢
    dsimp only at hc ⊢
    obtain ⟨i, hi, hieq⟩ := mem_getElem? hc
    have hendT : r.end_ ∈ edgeTargets g c := (edge_of_marker g hcomp hr).2
    obtain ⟨j, hj, hjeq⟩ := hOO' i c hieq r.end_ hendT
    have hendMem : r.end_ ∈ out' := mem_of_getElem?_some hjeq
    have hseenc : seenAt seen'' c = true := (hpart' c).mpr hc
    have hse := hESE' c hcomp r hr hendMem hseenc
    exact ⟨hse.1, hendMem, hse.2⟩

/-- Counterexample to the literal C1: `gCx` satisfies all the data-model
invariant certificates and its roots `[2, 5]` are live, yet the run emits
the `End` marker `2` of compound `5`'s region `(1, 2)` before its `Start`
marker `1` (output `[0, 2, 3, 4, 1, 5]`), because root `2` names the `End`
marker directly and drags it out before the compound's walk begins.  The
claimed `Start`, body, `End` sequencing therefore fails. -/
theorem claim_C1_counterexample :
    wfsCheck gCx = true ∧ wfoCheck gCx = true ∧
    rankedAcyclicCheck gCx [0, 0, 1, 0, 1, 2] = true ∧
    (∀ rt ∈ [2, 5], liveAt gCx rt = true) ∧
    (ReverseTopological.run gCx [2, 5]).panicked = false ∧
    (ReverseTopological.run gCx [2, 5]).out = [0, 2, 3, 4, 1, 5] ∧
    5 ∈ (ReverseTopological.run gCx [2, 5]).out ∧
    isCompoundAt gCx 5 = true ∧ (⟨1, 2⟩ : Region) ∈ regionsOfD gCx 5 ∧
    ¬ emitsBefore (ReverseTopological.run gCx [2, 5]).out 1 2 := by
  decide

/-- Witness for the corrected C1 at the chain graph with root `2`. -/
theorem claim_C1_witness :
    wfsCheck gChain = true ∧ wfoCheck gChain = true ∧
    rankedAcyclicCheck gChain [0, 1, 2] = true ∧
    RootsOk gChain [2] ∧ (∀ rt ∈ [2], markerEndAt gChain rt = false) ∧
    ((ReverseTopological.run gChain [2]).panicked = false ∧
     (ReverseTopological.run gChain [2]).out.Nodup ∧
     (∀ id : Id, id ∈ (ReverseTopological.run gChain [2]).out ↔
        ∃ rt ∈ [2], Reach gChain rt id) ∧
     OutOrd gChain (ReverseTopological.run gChain [2]).out ∧
     (∀ c : Id, c ∈ (ReverseTopological.run gChain [2]).out →
        isCompoundAt gChain c = true → ∀ r ∈ regionsOfD gChain c,
          r.start ∈ (ReverseTopological.run gChain [2]).out ∧
          r.end_ ∈ (ReverseTopological.run gChain [2]).out ∧
          emitsBefore (ReverseTopological.run gChain [2]).out r.start r.end_)) := by
  have hind : ∀ r ∈ [2], ∀ r' ∈ [2], r ≠ r' → ¬ Reach gChain r r' := by
    intro r hr r' hr' hne
    rw [List.mem_singleton] at hr hr'
    subst hr
    subst hr'
    exact absurd rfl hne
  exact ⟨by decide, by decide, by decide, ⟨by decide, hind⟩, by decide,
    claim_C1 gChain [2] (wfs_of_check (by decide)) (wfo_of_check (by decide))
      (acyclic_of_ranked (by decide : rankedAcyclicCheck gChain [0, 1, 2] = true))
      ⟨by decide, hind⟩ (by decide)⟩

end Regioned
